import Mathlib

/-!
# Verification of the Autonomous-Delivery-System pathfinding core

Shallow embedding of `src/environment.py`, `src/algorithms.py` and
`src/agent.py`.  Pure functions of the Python source become Lean
functions; the mutable search loops become fuel-indexed recursive
functions on explicit state; Python floats used for costs (integers
plus `float('inf')`) become `WithTop Int`; the parent back-pointer
chain of search nodes is modelled as the accumulated list of states in
reverse order (path reconstruction in the source walks parent links and
reverses, which is exactly `List.reverse` of that accumulator).
Wall-clock time (`time_taken`) is not modelled.  `heapq` pops some
element of minimal `f_cost`; we model it as the leftmost element of
minimal `f_cost` of the push-ordered list.
-/

/-- Grid position, a pair of integers `(x, y)` as in the Python tuples. -/
abbrev Pos := Int × Int

/-- `CellType` enum of `environment.py`. -/
inductive CellType where
  | empty
  | obstacle
  | start
  | goal
  | agent
  | movingObstacle
deriving DecidableEq, Repr

/-- `MovingObstacle` dataclass of `environment.py`. -/
structure MovingObstacle where
  id : Int
  positions : List Pos
  current_step : Int := 0
deriving DecidableEq, Repr

namespace MovingObstacle

/-- `MovingObstacle.get_position_at_time`: `positions[time % len(positions)]`,
`(-1, -1)` when the pattern is empty.  Python `%` on a positive modulus is
non-negative, matching `Int.emod`. -/
def get_position_at_time (o : MovingObstacle) (time : Int) : Pos :=
  if o.positions = [] then (-1, -1)
  else o.positions.getD (time % (o.positions.length : Int)).toNat (-1, -1)

end MovingObstacle

/-- `GridEnvironment` of `environment.py`: `grid[y][x]` row-major lists. -/
structure GridEnvironment where
  width : Int
  height : Int
  grid : List (List CellType)
  terrain_costs : List (List Int)
  start_pos : Option Pos
  goal_pos : Option Pos
  moving_obstacles : List MovingObstacle
  current_time : Int
deriving DecidableEq, Repr

namespace GridEnvironment

/-- `is_valid_position`: `0 <= x < width and 0 <= y < height`. -/
def is_valid_position (env : GridEnvironment) (x y : Int) : Bool :=
  decide (0 ≤ x) && decide (x < env.width) && decide (0 ≤ y) && decide (y < env.height)

/-- The cell `grid[y][x]`; the source only reads it behind an
`is_valid_position` guard, the default is never observed. -/
def cell_at (env : GridEnvironment) (x y : Int) : CellType :=
  (env.grid.getD y.toNat []).getD x.toNat CellType.empty

/-- The integer `terrain_costs[y][x]`; only read behind a validity guard. -/
def terrain_int (env : GridEnvironment) (x y : Int) : Int :=
  (env.terrain_costs.getD y.toNat []).getD x.toNat 0

/-- `get_terrain_cost`: the stored cost in bounds, `float('inf')` outside. -/
def get_terrain_cost (env : GridEnvironment) (x y : Int) : WithTop Int :=
  if env.is_valid_position x y then (env.terrain_int x y : WithTop Int) else ⊤

/-- `is_passable(x, y, time)`: in bounds, not a static obstacle, and at a
given time not covered by any moving obstacle (`time = none` models the
Python default `time=None`, which skips the moving-obstacle check). -/
def is_passable (env : GridEnvironment) (x y : Int) (time : Option Int) : Bool :=
  env.is_valid_position x y &&
  !(env.cell_at x y = CellType.obstacle : Bool) &&
  (match time with
   | none => true
   | some t => env.moving_obstacles.all
       (fun o => !(o.get_position_at_time t = (x, y) : Bool)))

/-- `get_neighbors`: 4-connected passable neighbours, generated in the
source's direction order up, right, down, left. -/
def get_neighbors (env : GridEnvironment) (x y : Int) (time : Option Int) : List Pos :=
  ([(0, 1), (1, 0), (0, -1), (-1, 0)] : List (Int × Int)).filterMap
    (fun d =>
      let nx := x + d.1
      let ny := y + d.2
      if env.is_passable nx ny time then some (nx, ny) else none)

/-- `update_time`: advance the shared clock by one tick. -/
def update_time (env : GridEnvironment) : GridEnvironment :=
  { env with current_time := env.current_time + 1 }

end GridEnvironment

/-- `manhattan_distance` of `algorithms.py`. -/
def manhattan_distance (p1 p2 : Pos) : Int :=
  |p1.1 - p2.1| + |p1.2 - p2.2|

/-- `SearchResult` dataclass (wall-clock `time_taken` not modelled; the
float cost field is `WithTop Int`: the integers plus `float('inf')`). -/
structure SearchResult where
  path : List Pos
  cost : WithTop Int
  nodes_expanded : Nat
  success : Bool
  algorithm : String
deriving DecidableEq, Repr

/-- Search node over an abstract search-state type `σ` (`Pos` for BFS,
UCS and A*, `Pos × Int` for Temporal A*).  `g`, `h`, `f` are the
`g_cost`, `h_cost`, `f_cost` fields; `rev` is the parent chain: the
states from the start to this node in reverse order. -/
structure SNode (σ : Type) where
  state : σ
  g : Int
  h : Int
  f : Int
  rev : List σ
deriving DecidableEq, Repr

/-- `reconstruct_path`: walk the parent chain and reverse. -/
def reconstructStates {σ : Type} (n : SNode σ) : List σ :=
  n.rev.reverse

/-- `heapq.heappop` model: remove the leftmost node of minimal `f`.
Returns the popped node and the remaining heap, `none` on the empty
heap. -/
def popMinF {σ : Type} : List (SNode σ) → Option (SNode σ × List (SNode σ))
  | [] => none
  | n :: rest =>
    match popMinF rest with
    | none => some (n, [])
    | some (m, rest2) => if n.f ≤ m.f then some (n, rest) else some (m, n :: rest2)

/-- Lookup in the `costs` dict, modelled as an association list whose
most recent binding comes first. -/
def lookupCost {σ : Type} [DecidableEq σ] (costs : List (σ × Int)) (s : σ) : Option Int :=
  (costs.find? (fun p => p.1 = s)).map (fun p => p.2)

/-- Outcome of a search loop: the goal node together with the
`nodes_expanded` counter, or frontier exhaustion. -/
inductive SearchOutcome (σ : Type) where
  | success (n : SNode σ) (expanded : Nat)
  | failure (expanded : Nat)
deriving DecidableEq, Repr

/-- The relaxation `for neighbor in ...` loop shared by UCS, A* and
Temporal A*: for each successor `s` with entering cost `w`, if the
tentative cost `cur.g + w` beats the recorded cost, record it and push a
node (`heapq.heappush` modelled as appending to the push-ordered
list). -/
def relaxSuccs {σ : Type} [DecidableEq σ] (hfun : σ → Int) (cur : SNode σ) :
    List (σ × Int) → List (SNode σ) → List (σ × Int) →
    List (SNode σ) × List (σ × Int)
  | [], heap, costs => (heap, costs)
  | (s, w) :: tl, heap, costs =>
    let newg := cur.g + w
    let better := match lookupCost costs s with
      | none => true
      | some c => decide (newg < c)
    if better then
      relaxSuccs hfun cur tl
        (heap ++ [⟨s, newg, hfun s, newg + hfun s, s :: cur.rev⟩])
        ((s, newg) :: costs)
    else
      relaxSuccs hfun cur tl heap costs

/-- The `while heap:` loop shared by UCS, A* and Temporal A*
(`algorithms.py` lines 118-145, 169-198, 221-271): pop a minimal-`f`
node; skip it if its state was already expanded; otherwise mark it
expanded, stop if it is a goal state, and otherwise relax its
successors.  `fuel` bounds the number of iterations; `none` means the
fuel ran out before the loop finished. -/
def searchLoop {σ : Type} [DecidableEq σ] (succ : σ → List (σ × Int)) (hfun : σ → Int)
    (isGoal : σ → Bool) :
    Nat → List (SNode σ) → List σ → List (σ × Int) → Nat → Option (SearchOutcome σ)
  | 0, _, _, _, _ => none
  | Nat.succ fuel, heap, visited, costs, expanded =>
    match popMinF heap with
    | none => some (SearchOutcome.failure expanded)
    | some (cur, rest) =>
      if cur.state ∈ visited then
        searchLoop succ hfun isGoal fuel rest visited costs expanded
      else
        let visited2 := cur.state :: visited
        if isGoal cur.state then
          some (SearchOutcome.success cur (expanded + 1))
        else
          let hc := relaxSuccs hfun cur (succ cur.state) rest costs
          searchLoop succ hfun isGoal fuel hc.1 visited2 hc.2 (expanded + 1)

/-- Successor function of UCS and A* (`algorithms.py` 138-145, 189-198):
the passable 4-neighbours, each paying the terrain cost of the cell
being entered.  Neighbours are always in bounds, where
`get_terrain_cost` is the stored integer. -/
def spatialSucc (env : GridEnvironment) (p : Pos) : List (Pos × Int) :=
  (env.get_neighbors p.1 p.2 none).map (fun q => (q, env.terrain_int q.1 q.2))

/-- `UniformCostSearch.find_path`.  The initial heap holds
`Node(start, 0, 0, 0)` and `costs = {start: 0}`. -/
def ucs_find_path (fuel : Nat) (env : GridEnvironment) (start goal : Pos) :
    Option SearchResult :=
  match searchLoop (spatialSucc env) (fun _ => 0) (fun p => p = goal)
      fuel [⟨start, 0, 0, 0, [start]⟩] [] [(start, 0)] 0 with
  | none => none
  | some (SearchOutcome.success n exp) =>
    some ⟨(reconstructStates n), (n.g : WithTop Int), exp, true, "UCS"⟩
  | some (SearchOutcome.failure exp) =>
    some ⟨[], ⊤, exp, false, "UCS"⟩

/-- `AStarSearch.find_path` with the default Manhattan heuristic.  The
initial heap holds `Node(start, 0, h(start), h(start))` and
`costs = {start: 0}`. -/
def astar_find_path (fuel : Nat) (env : GridEnvironment) (start goal : Pos) :
    Option SearchResult :=
  match searchLoop (spatialSucc env) (fun p => manhattan_distance p goal)
      (fun p => p = goal)
      fuel [⟨start, 0, manhattan_distance start goal, manhattan_distance start goal, [start]⟩]
      [] [(start, 0)] 0 with
  | none => none
  | some (SearchOutcome.success n exp) =>
    some ⟨(reconstructStates n), (n.g : WithTop Int), exp, true, "A*"⟩
  | some (SearchOutcome.failure exp) =>
    some ⟨[], ⊤, exp, false, "A*"⟩

/-- Successor function of Temporal A* (`algorithms.py` 242-271): no
successors beyond the planning horizon; otherwise a wait action of cost
1 when the cell stays passable at the next tick, followed by the moves
to neighbours passable at the next tick, paying their terrain cost. -/
def temporalSucc (env : GridEnvironment) (start_time : Int) (planning_horizon : Int)
    (st : Pos × Int) : List ((Pos × Int) × Int) :=
  if st.2 - start_time > planning_horizon then []
  else
    let next_time := st.2 + 1
    (if env.is_passable st.1.1 st.1.2 (some next_time) then
      [((st.1, next_time), 1)]
     else []) ++
    (env.get_neighbors st.1.1 st.1.2 (some next_time)).map
      (fun q => ((q, next_time), env.terrain_int q.1 q.2))

/-- `TemporalAStar.find_path`: states are `(position, time)` pairs, the
heuristic ignores time, `costs` starts empty, and the goal test is on
the position alone. -/
def temporal_astar_find_path (fuel : Nat) (env : GridEnvironment)
    (planning_horizon : Int) (start goal : Pos) (start_time : Int) :
    Option SearchResult :=
  match searchLoop (temporalSucc env start_time planning_horizon)
      (fun st => manhattan_distance st.1 goal) (fun st => st.1 = goal)
      fuel
      [⟨(start, start_time), 0, manhattan_distance start goal,
        manhattan_distance start goal, [(start, start_time)]⟩]
      [] [] 0 with
  | none => none
  | some (SearchOutcome.success n exp) =>
    some ⟨(reconstructStates n).map (fun st => st.1), (n.g : WithTop Int), exp, true,
      "Temporal A*"⟩
  | some (SearchOutcome.failure exp) =>
    some ⟨[], ⊤, exp, false, "Temporal A*"⟩

/-- Node of the BFS queue: position plus the parent chain in reverse
order (the source's `Node(neighbor, 0, 0, 0, current)` uses only the
position and parent fields). -/
structure BNode where
  pos : Pos
  rev : List Pos
deriving DecidableEq, Repr

/-- The enqueueing `for neighbor in ...` loop of BFS (`algorithms.py`
96-100): unvisited neighbours are marked visited and appended. -/
def bfsRelax (cur : BNode) : List Pos → List BNode → List Pos → List BNode × List Pos
  | [], queue, visited => (queue, visited)
  | q :: tl, queue, visited =>
    if q ∈ visited then bfsRelax cur tl queue visited
    else bfsRelax cur tl (queue ++ [⟨q, q :: cur.rev⟩]) (q :: visited)

/-- The `while queue:` loop of BFS (`algorithms.py` 81-101): dequeue
FIFO, stop on the goal, else enqueue unvisited neighbours. -/
def bfsLoop (env : GridEnvironment) (goal : Pos) :
    Nat → List BNode → List Pos → Nat → Option (SearchOutcome Pos)
  | 0, _, _, _ => none
  | Nat.succ fuel, queue, visited, expanded =>
    match queue with
    | [] => some (SearchOutcome.failure expanded)
    | cur :: rest =>
      if cur.pos = goal then
        some (SearchOutcome.success ⟨cur.pos, 0, 0, 0, cur.rev⟩ (expanded + 1))
      else
        let qv := bfsRelax cur (env.get_neighbors cur.pos.1 cur.pos.2 none) rest visited
        bfsLoop env goal fuel qv.1 qv.2 (expanded + 1)

/-- `BreadthFirstSearch.find_path`: `visited = {start}` from the outset,
the success cost is `len(path) - 1`. -/
def bfs_find_path (fuel : Nat) (env : GridEnvironment) (start goal : Pos) :
    Option SearchResult :=
  match bfsLoop env goal fuel [⟨start, [start]⟩] [start] 0 with
  | none => none
  | some (SearchOutcome.success n exp) =>
    some ⟨(reconstructStates n), ((n.rev.length : Int) - 1 : Int), exp, true, "BFS"⟩
  | some (SearchOutcome.failure exp) =>
    some ⟨[], ⊤, exp, false, "BFS"⟩

/-! ## Abstract weighted paths over a successor function -/

/-! ## Derived definitions used by the proofs -/

section AbstractDefs

variable {σ : Type} [DecidableEq σ]
/-- `StepsFrom succ a steps`: `steps` is a sequence of legal weighted
transitions starting at `a`; each entry carries the state entered and
the weight paid for entering it. -/
def StepsFrom (succ : σ → List (σ × Int)) : σ → List (σ × Int) → Prop
  | _, [] => True
  | a, (b, w) :: tl => (b, w) ∈ succ a ∧ StepsFrom succ b tl

/-- Final state of a step sequence started at `a`. -/
def endState (a : σ) (steps : List (σ × Int)) : σ :=
  steps.foldl (fun _ p => p.1) a

/-- Total weight of a step sequence. -/
def stepsCost (steps : List (σ × Int)) : Int :=
  (steps.map Prod.snd).sum

/-- A heap node is well formed: its parent chain is a legal step
sequence from the start whose cost is the node's `g`, and `f = g + h`. -/
def NodeOk (succ : σ → List (σ × Int)) (hfun : σ → Int) (s0 : σ) (n : SNode σ) : Prop :=
  ∃ steps, StepsFrom succ s0 steps ∧
    n.state = endState s0 steps ∧
    n.g = stepsCost steps ∧
    n.f = n.g + hfun n.state ∧
    n.rev = (s0 :: steps.map Prod.fst).reverse

/-- `c` is a lower bound on the cost of every legal step sequence from
the start to `v`. -/
def IsLB (succ : σ → List (σ × Int)) (s0 : σ) (v : σ) (c : Int) : Prop :=
  ∀ steps, StepsFrom succ s0 steps → endState s0 steps = v → c ≤ stepsCost steps

/-- Invariant of `searchLoop`, in the spirit of the classical
correctness proof of Dijkstra's algorithm with a closed set and lazy
deletion.  (`visited_succ` avoids mentioning a recorded cost of the
visited state itself: Temporal A* starts with an empty cost dict, so an
expanded state need not own an entry.) -/
structure LoopInv (succ : σ → List (σ × Int)) (hfun : σ → Int) (isGoal : σ → Bool)
    (s0 : σ) (heap : List (SNode σ)) (visited : List σ) (costs : List (σ × Int)) :
    Prop where
  heap_sound : ∀ n ∈ heap, NodeOk succ hfun s0 n
  visited_succ : ∀ v ∈ visited, ∀ b w, (b, w) ∈ succ v →
      ∃ c, lookupCost costs b = some c ∧
        ∀ steps, StepsFrom succ s0 steps → endState s0 steps = v →
          c ≤ stepsCost steps + w
  costs_sound : ∀ p c, lookupCost costs p = some c →
      ∃ steps, StepsFrom succ s0 steps ∧ endState s0 steps = p ∧ stepsCost steps = c
  costs_heap : ∀ p c, lookupCost costs p = some c → p ∉ visited →
      ∃ m ∈ heap, m.state = p ∧ m.g = c
  start_cond : s0 ∈ visited ∨ ∃ n ∈ heap, n.state = s0 ∧ n.g ≤ 0
  goal_unvisited : ∀ v ∈ visited, isGoal v = false

end AbstractDefs
/-- A legal move path in the environment: consecutive positions are
passable 4-neighbours.  This is the notion of "path" of the spec's
cost and optimality claims. -/
def ValidMovePath (env : GridEnvironment) (l : List Pos) : Prop :=
  List.Chain' (fun a b => b ∈ env.get_neighbors a.1 a.2 none) l

/-- Structural decision procedure for `ValidMovePath` (the library
instance for `Chain'` does not reduce in the kernel). -/
instance instDecValidMovePath (env : GridEnvironment) :
    ∀ l : List Pos, Decidable (ValidMovePath env l)
  | [] => isTrue trivial
  | [_] => isTrue (List.chain'_singleton _)
  | a :: b :: tl =>
    if h : b ∈ env.get_neighbors a.1 a.2 none then
      match instDecValidMovePath env (b :: tl) with
      | isTrue ht => isTrue (List.chain'_cons.mpr ⟨h, ht⟩)
      | isFalse hf => isFalse (fun hc => hf (List.chain'_cons.mp hc).2)
    else isFalse (fun hc => h (List.chain'_cons.mp hc).1)

/-- Total terrain cost of a path: the sum of the terrain costs of its
cells, excluding the first. -/
def path_terrain_sum (env : GridEnvironment) (l : List Pos) : WithTop Int :=
  (l.tail.map (fun q => env.get_terrain_cost q.1 q.2)).sum

/-- The steps along a position path, each paying the terrain cost of
the cell entered. -/
def stepsOfPath (env : GridEnvironment) (l : List Pos) : List (Pos × Int) :=
  l.map (fun q => (q, env.terrain_int q.1 q.2))

/-- The finite universe of the spatial searches: the start plus all
in-bounds positions. -/
def spatialStates (env : GridEnvironment) (start : Pos) : Finset Pos :=
  insert start
    ((Finset.Icc (0 : Int) (env.width - 1)) ×ˢ (Finset.Icc (0 : Int) (env.height - 1)))

/-- 2-cell strip, terrain costs 1 and 2: BFS's reported cost (step
count) differs from the terrain sum. -/
def envStrip : GridEnvironment :=
  { width := 2, height := 1, grid := [[CellType.empty, CellType.empty]],
    terrain_costs := [[1, 2]],
    start_pos := none, goal_pos := none, moving_obstacles := [], current_time := 0 }

/-- 3x3 environment with two obstacles and a single cell of terrain
cost 1 in a field of zeros: the Manhattan heuristic overestimates and
A* returns a suboptimal cost. -/
def envZero : GridEnvironment :=
  { width := 3, height := 3,
    grid := [[CellType.empty, CellType.obstacle, CellType.obstacle],
             [CellType.empty, CellType.empty, CellType.empty],
             [CellType.empty, CellType.empty, CellType.empty]],
    terrain_costs := [[0, 0, 0], [0, 1, 0], [0, 0, 0]],
    start_pos := none, goal_pos := none, moving_obstacles := [], current_time := 0 }

/-- 1x5 free corridor with unit terrain. -/
def envCorridor : GridEnvironment :=
  { width := 5, height := 1,
    grid := [[CellType.empty, CellType.empty, CellType.empty, CellType.empty,
              CellType.empty]],
    terrain_costs := [[1, 1, 1, 1, 1]],
    start_pos := none, goal_pos := none, moving_obstacles := [], current_time := 0 }

/-- Lift of a spatial path into timed steps, one tick per move. -/
def liftSteps (env : GridEnvironment) : List Pos → Int → List ((Pos × Int) × Int)
  | [], _ => []
  | q :: tl, t => ((q, t + 1), env.terrain_int q.1 q.2) :: liftSteps env tl (t + 1)

/-- The finite universe of Temporal A*: the start state plus grid
positions paired with the bounded time window. -/
def temporalStates (env : GridEnvironment) (start : Pos) (t0 horizon : Int) :
    Finset (Pos × Int) :=
  insert (start, t0)
    ((spatialStates env start) ×ˢ (Finset.Icc (t0 + 1) (t0 + horizon + 2)))

/-- The invariant of the BFS `while queue:` loop.  Every queued node
carries a shortest valid path from the start to its position; the
queued depths are sorted and differ by at most one (the FIFO frontier
spans at most two BFS levels); every fully processed visited position
has all its neighbours visited; and if the goal has been marked
visited a queue node for it is still pending. -/
structure BfsInv (env : GridEnvironment) (start goal : Pos)
    (Q : List BNode) (V : List Pos) : Prop where
  node_ok : ∀ n ∈ Q, ∃ l, ValidMovePath env (start :: l) ∧
    n.rev = (start :: l).reverse ∧ (start :: l).getLast? = some n.pos
  node_min : ∀ n ∈ Q, ∀ l, ValidMovePath env (start :: l) →
    (start :: l).getLast? = some n.pos → n.rev.length ≤ (start :: l).length
  queue_visited : ∀ n ∈ Q, n.pos ∈ V
  lens_sorted : List.Sorted (fun a b => a ≤ b) (Q.map (fun n => n.rev.length))
  lens_spread : ∀ a ∈ Q.map (fun n => n.rev.length),
    ∀ b ∈ Q.map (fun n => n.rev.length), a ≤ b + 1
  processed_closed : ∀ p ∈ V, (∀ n ∈ Q, n.pos ≠ p) →
    ∀ q ∈ env.get_neighbors p.1 p.2 none, q ∈ V
  start_mem : start ∈ V
  distinct : Q.Pairwise (fun a b => a.pos ≠ b.pos)
  goal_queue : goal ∈ V → ∃ n ∈ Q, n.pos = goal

/-- `HillClimbingReplanner.is_valid_path`: consecutive positions are
(time-free) neighbours. -/
def is_valid_path (env : GridEnvironment) : List Pos → Bool
  | [] => true
  | [_] => true
  | a :: b :: tl =>
    if b ∈ env.get_neighbors a.1 a.2 none then is_valid_path env (b :: tl) else false

/-- The indexed sum of `HillClimbingReplanner.evaluate_path`: position
`i` of the path must be passable at `start_time + i`, and every
position but the first contributes its terrain cost. -/
def evalAux (env : GridEnvironment) (t0 : Int) : List Pos → Nat → WithTop Int
  | [], _ => 0
  | p :: tl, i =>
    (if env.is_passable p.1 p.2 (some (t0 + (i : Int))) then
      (if i = 0 then 0 else env.get_terrain_cost p.1 p.2)
    else ⊤) + evalAux env t0 tl (i + 1)

/-- `HillClimbingReplanner.evaluate_path`. -/
def evaluate_path (env : GridEnvironment) (path : List Pos) (t0 : Int) : WithTop Int :=
  if is_valid_path env path then evalAux env t0 path 0 else ⊤

/-- `HillClimbingReplanner.get_path_neighbors`: all single-waypoint
modifications of the path's interior that stay valid. -/
def get_path_neighbors (env : GridEnvironment) (path : List Pos) : List (List Pos) :=
  (List.range' 1 (path.length - 2)).flatMap (fun i =>
    (env.get_neighbors (path.getD i (0, 0)).1 (path.getD i (0, 0)).2 none).filterMap
      (fun nb =>
        let new_path := path.set i nb
        if is_valid_path env new_path then some new_path else none))

/-- The random walk of `perturb_path`: `oracle` supplies the draws of
`random.choice`, the accumulator holds the segment in reverse. -/
def walkSegment (env : GridEnvironment) (oracle : Nat → Nat) (segment_end : Pos) :
    Nat → Pos → List Pos → Nat → List Pos × Nat
  | 0, _, acc, k => (acc.reverse, k)
  | m + 1, current, acc, k =>
    let neighbors := env.get_neighbors current.1 current.2 none
    if neighbors = [] then (acc.reverse, k)
    else if segment_end ∈ neighbors then ((segment_end :: acc).reverse, k)
    else
      let nxt := neighbors.getD (oracle k % neighbors.length) current
      walkSegment env oracle segment_end m nxt (nxt :: acc) (k + 1)

/-- `HillClimbingReplanner.perturb_path`, with `random.randint(a, b)`
modelled as `a + oracle k % (b - a + 1)`; returns the perturbed path
and the advanced draw counter. -/
def perturb_path (env : GridEnvironment) (oracle : Nat → Nat) (k : Nat)
    (path : List Pos) : List Pos × Nat :=
  if path.length < 3 then (path, k)
  else
    let start_idx := 1 + oracle k % (path.length - 2)
    let end_idx := min (start_idx + (1 + oracle (k + 1) % 3)) (path.length - 1)
    let segment_start := path.getD (start_idx - 1) (0, 0)
    let segment_end := path.getD end_idx (0, 0)
    let ws := walkSegment env oracle segment_end (end_idx - start_idx + 2)
      segment_start [segment_start] (k + 2)
    if ws.1.getLast? = some segment_end then
      (path.take start_idx ++ ws.1.tail ++ path.drop (end_idx + 1), ws.2)
    else (path, ws.2)

/-- The `for neighbor_path in neighbors:` loop: evaluate candidates in
order (counting each evaluation) until one improves on `cost`. -/
def findImprove (env : GridEnvironment) (t0 : Int) :
    List (List Pos) → WithTop Int → Nat → Option (List Pos × WithTop Int) × Nat
  | [], _, nodes => (none, nodes)
  | p :: tl, cost, nodes =>
    let c := evaluate_path env p t0
    if c < cost then (some (p, c), nodes + 1)
    else findImprove env t0 tl cost (nodes + 1)

/-- The `while improved:` loop of hill climbing, fuel-indexed: `none`
means the fuel ran out before the loop exited. -/
def hillClimb (env : GridEnvironment) (t0 : Int) :
    Nat → List Pos → WithTop Int → Nat → Option (List Pos × WithTop Int × Nat)
  | 0, _, _, _ => none
  | fuel + 1, path, cost, nodes =>
    match findImprove env t0 (get_path_neighbors env path) cost nodes with
    | (none, nodes2) => some (path, cost, nodes2)
    | (some (p, c), nodes2) => hillClimb env t0 fuel p c nodes2

/-- The `for restart in range(self.max_restarts):` loop. -/
def hcRestarts (env : GridEnvironment) (oracle : Nat → Nat) (t0 : Int) (fuelH : Nat) :
    Nat → Nat → List Pos → WithTop Int → Nat → Option (List Pos × WithTop Int × Nat)
  | 0, _, best_path, best_cost, nodes => some (best_path, best_cost, nodes)
  | r + 1, k, best_path, best_cost, nodes =>
    let pk := perturb_path env oracle k best_path
    let current_cost := evaluate_path env pk.1 t0
    if current_cost = ⊤ then
      hcRestarts env oracle t0 fuelH r pk.2 best_path best_cost nodes
    else
      match hillClimb env t0 fuelH pk.1 current_cost nodes with
      | none => none
      | some (p, c, nodes2) =>
        if c < best_cost then hcRestarts env oracle t0 fuelH r pk.2 p c nodes2
        else hcRestarts env oracle t0 fuelH r pk.2 best_path best_cost nodes2

/-- `HillClimbingReplanner.find_path` (`max_restarts = 5`): A*
baseline, returned unchanged on failure; otherwise five rounds of
perturb-and-climb, reported with `success=True`. -/
def hc_find_path (fuelA fuelH : Nat) (oracle : Nat → Nat) (env : GridEnvironment)
    (start goal : Pos) (start_time : Int) : Option SearchResult :=
  match astar_find_path fuelA env start goal with
  | none => none
  | some r =>
    if r.success = false then some r
    else
      match hcRestarts env oracle start_time fuelH 5 0 r.path r.cost r.nodes_expanded with
      | none => none
      | some (bp, bc, nodes) => some ⟨bp, bc, nodes, true, "Hill Climbing"⟩

/-- The five algorithm selectors of `DeliveryAgent._create_algorithm`. -/
inductive AlgTag where
  | bfs
  | ucs
  | astar
  | temporal_astar
  | hill_climbing
deriving DecidableEq, Repr

/-- The mutable state of a `DeliveryAgent`. -/
structure DeliveryAgent where
  environment : GridEnvironment
  position : Option Pos
  algorithm_name : String
  algorithm : AlgTag
  path : List Pos
  path_index : Nat
  total_cost : WithTop Int
  total_time : Int
  replanning_count : Nat
  search_results : List SearchResult
deriving Repr

/-- `DeliveryAgent._create_algorithm`: the selector lookup; `none` is
the `ValueError` raised on an unknown name. -/
def create_algorithm (algorithm : String) : Option AlgTag :=
  if algorithm = "bfs" then some AlgTag.bfs
  else if algorithm = "ucs" then some AlgTag.ucs
  else if algorithm = "astar" then some AlgTag.astar
  else if algorithm = "temporal_astar" then some AlgTag.temporal_astar
  else if algorithm = "hill_climbing" then some AlgTag.hill_climbing
  else none

/-- `DeliveryAgent.__init__`: fails exactly when `_create_algorithm`
raises. -/
def mkDeliveryAgent (environment : GridEnvironment) (algorithm : String) :
    Option DeliveryAgent :=
  match create_algorithm algorithm with
  | none => none
  | some tag =>
    some ⟨environment, environment.start_pos, algorithm, tag, [], 0, 0, 0, 0, []⟩

/-- Dispatch `self.algorithm.find_path` (the temporal planner is built
with its default horizon 50). -/
def algorithm_find_path (tag : AlgTag) (fuelA fuelH : Nat) (oracle : Nat → Nat)
    (env : GridEnvironment) (start goal : Pos) (start_time : Int) :
    Option SearchResult :=
  match tag with
  | AlgTag.bfs => bfs_find_path fuelA env start goal
  | AlgTag.ucs => ucs_find_path fuelA env start goal
  | AlgTag.astar => astar_find_path fuelA env start goal
  | AlgTag.temporal_astar => temporal_astar_find_path fuelA env 50 start goal start_time
  | AlgTag.hill_climbing => hc_find_path fuelA fuelH oracle env start goal start_time

/-- `DeliveryAgent.plan_path`. -/
def plan_path (fuelA fuelH : Nat) (oracle : Nat → Nat) (a : DeliveryAgent)
    (goal : Pos) (start_time : Option Int) : Option (DeliveryAgent × SearchResult) :=
  let t0 := match start_time with
    | none => a.environment.current_time
    | some t => t
  match a.position with
  | none => none
  | some pos =>
    match algorithm_find_path a.algorithm fuelA fuelH oracle a.environment pos goal t0 with
    | none => none
    | some result =>
      let a2 := { a with search_results := a.search_results ++ [result] }
      if result.success then
        some ({ a2 with path := result.path, path_index := 0 }, result)
      else
        some (a2, result)

/-- `DeliveryAgent.replan`. -/
def replan (fuelA fuelH : Nat) (oracle : Nat → Nat) (a : DeliveryAgent) :
    Option (DeliveryAgent × Bool) :=
  if a.path = [] then some (a, false)
  else
    match a.path.getLast? with
    | none => some (a, false)
    | some goal =>
      match plan_path fuelA fuelH oracle a goal (some a.environment.current_time) with
      | none => none
      | some (a2, result) => some (a2, result.success)

/-- `DeliveryAgent.execute_step`. -/
def execute_step (fuelA fuelH : Nat) (oracle : Nat → Nat) (a : DeliveryAgent) :
    Option (DeliveryAgent × Bool) :=
  if a.path = [] ∨ a.path.length ≤ a.path_index then some (a, false)
  else
    let next_position := a.path.getD a.path_index (0, 0)
    if a.environment.is_passable next_position.1 next_position.2
        (some a.environment.current_time) = false then
      replan fuelA fuelH oracle { a with replanning_count := a.replanning_count + 1 }
    else
      some ({ a with
        position := some next_position,
        path_index := a.path_index + 1,
        total_cost := a.total_cost +
          a.environment.get_terrain_cost next_position.1 next_position.2,
        environment := a.environment.update_time,
        total_time := a.total_time + 1 }, true)

/-- The `while self.position != goal and steps < max_steps:` loop of
`navigate_to_goal`. -/
def navLoop (fuelA fuelH : Nat) (oracle : Nat → Nat) (goal : Pos) :
    Nat → DeliveryAgent → Option DeliveryAgent
  | 0, a => some a
  | steps + 1, a =>
    if a.position = some goal then some a
    else
      match execute_step fuelA fuelH oracle a with
      | none => none
      | some (a2, ok) =>
        if ok then navLoop fuelA fuelH oracle goal steps a2 else some a2

/-- `DeliveryAgent.navigate_to_goal`. -/
def navigate_to_goal (fuelA fuelH : Nat) (oracle : Nat → Nat) (a : DeliveryAgent)
    (goal : Pos) (max_steps : Nat) : Option (DeliveryAgent × Bool) :=
  match plan_path fuelA fuelH oracle a goal none with
  | none => none
  | some (a2, result) =>
    if result.success = false then some (a2, false)
    else
      match navLoop fuelA fuelH oracle goal max_steps a2 with
      | none => none
      | some a3 => some (a3, decide (a3.position = some goal))

/-- `DeliveryAgent.reset`: clears the agent and sets the shared
environment's clock to zero. -/
def reset (a : DeliveryAgent) : DeliveryAgent :=
  { a with
    position := a.environment.start_pos,
    path := [],
    path_index := 0,
    total_cost := 0,
    total_time := 0,
    replanning_count := 0,
    search_results := [],
    environment := { a.environment with current_time := 0 } }

/-- Equality of every environment field except the clock. -/
def envFrameEq (e e2 : GridEnvironment) : Prop :=
  e2.width = e.width ∧ e2.height = e.height ∧ e2.grid = e.grid ∧
  e2.terrain_costs = e.terrain_costs ∧ e2.start_pos = e.start_pos ∧
  e2.goal_pos = e.goal_pos ∧ e2.moving_obstacles = e.moving_obstacles

/-- A concrete agent whose shared environment sits at time 5. -/
def agentT5 : DeliveryAgent :=
  ⟨{ envCorridor with current_time := 5 }, some (0, 0), "astar", AlgTag.astar,
    [], 0, 0, 0, 0, []⟩

/-- Sum of the absolute terrain costs of all in-bounds cells: a crude
but finite bound used to terminate the hill-climbing descent. -/
def terrainAbsSum (env : GridEnvironment) : Int :=
  ∑ p ∈ (Finset.Icc (0 : Int) (env.width - 1)) ×ˢ (Finset.Icc (0 : Int) (env.height - 1)),
    |env.terrain_int p.1 p.2|

/-- The cost Temporal A* actually charges along a returned position
path: `1` for a wait step (consecutive equal positions), the entered
cell's terrain cost for a move. -/
def temporal_path_cost (env : GridEnvironment) : List Pos → WithTop Int
  | [] => 0
  | [_] => 0
  | a :: b :: tl =>
    (if b = a then 1 else env.get_terrain_cost b.1 b.2) + temporal_path_cost env (b :: tl)

/-- A 3x1 corridor of terrain cost 5 whose middle cell is covered by a
moving obstacle at odd times: the optimal temporal plan waits once. -/
def envWait : GridEnvironment :=
  { width := 3, height := 1,
    grid := [[CellType.empty, CellType.empty, CellType.empty]],
    terrain_costs := [[5, 5, 5]],
    start_pos := none, goal_pos := none,
    moving_obstacles := [⟨0, [(9, 9), (1, 0)], 0⟩],
    current_time := 0 }

set_option linter.unusedSectionVars false

section SearchInfra

variable {σ : Type} [DecidableEq σ]

@[simp] theorem endState_nil (a : σ) : endState a [] = a := rfl

@[simp] theorem endState_cons (a : σ) (b : σ × Int) (tl : List (σ × Int)) :
    endState a (b :: tl) = endState b.1 tl := rfl

theorem endState_append (a : σ) (xs ys : List (σ × Int)) :
    endState a (xs ++ ys) = endState (endState a xs) ys := by
  simp [endState, List.foldl_append]

@[simp] theorem stepsCost_nil : stepsCost ([] : List (σ × Int)) = 0 := rfl

@[simp] theorem stepsCost_cons (b : σ × Int) (tl : List (σ × Int)) :
    stepsCost (b :: tl) = b.2 + stepsCost tl := by
  simp [stepsCost]

theorem stepsCost_append (xs ys : List (σ × Int)) :
    stepsCost (xs ++ ys) = stepsCost xs + stepsCost ys := by
  simp [stepsCost]

@[simp] theorem StepsFrom_nil (succ : σ → List (σ × Int)) (a : σ) :
    StepsFrom succ a [] := trivial

theorem StepsFrom_cons_iff (succ : σ → List (σ × Int)) (a : σ) (b : σ × Int)
    (tl : List (σ × Int)) :
    StepsFrom succ a (b :: tl) ↔ (b.1, b.2) ∈ succ a ∧ StepsFrom succ b.1 tl := by
  cases b; rfl

theorem StepsFrom_append_iff (succ : σ → List (σ × Int)) (a : σ)
    (xs ys : List (σ × Int)) :
    StepsFrom succ a (xs ++ ys) ↔
      StepsFrom succ a xs ∧ StepsFrom succ (endState a xs) ys := by
  induction xs generalizing a with
  | nil => simp
  | cons hd tl ih =>
    cases hd with
    | mk b w =>
      simp only [List.cons_append, StepsFrom_cons_iff, endState_cons, ih, and_assoc]

/-- Telescoped consistency: along any legal step sequence a consistent
heuristic can fall by at most the cost paid. -/
theorem hfun_le_of_consistent (succ : σ → List (σ × Int)) (hfun : σ → Int)
    (hcons : ∀ a b w, (b, w) ∈ succ a → hfun a ≤ w + hfun b)
    (a : σ) (steps : List (σ × Int)) (hs : StepsFrom succ a steps) :
    hfun a ≤ stepsCost steps + hfun (endState a steps) := by
  induction steps generalizing a with
  | nil => simp
  | cons hd tl ih =>
    cases hd with
    | mk b w =>
      rw [StepsFrom_cons_iff] at hs
      have h1 := hcons a b w hs.1
      have h2 := ih b hs.2
      simp only [stepsCost_cons, endState_cons]
      omega

/-! ## Heap-pop lemmas -/

theorem popMinF_eq_none_iff (heap : List (SNode σ)) :
    popMinF heap = none ↔ heap = [] := by
  cases heap with
  | nil => simp [popMinF]
  | cons n rest =>
    simp only [popMinF]
    cases h : popMinF rest with
    | none => simp
    | some p => cases p with | mk m rest2 => by_cases hf : n.f ≤ m.f <;> simp [hf]

theorem popMinF_mem (heap : List (SNode σ)) (n : SNode σ) (rest : List (SNode σ))
    (h : popMinF heap = some (n, rest)) : n ∈ heap := by
  induction heap generalizing n rest with
  | nil => simp [popMinF] at h
  | cons x xs ih =>
    simp only [popMinF] at h
    cases hx : popMinF xs with
    | none =>
      rw [hx] at h
      simp only [Option.some.injEq, Prod.mk.injEq] at h
      simp [h.1]
    | some p =>
      cases p with
      | mk m rest2 =>
        rw [hx] at h
        by_cases hf : x.f ≤ m.f <;> simp only [hf, if_true, if_false, reduceIte,
          Option.some.injEq, Prod.mk.injEq] at h
        · simp [h.1]
        · have := ih m rest2 hx
          exact List.mem_cons_of_mem _ (h.1 ▸ this)

theorem popMinF_min (heap : List (SNode σ)) (n : SNode σ) (rest : List (SNode σ))
    (h : popMinF heap = some (n, rest)) : ∀ x ∈ heap, n.f ≤ x.f := by
  induction heap generalizing n rest with
  | nil => simp [popMinF] at h
  | cons y xs ih =>
    simp only [popMinF] at h
    cases hx : popMinF xs with
    | none =>
      rw [hx] at h
      simp only [Option.some.injEq, Prod.mk.injEq] at h
      have : xs = [] := (popMinF_eq_none_iff xs).mp hx
      subst this
      simp [← h.1]
    | some p =>
      cases p with
      | mk m rest2 =>
        rw [hx] at h
        intro x hxmem
        rcases List.mem_cons.mp hxmem with hxy | hxs
        · by_cases hf : y.f ≤ m.f <;> simp only [hf, if_true, if_false, reduceIte,
            Option.some.injEq, Prod.mk.injEq] at h
          · subst hxy; rw [← h.1]
          · subst hxy
            rw [← h.1]
            omega
        · have hmin := ih m rest2 hx x hxs
          by_cases hf : y.f ≤ m.f <;> simp only [hf, if_true, if_false, reduceIte,
            Option.some.injEq, Prod.mk.injEq] at h
          · rw [← h.1]; omega
          · rw [← h.1]; exact hmin

theorem popMinF_cover (heap : List (SNode σ)) (n : SNode σ) (rest : List (SNode σ))
    (h : popMinF heap = some (n, rest)) : ∀ x ∈ heap, x = n ∨ x ∈ rest := by
  induction heap generalizing n rest with
  | nil => simp [popMinF] at h
  | cons y xs ih =>
    simp only [popMinF] at h
    cases hx : popMinF xs with
    | none =>
      rw [hx] at h
      simp only [Option.some.injEq, Prod.mk.injEq] at h
      have : xs = [] := (popMinF_eq_none_iff xs).mp hx
      subst this
      intro x hxmem
      simp only [List.mem_cons, List.not_mem_nil, or_false] at hxmem
      left; rw [hxmem, ← h.1]
    | some p =>
      cases p with
      | mk m rest2 =>
        rw [hx] at h
        intro x hxmem
        by_cases hf : y.f ≤ m.f <;> simp only [hf, if_true, if_false, reduceIte,
          Option.some.injEq, Prod.mk.injEq] at h
        · rcases List.mem_cons.mp hxmem with hxy | hxs
          · left; rw [hxy, ← h.1]
          · right; rw [← h.2]; exact hxs
        · rcases List.mem_cons.mp hxmem with hxy | hxs
          · right; rw [← h.2, hxy]; exact List.mem_cons_self _ _
          · rcases ih m rest2 hx x hxs with hxm | hxr
            · left; rw [hxm, ← h.1]
            · right; rw [← h.2]; exact List.mem_cons_of_mem _ hxr

theorem popMinF_rest_sub (heap : List (SNode σ)) (n : SNode σ) (rest : List (SNode σ))
    (h : popMinF heap = some (n, rest)) : ∀ x ∈ rest, x ∈ heap := by
  induction heap generalizing n rest with
  | nil => simp [popMinF] at h
  | cons y xs ih =>
    simp only [popMinF] at h
    cases hx : popMinF xs with
    | none =>
      rw [hx] at h
      simp only [Option.some.injEq, Prod.mk.injEq] at h
      rw [← h.2]
      intro x hx2
      simp at hx2
    | some p =>
      cases p with
      | mk m rest2 =>
        rw [hx] at h
        by_cases hf : y.f ≤ m.f <;> simp only [hf, if_true, if_false, reduceIte,
          Option.some.injEq, Prod.mk.injEq] at h
        · rw [← h.2]
          intro x hxs
          exact List.mem_cons_of_mem _ hxs
        · rw [← h.2]
          intro x hxmem
          rcases List.mem_cons.mp hxmem with hxy | hxr
          · rw [hxy]; exact List.mem_cons_self _ _
          · exact List.mem_cons_of_mem _ (ih m rest2 hx x hxr)

theorem popMinF_length (heap : List (SNode σ)) (n : SNode σ) (rest : List (SNode σ))
    (h : popMinF heap = some (n, rest)) : rest.length + 1 = heap.length := by
  induction heap generalizing n rest with
  | nil => simp [popMinF] at h
  | cons y xs ih =>
    simp only [popMinF] at h
    cases hx : popMinF xs with
    | none =>
      rw [hx] at h
      simp only [Option.some.injEq, Prod.mk.injEq] at h
      have : xs = [] := (popMinF_eq_none_iff xs).mp hx
      subst this
      rw [← h.2]
      rfl
    | some p =>
      cases p with
      | mk m rest2 =>
        rw [hx] at h
        by_cases hf : y.f ≤ m.f <;> simp only [hf, if_true, if_false, reduceIte,
          Option.some.injEq, Prod.mk.injEq] at h
        · rw [← h.2]; rfl
        · rw [← h.2]
          have := ih m rest2 hx
          simp only [List.length_cons]
          omega

end SearchInfra

/-! ## Lemmas about the cost dictionary and the relaxation loop -/

section RelaxLemmas

variable {σ : Type} [DecidableEq σ]

theorem lookupCost_cons (s : σ) (c : Int) (costs : List (σ × Int)) (p : σ) :
    lookupCost ((s, c) :: costs) p = if p = s then some c else lookupCost costs p := by
  by_cases h : p = s
  · subst h; simp [lookupCost, List.find?]
  · rw [if_neg h]
    have hne : ¬(s = p) := fun hh => h hh.symm
    simp [lookupCost, List.find?, hne]

/-- Cost entries never increase during relaxation. -/
theorem relaxSuccs_costs_mono (hfun : σ → Int) (cur : SNode σ) (succs : List (σ × Int)) :
    ∀ heap costs p c, lookupCost costs p = some c →
      ∃ c2, lookupCost (relaxSuccs hfun cur succs heap costs).2 p = some c2 ∧ c2 ≤ c := by
  induction succs with
  | nil => intro heap costs p c h; exact ⟨c, h, le_refl c⟩
  | cons sw tl ih =>
    intro heap costs p c h
    cases sw with
    | mk s w =>
      simp only [relaxSuccs]
      by_cases hb : (match lookupCost costs s with
          | none => true
          | some c => decide (cur.g + w < c)) = true
      · rw [if_pos hb]
        by_cases hps : p = s
        · subst hps
          have hlk : lookupCost ((p, cur.g + w) :: costs) p = some (cur.g + w) := by
            rw [lookupCost_cons]; simp
          obtain ⟨c2, hc2, hle⟩ := ih _ _ p (cur.g + w) hlk
          refine ⟨c2, hc2, le_trans hle ?_⟩
          rw [h] at hb
          simp only [decide_eq_true_eq] at hb
          omega
        · have hlk : lookupCost ((s, cur.g + w) :: costs) p = some c := by
            rw [lookupCost_cons, if_neg hps]; exact h
          exact ih _ _ p c hlk
      · rw [if_neg hb]
        exact ih heap costs p c h

/-- Every cost entry after relaxation is an old entry or a freshly
relaxed tentative cost through `cur`. -/
theorem relaxSuccs_costs_new (hfun : σ → Int) (cur : SNode σ) (succs : List (σ × Int)) :
    ∀ heap costs p c, lookupCost (relaxSuccs hfun cur succs heap costs).2 p = some c →
      lookupCost costs p = some c ∨ ∃ w, (p, w) ∈ succs ∧ c = cur.g + w := by
  induction succs with
  | nil => intro heap costs p c h; exact Or.inl h
  | cons sw tl ih =>
    intro heap costs p c h
    cases sw with
    | mk s w =>
      simp only [relaxSuccs] at h
      by_cases hb : (match lookupCost costs s with
          | none => true
          | some c => decide (cur.g + w < c)) = true
      · rw [if_pos hb] at h
        rcases ih _ _ p c h with hold | ⟨w2, hw2, hc⟩
        · rw [lookupCost_cons] at hold
          by_cases hps : p = s
          · subst hps
            rw [if_pos rfl] at hold
            right
            exact ⟨w, List.mem_cons_self _ _, (Option.some.inj hold).symm⟩
          · rw [if_neg hps] at hold
            exact Or.inl hold
        · exact Or.inr ⟨w2, List.mem_cons_of_mem _ hw2, hc⟩
      · rw [if_neg hb] at h
        rcases ih _ _ p c h with hold | ⟨w2, hw2, hc⟩
        · exact Or.inl hold
        · exact Or.inr ⟨w2, List.mem_cons_of_mem _ hw2, hc⟩

/-- The relaxation loop only appends freshly pushed nodes to the heap. -/
theorem relaxSuccs_heap_shape (hfun : σ → Int) (cur : SNode σ) (succs : List (σ × Int)) :
    ∀ heap costs, ∃ news, (relaxSuccs hfun cur succs heap costs).1 = heap ++ news ∧
      ∀ m ∈ news, ∃ s w, (s, w) ∈ succs ∧
        m = ⟨s, cur.g + w, hfun s, cur.g + w + hfun s, s :: cur.rev⟩ := by
  induction succs with
  | nil => intro heap costs; exact ⟨[], by simp [relaxSuccs], by simp⟩
  | cons sw tl ih =>
    intro heap costs
    cases sw with
    | mk s w =>
      simp only [relaxSuccs]
      by_cases hb : (match lookupCost costs s with
          | none => true
          | some c => decide (cur.g + w < c)) = true
      · rw [if_pos hb]
        obtain ⟨news, hshape, hnews⟩ := ih
          (heap ++ [⟨s, cur.g + w, hfun s, cur.g + w + hfun s, s :: cur.rev⟩])
          ((s, cur.g + w) :: costs)
        refine ⟨⟨s, cur.g + w, hfun s, cur.g + w + hfun s, s :: cur.rev⟩ :: news, ?_, ?_⟩
        · rw [hshape]; simp
        · intro m hm
          rcases List.mem_cons.mp hm with hm1 | hm2
          · exact ⟨s, w, List.mem_cons_self _ _, hm1⟩
          · obtain ⟨s2, w2, hsw2, hm3⟩ := hnews m hm2
            exact ⟨s2, w2, List.mem_cons_of_mem _ hsw2, hm3⟩
      · rw [if_neg hb]
        obtain ⟨news, hshape, hnews⟩ := ih heap costs
        refine ⟨news, hshape, fun m hm => ?_⟩
        obtain ⟨s2, w2, hsw2, hm3⟩ := hnews m hm
        exact ⟨s2, w2, List.mem_cons_of_mem _ hsw2, hm3⟩

/-- After relaxation every successor of `cur` has a recorded cost at most
its tentative cost through `cur`. -/
theorem relaxSuccs_succ_bound (hfun : σ → Int) (cur : SNode σ) (succs : List (σ × Int)) :
    ∀ heap costs s w, (s, w) ∈ succs →
      ∃ c, lookupCost (relaxSuccs hfun cur succs heap costs).2 s = some c ∧
        c ≤ cur.g + w := by
  induction succs with
  | nil => intro heap costs s w h; simp at h
  | cons sw tl ih =>
    intro heap costs s w hmem
    cases sw with
    | mk s1 w1 =>
      simp only [relaxSuccs]
      rcases List.mem_cons.mp hmem with hm1 | hm2
      · have hsw : s = s1 ∧ w = w1 :=
          ⟨congrArg Prod.fst hm1, congrArg Prod.snd hm1⟩
        obtain ⟨rfl, rfl⟩ := hsw
        by_cases hb : (match lookupCost costs s with
            | none => true
            | some c => decide (cur.g + w < c)) = true
        · rw [if_pos hb]
          have hlk : lookupCost ((s, cur.g + w) :: costs) s = some (cur.g + w) := by
            rw [lookupCost_cons]; simp
          obtain ⟨c2, hc2, hle⟩ := relaxSuccs_costs_mono hfun cur tl _ _ s (cur.g + w) hlk
          exact ⟨c2, hc2, hle⟩
        · rw [if_neg hb]
          cases hlc : lookupCost costs s with
          | none => rw [hlc] at hb; simp at hb
          | some c0 =>
            rw [hlc] at hb
            simp only [decide_eq_true_eq] at hb
            push_neg at hb
            obtain ⟨c2, hc2, hle⟩ := relaxSuccs_costs_mono hfun cur tl _ _ s c0 hlc
            exact ⟨c2, hc2, le_trans hle hb⟩
      · by_cases hb : (match lookupCost costs s1 with
            | none => true
            | some c => decide (cur.g + w1 < c)) = true
        · rw [if_pos hb]; exact ih _ _ s w hm2
        · rw [if_neg hb]; exact ih _ _ s w hm2

/-- Every cost entry after relaxation is either untouched or realised by
some node in the new heap. -/
theorem relaxSuccs_witness (hfun : σ → Int) (cur : SNode σ) (succs : List (σ × Int)) :
    ∀ heap costs p c, lookupCost (relaxSuccs hfun cur succs heap costs).2 p = some c →
      lookupCost costs p = some c ∨
        ∃ m ∈ (relaxSuccs hfun cur succs heap costs).1, m.state = p ∧ m.g = c := by
  induction succs with
  | nil => intro heap costs p c h; exact Or.inl h
  | cons sw tl ih =>
    intro heap costs p c h
    cases sw with
    | mk s w =>
      simp only [relaxSuccs] at h ⊢
      by_cases hb : (match lookupCost costs s with
          | none => true
          | some c => decide (cur.g + w < c)) = true
      · rw [if_pos hb] at h ⊢
        rcases ih _ _ p c h with hold | hwit
        · rw [lookupCost_cons] at hold
          by_cases hps : p = s
          · subst hps
            rw [if_pos rfl] at hold
            right
            obtain ⟨news, hshape, _⟩ := relaxSuccs_heap_shape hfun cur tl
              (heap ++ [⟨p, cur.g + w, hfun p, cur.g + w + hfun p, p :: cur.rev⟩])
              ((p, cur.g + w) :: costs)
            refine ⟨⟨p, cur.g + w, hfun p, cur.g + w + hfun p, p :: cur.rev⟩, ?_, rfl, ?_⟩
            · rw [hshape]
              simp
            · exact (Option.some.inj hold)
          · rw [if_neg hps] at hold
            exact Or.inl hold
        · exact Or.inr hwit
      · rw [if_neg hb] at h ⊢
        exact ih _ _ p c h

/-- A cost entry that no successor can improve is untouched by
relaxation. -/
theorem relaxSuccs_no_update (hfun : σ → Int) (cur : SNode σ) (succs : List (σ × Int)) :
    ∀ heap costs p c0, lookupCost costs p = some c0 →
      (∀ w, (p, w) ∈ succs → c0 ≤ cur.g + w) →
      lookupCost (relaxSuccs hfun cur succs heap costs).2 p = some c0 := by
  induction succs with
  | nil => intro heap costs p c0 h _; exact h
  | cons sw tl ih =>
    intro heap costs p c0 h hbound
    cases sw with
    | mk s w =>
      simp only [relaxSuccs]
      by_cases hb : (match lookupCost costs s with
          | none => true
          | some c => decide (cur.g + w < c)) = true
      · rw [if_pos hb]
        have hps : p ≠ s := by
          intro hps
          subst hps
          rw [h] at hb
          simp only [decide_eq_true_eq] at hb
          have := hbound w (List.mem_cons_self _ _)
          omega
        refine ih _ _ p c0 ?_ (fun w2 hw2 => hbound w2 (List.mem_cons_of_mem _ hw2))
        rw [lookupCost_cons, if_neg hps]
        exact h
      · rw [if_neg hb]
        exact ih _ _ p c0 h (fun w2 hw2 => hbound w2 (List.mem_cons_of_mem _ hw2))

/-- Relaxation preserves the "recorded cost is at most the node cost"
bound for every heap node. -/
theorem relaxSuccs_heap_costs (hfun : σ → Int) (cur : SNode σ) (succs : List (σ × Int)) :
    ∀ heap costs,
      (∀ m ∈ heap, ∃ c, lookupCost costs m.state = some c ∧ c ≤ m.g) →
      ∀ m ∈ (relaxSuccs hfun cur succs heap costs).1,
        ∃ c, lookupCost (relaxSuccs hfun cur succs heap costs).2 m.state = some c ∧
          c ≤ m.g := by
  induction succs with
  | nil => intro heap costs h m hm; exact h m hm
  | cons sw tl ih =>
    intro heap costs h
    cases sw with
    | mk s w =>
      simp only [relaxSuccs]
      by_cases hb : (match lookupCost costs s with
          | none => true
          | some c => decide (cur.g + w < c)) = true
      · rw [if_pos hb]
        apply ih
        intro m hm
        rcases List.mem_append.mp hm with hm1 | hm2
        · obtain ⟨c, hc, hle⟩ := h m hm1
          by_cases hms : m.state = s
          · refine ⟨cur.g + w, ?_, ?_⟩
            · rw [hms, lookupCost_cons, if_pos rfl]
            · rw [hms] at hc
              rw [hc] at hb
              simp only [decide_eq_true_eq] at hb
              omega
          · exact ⟨c, by rw [lookupCost_cons, if_neg hms]; exact hc, hle⟩
        · simp only [List.mem_singleton] at hm2
          subst hm2
          exact ⟨cur.g + w, by rw [lookupCost_cons]; simp, le_refl _⟩
      · rw [if_neg hb]
        exact ih heap costs h

end RelaxLemmas

/-! ## The search-loop invariant -/

section MasterProof

variable {σ : Type} [DecidableEq σ]

/-- Coverage: for any legal step sequence ending outside the closed set,
some heap node sits on a prefix of it with a cost not above that
prefix's cost. -/
theorem loopInv_cover {succ : σ → List (σ × Int)} {hfun : σ → Int} {isGoal : σ → Bool}
    {s0 : σ} {heap : List (SNode σ)} {visited : List σ} {costs : List (σ × Int)}
    (inv : LoopInv succ hfun isGoal s0 heap visited costs) :
    ∀ steps, StepsFrom succ s0 steps → endState s0 steps ∉ visited →
      ∃ m ∈ heap, ∃ k, k ≤ steps.length ∧ m.state = endState s0 (steps.take k) ∧
        m.g ≤ stepsCost (steps.take k) := by
  intro steps
  induction steps using List.reverseRecOn with
  | nil =>
    intro _ hnv
    rcases inv.start_cond with hs | ⟨n, hn, hstate, hg⟩
    · exact absurd hs hnv
    · exact ⟨n, hn, 0, le_refl 0, by simp [hstate], by simpa using hg⟩
  | append_singleton xs x ih =>
    intro hsf hnv
    cases x with
    | mk b w =>
      rw [StepsFrom_append_iff] at hsf
      obtain ⟨hxs, hstep⟩ := hsf
      rw [StepsFrom_cons_iff] at hstep
      have hb : (b, w) ∈ succ (endState s0 xs) := hstep.1
      have hend : endState s0 (xs ++ [(b, w)]) = b := by
        rw [endState_append]; rfl
      by_cases ha : endState s0 xs ∈ visited
      · obtain ⟨c, hcb, hbound⟩ := inv.visited_succ _ ha b w hb
        have hcvle : c ≤ stepsCost xs + w := hbound xs hxs rfl
        have hbnv : b ∉ visited := hend ▸ hnv
        obtain ⟨m, hm, hmstate, hmg⟩ := inv.costs_heap b c hcb hbnv
        refine ⟨m, hm, (xs ++ [(b, w)]).length, le_refl _, ?_, ?_⟩
        · rw [List.take_length, hend, hmstate]
        · rw [List.take_length, stepsCost_append]
          simp only [stepsCost_cons, stepsCost_nil]
          omega
      · obtain ⟨m, hm, k, hk, hms, hmg⟩ := ih hxs ha
        refine ⟨m, hm, k, ?_, ?_, ?_⟩
        · simp only [List.length_append]; omega
        · rw [List.take_append_of_le_length hk]; exact hms
        · rw [List.take_append_of_le_length hk]; exact hmg

/-- When an unexpanded node is popped, its `f = g + h` is a lower bound
on `cost + h` of every legal route ending outside the closed set: the
heart of the optimality argument, using a consistent heuristic. -/
theorem loopInv_pop_bound {succ : σ → List (σ × Int)} {hfun : σ → Int} {isGoal : σ → Bool}
    {s0 : σ} {heap : List (SNode σ)} {visited : List σ} {costs : List (σ × Int)}
    (inv : LoopInv succ hfun isGoal s0 heap visited costs)
    (hcons : ∀ a b w, (b, w) ∈ succ a → hfun a ≤ w + hfun b)
    (cur : SNode σ) (rest : List (SNode σ))
    (hpop : popMinF heap = some (cur, rest)) :
    ∀ steps, StepsFrom succ s0 steps → endState s0 steps ∉ visited →
      cur.g + hfun cur.state ≤ stepsCost steps + hfun (endState s0 steps) := by
  have hcur_mem : cur ∈ heap := popMinF_mem heap cur rest hpop
  obtain ⟨stepsc, _, _, _, hcurf, _⟩ := inv.heap_sound cur hcur_mem
  intro steps hsteps hendnv
  obtain ⟨m, hm, k, hk, hms, hmg⟩ := loopInv_cover inv steps hsteps hendnv
  obtain ⟨stepsm, _, _, _, hmf, _⟩ := inv.heap_sound m hm
  have hmin := popMinF_min heap cur rest hpop m hm
  have hsplit : steps = steps.take k ++ steps.drop k := (List.take_append_drop k steps).symm
  have hsf2 : StepsFrom succ (endState s0 (steps.take k)) (steps.drop k) := by
    have := hsteps
    rw [hsplit, StepsFrom_append_iff] at this
    exact this.2
  have htel := hfun_le_of_consistent succ hfun hcons _ _ hsf2
  have hendfull : endState (endState s0 (steps.take k)) (steps.drop k) =
      endState s0 steps := by
    rw [← endState_append, ← hsplit]
  have hcostfull : stepsCost (steps.take k) + stepsCost (steps.drop k) = stepsCost steps := by
    rw [← stepsCost_append, ← hsplit]
  rw [hendfull] at htel
  rw [hcurf, hmf, hms] at hmin
  linarith

/-- Specialisation of `loopInv_pop_bound` to routes ending at the
popped node's own state. -/
theorem loopInv_pop_opt {succ : σ → List (σ × Int)} {hfun : σ → Int} {isGoal : σ → Bool}
    {s0 : σ} {heap : List (SNode σ)} {visited : List σ} {costs : List (σ × Int)}
    (inv : LoopInv succ hfun isGoal s0 heap visited costs)
    (hcons : ∀ a b w, (b, w) ∈ succ a → hfun a ≤ w + hfun b)
    (cur : SNode σ) (rest : List (SNode σ))
    (hpop : popMinF heap = some (cur, rest)) (hnv : cur.state ∉ visited) :
    IsLB succ s0 cur.state cur.g := by
  intro steps hsteps hendeq
  have := loopInv_pop_bound inv hcons cur rest hpop steps hsteps (hendeq ▸ hnv)
  rw [hendeq] at this
  omega

/-- Skipping a stale pop preserves the invariant. -/
theorem loopInv_skip {succ : σ → List (σ × Int)} {hfun : σ → Int} {isGoal : σ → Bool}
    {s0 : σ} {heap : List (SNode σ)} {visited : List σ} {costs : List (σ × Int)}
    (inv : LoopInv succ hfun isGoal s0 heap visited costs)
    (cur : SNode σ) (rest : List (SNode σ))
    (hpop : popMinF heap = some (cur, rest)) (hv : cur.state ∈ visited) :
    LoopInv succ hfun isGoal s0 rest visited costs := by
  constructor
  · exact fun n hn => inv.heap_sound n (popMinF_rest_sub heap cur rest hpop n hn)
  · exact inv.visited_succ
  · exact inv.costs_sound
  · intro p c hc hnv
    obtain ⟨m, hm, hms, hmg⟩ := inv.costs_heap p c hc hnv
    rcases popMinF_cover heap cur rest hpop m hm with hmc | hmr
    · exact absurd (by rw [← hms, hmc]; exact hv) hnv
    · exact ⟨m, hmr, hms, hmg⟩
  · rcases inv.start_cond with h | ⟨n, hn, hns, hng⟩
    · exact Or.inl h
    · rcases popMinF_cover heap cur rest hpop n hn with hnc | hnr
      · exact Or.inl (by rw [← hns, hnc]; exact hv)
      · exact Or.inr ⟨n, hnr, hns, hng⟩
  · exact inv.goal_unvisited

/-- Expanding a fresh non-goal node preserves the invariant. -/
theorem loopInv_step {succ : σ → List (σ × Int)} {hfun : σ → Int} {isGoal : σ → Bool}
    {s0 : σ} {heap : List (SNode σ)} {visited : List σ} {costs : List (σ × Int)}
    (inv : LoopInv succ hfun isGoal s0 heap visited costs)
    (hcons : ∀ a b w, (b, w) ∈ succ a → hfun a ≤ w + hfun b)
    (cur : SNode σ) (rest : List (SNode σ))
    (hpop : popMinF heap = some (cur, rest)) (hnv : cur.state ∉ visited)
    (hgoal : isGoal cur.state = false) :
    LoopInv succ hfun isGoal s0
      (relaxSuccs hfun cur (succ cur.state) rest costs).1
      (cur.state :: visited)
      (relaxSuccs hfun cur (succ cur.state) rest costs).2 := by
  have hLB : IsLB succ s0 cur.state cur.g := loopInv_pop_opt inv hcons cur rest hpop hnv
  obtain ⟨csteps, hcsf, hcstate, hcg, hcf, hcrev⟩ :=
    inv.heap_sound cur (popMinF_mem heap cur rest hpop)
  obtain ⟨news, hshape, hnews⟩ := relaxSuccs_heap_shape hfun cur (succ cur.state) rest costs
  have hext : ∀ b w, (b, w) ∈ succ cur.state →
      StepsFrom succ s0 (csteps ++ [(b, w)]) ∧
      endState s0 (csteps ++ [(b, w)]) = b ∧
      stepsCost (csteps ++ [(b, w)]) = cur.g + w := by
    intro b w hbw
    rw [hcstate] at hbw
    refine ⟨?_, ?_, ?_⟩
    · rw [StepsFrom_append_iff]
      exact ⟨hcsf, hbw, trivial⟩
    · rw [endState_append]; rfl
    · rw [stepsCost_append, stepsCost_cons, stepsCost_nil, hcg]; ring
  constructor
  · intro n hn
    rw [hshape] at hn
    rcases List.mem_append.mp hn with hr | hnew
    · exact inv.heap_sound n (popMinF_rest_sub heap cur rest hpop n hr)
    · obtain ⟨s, w, hsw, rfl⟩ := hnews n hnew
      obtain ⟨hsf2, hend2, hcost2⟩ := hext s w hsw
      refine ⟨csteps ++ [(s, w)], hsf2, hend2.symm, hcost2.symm, rfl, ?_⟩
      rw [hcrev]
      simp
  · intro v hv b w hbw
    rcases List.mem_cons.mp hv with rfl | hvv
    · obtain ⟨c, hc, hcle⟩ := relaxSuccs_succ_bound hfun cur (succ cur.state) rest costs b w hbw
      refine ⟨c, hc, fun steps hsf hend => ?_⟩
      have := hLB steps hsf hend
      omega
    · obtain ⟨c, hcb, hbound⟩ := inv.visited_succ v hvv b w hbw
      obtain ⟨c2, hc2, hc2le⟩ := relaxSuccs_costs_mono hfun cur (succ cur.state) rest costs b c hcb
      exact ⟨c2, hc2, fun steps hsf hend => le_trans hc2le (hbound steps hsf hend)⟩
  · intro p c hc
    rcases relaxSuccs_costs_new hfun cur (succ cur.state) rest costs p c hc with hold | ⟨w, hw2, rfl⟩
    · exact inv.costs_sound p c hold
    · obtain ⟨hsf2, hend2, hcost2⟩ := hext p w hw2
      exact ⟨csteps ++ [(p, w)], hsf2, hend2, hcost2⟩
  · intro p c hc hnv2
    rcases relaxSuccs_witness hfun cur (succ cur.state) rest costs p c hc with hold | hwit
    · obtain ⟨m, hm, hms, hmg⟩ :=
        inv.costs_heap p c hold (fun hmem => hnv2 (List.mem_cons_of_mem _ hmem))
      rcases popMinF_cover heap cur rest hpop m hm with hmc | hmr
      · exact absurd (by rw [← hms, hmc]; exact List.mem_cons_self _ _) hnv2
      · exact ⟨m, by rw [hshape]; exact List.mem_append_left _ hmr, hms, hmg⟩
    · exact hwit
  · rcases inv.start_cond with hs | ⟨n, hn, hns, hng⟩
    · exact Or.inl (List.mem_cons_of_mem _ hs)
    · rcases popMinF_cover heap cur rest hpop n hn with hnc | hnr
      · exact Or.inl (by rw [← hns, hnc]; exact List.mem_cons_self _ _)
      · exact Or.inr ⟨n, by rw [hshape]; exact List.mem_append_left _ hnr, hns, hng⟩
  · intro v hv
    rcases List.mem_cons.mp hv with rfl | hvv
    · exact hgoal
    · exact inv.goal_unvisited v hvv

/-- With an empty heap every reachable state has been expanded. -/
theorem loopInv_empty_visited {succ : σ → List (σ × Int)} {hfun : σ → Int}
    {isGoal : σ → Bool} {s0 : σ} {visited : List σ} {costs : List (σ × Int)}
    (inv : LoopInv succ hfun isGoal s0 [] visited costs) :
    ∀ steps, StepsFrom succ s0 steps → endState s0 steps ∈ visited := by
  intro steps
  induction steps using List.reverseRecOn with
  | nil =>
    intro _
    rcases inv.start_cond with h | ⟨n, hn, _, _⟩
    · simpa using h
    · simp at hn
  | append_singleton xs x ih =>
    intro hsf
    cases x with
    | mk b w =>
      rw [StepsFrom_append_iff] at hsf
      have ha : endState s0 xs ∈ visited := ih hsf.1
      have hb : (b, w) ∈ succ (endState s0 xs) := hsf.2.1
      obtain ⟨c, hcb, _⟩ := inv.visited_succ _ ha b w hb
      by_contra hnb
      have hend : endState s0 (xs ++ [(b, w)]) = b := by rw [endState_append]; rfl
      rw [hend] at hnb
      obtain ⟨m, hm, _, _⟩ := inv.costs_heap b c hcb hnb
      simp at hm

/-- One-step unfolding of `searchLoop`. -/
theorem searchLoop_succ_eq (succ : σ → List (σ × Int)) (hfun : σ → Int) (isGoal : σ → Bool)
    (fuel : Nat) (heap : List (SNode σ)) (visited : List σ) (costs : List (σ × Int))
    (expanded : Nat) :
    searchLoop succ hfun isGoal (fuel + 1) heap visited costs expanded =
      match popMinF heap with
      | none => some (SearchOutcome.failure expanded)
      | some (cur, rest) =>
        if cur.state ∈ visited then
          searchLoop succ hfun isGoal fuel rest visited costs expanded
        else if isGoal cur.state then
          some (SearchOutcome.success cur (expanded + 1))
        else
          searchLoop succ hfun isGoal fuel
            (relaxSuccs hfun cur (succ cur.state) rest costs).1 (cur.state :: visited)
            (relaxSuccs hfun cur (succ cur.state) rest costs).2 (expanded + 1) := rfl

/-- Partial correctness of the shared search loop: whatever the fuel, a
successful outcome carries a legal minimal-cost route to a goal state,
and a failure outcome implies no goal state is reachable at all. -/
theorem searchLoop_sound {succ : σ → List (σ × Int)} {hfun : σ → Int} {isGoal : σ → Bool}
    {s0 : σ}
    (hcons : ∀ a b w, (b, w) ∈ succ a → hfun a ≤ w + hfun b) :
    ∀ (fuel : Nat) (heap : List (SNode σ)) (visited : List σ) (costs : List (σ × Int))
      (expanded : Nat),
      LoopInv succ hfun isGoal s0 heap visited costs →
      ∀ out, searchLoop succ hfun isGoal fuel heap visited costs expanded = some out →
        (∀ n e, out = SearchOutcome.success n e →
          NodeOk succ hfun s0 n ∧ isGoal n.state = true ∧ IsLB succ s0 n.state n.g ∧
          ∀ steps, StepsFrom succ s0 steps → isGoal (endState s0 steps) = true →
            n.g + hfun n.state ≤ stepsCost steps + hfun (endState s0 steps)) ∧
        (∀ e, out = SearchOutcome.failure e →
          ∀ steps, StepsFrom succ s0 steps → isGoal (endState s0 steps) = false) := by
  intro fuel
  induction fuel with
  | zero =>
    intro heap visited costs expanded _ out h
    simp [searchLoop] at h
  | succ fuel ih =>
    intro heap visited costs expanded inv out h
    cases hpop : popMinF heap with
    | none =>
      have hh : searchLoop succ hfun isGoal (fuel + 1) heap visited costs expanded =
          some (SearchOutcome.failure expanded) := by
        rw [searchLoop_succ_eq, hpop]
      rw [hh] at h
      simp only [Option.some.injEq] at h
      subst h
      constructor
      · intro n e he; simp at he
      · intro e _ steps hsf
        have hempty : heap = [] := (popMinF_eq_none_iff heap).mp hpop
        subst hempty
        exact inv.goal_unvisited _ (loopInv_empty_visited inv steps hsf)
    | some pr =>
      cases pr with
      | mk cur rest =>
        have hh : searchLoop succ hfun isGoal (fuel + 1) heap visited costs expanded =
            if cur.state ∈ visited then
              searchLoop succ hfun isGoal fuel rest visited costs expanded
            else if isGoal cur.state then
              some (SearchOutcome.success cur (expanded + 1))
            else
              searchLoop succ hfun isGoal fuel
                (relaxSuccs hfun cur (succ cur.state) rest costs).1 (cur.state :: visited)
                (relaxSuccs hfun cur (succ cur.state) rest costs).2 (expanded + 1) := by
          rw [searchLoop_succ_eq, hpop]
        rw [hh] at h
        by_cases hv : cur.state ∈ visited
        · rw [if_pos hv] at h
          exact ih rest visited costs expanded (loopInv_skip inv cur rest hpop hv) out h
        · rw [if_neg hv] at h
          by_cases hg : isGoal cur.state = true
          · rw [if_pos hg] at h
            simp only [Option.some.injEq] at h
            subst h
            constructor
            · intro n e he
              have hn : n = cur := by
                cases he; rfl
              subst hn
              refine ⟨inv.heap_sound n (popMinF_mem heap n rest hpop), hg,
                loopInv_pop_opt inv hcons n rest hpop hv, ?_⟩
              intro steps hsf hgs
              refine loopInv_pop_bound inv hcons n rest hpop steps hsf ?_
              intro hmem
              rw [inv.goal_unvisited _ hmem] at hgs
              exact Bool.false_ne_true hgs
            · intro e he; simp at he
          · rw [if_neg hg] at h
            have hgf : isGoal cur.state = false := Bool.eq_false_iff.mpr hg
            exact ih _ _ _ _ (loopInv_step inv hcons cur rest hpop hv hgf) out h

/-- The initial state of UCS, A* (`costs0 = [(s0, 0)]`) and Temporal A*
(`costs0 = []`) satisfies the invariant. -/
theorem loopInv_init (succ : σ → List (σ × Int)) (hfun : σ → Int) (isGoal : σ → Bool)
    (s0 : σ) (costs0 : List (σ × Int)) (hc0 : costs0 = [] ∨ costs0 = [(s0, 0)]) :
    LoopInv succ hfun isGoal s0 [⟨s0, 0, hfun s0, hfun s0, [s0]⟩] [] costs0 := by
  constructor
  · intro n hn
    simp only [List.mem_singleton] at hn
    subst hn
    exact ⟨[], trivial, rfl, rfl, by simp, by simp⟩
  · intro v hv; simp at hv
  · intro p c hc
    rcases hc0 with rfl | rfl
    · simp [lookupCost] at hc
    · by_cases hps : p = s0
      · subst hps
        rw [lookupCost_cons, if_pos rfl] at hc
        exact ⟨[], trivial, rfl, Option.some.inj hc⟩
      · rw [lookupCost_cons, if_neg hps] at hc
        simp [lookupCost] at hc
  · intro p c hc hnv
    rcases hc0 with rfl | rfl
    · simp [lookupCost] at hc
    · by_cases hps : p = s0
      · subst hps
        rw [lookupCost_cons, if_pos rfl] at hc
        exact ⟨_, List.mem_singleton_self _, rfl, Option.some.inj hc⟩
      · rw [lookupCost_cons, if_neg hps] at hc
        simp [lookupCost] at hc
  · exact Or.inr ⟨_, List.mem_singleton_self _, rfl, le_refl 0⟩
  · intro v hv; simp at hv

/-- Unfolding: empty frontier fails. -/
theorem searchLoop_none_eq {succ : σ → List (σ × Int)} {hfun : σ → Int} {isGoal : σ → Bool}
    {heap : List (SNode σ)} {visited : List σ} {costs : List (σ × Int)} {expanded : Nat}
    (hpop : popMinF heap = none) (fuel : Nat) :
    searchLoop succ hfun isGoal (fuel + 1) heap visited costs expanded =
      some (SearchOutcome.failure expanded) := by
  have heq := searchLoop_succ_eq succ hfun isGoal fuel heap visited costs expanded
  rw [hpop] at heq
  exact heq

/-- Unfolding: a stale pop is skipped. -/
theorem searchLoop_skip_eq {succ : σ → List (σ × Int)} {hfun : σ → Int} {isGoal : σ → Bool}
    {heap : List (SNode σ)} {visited : List σ} {costs : List (σ × Int)} {expanded : Nat}
    {cur : SNode σ} {rest : List (SNode σ)}
    (hpop : popMinF heap = some (cur, rest)) (hv : cur.state ∈ visited) (fuel : Nat) :
    searchLoop succ hfun isGoal (fuel + 1) heap visited costs expanded =
      searchLoop succ hfun isGoal fuel rest visited costs expanded := by
  have heq := searchLoop_succ_eq succ hfun isGoal fuel heap visited costs expanded
  rw [hpop] at heq
  rw [heq]
  exact if_pos hv

/-- Unfolding: popping a fresh goal node succeeds. -/
theorem searchLoop_goal_eq {succ : σ → List (σ × Int)} {hfun : σ → Int} {isGoal : σ → Bool}
    {heap : List (SNode σ)} {visited : List σ} {costs : List (σ × Int)} {expanded : Nat}
    {cur : SNode σ} {rest : List (SNode σ)}
    (hpop : popMinF heap = some (cur, rest)) (hv : cur.state ∉ visited)
    (hg : isGoal cur.state = true) (fuel : Nat) :
    searchLoop succ hfun isGoal (fuel + 1) heap visited costs expanded =
      some (SearchOutcome.success cur (expanded + 1)) := by
  have heq := searchLoop_succ_eq succ hfun isGoal fuel heap visited costs expanded
  rw [hpop] at heq
  rw [heq]
  show (if cur.state ∈ visited then
          searchLoop succ hfun isGoal fuel rest visited costs expanded
        else if isGoal cur.state = true then
          some (SearchOutcome.success cur (expanded + 1))
        else
          searchLoop succ hfun isGoal fuel
            (relaxSuccs hfun cur (succ cur.state) rest costs).1 (cur.state :: visited)
            (relaxSuccs hfun cur (succ cur.state) rest costs).2 (expanded + 1)) = _
  rw [if_neg hv, if_pos hg]

/-- Unfolding: popping a fresh non-goal node expands it. -/
theorem searchLoop_expand_eq {succ : σ → List (σ × Int)} {hfun : σ → Int} {isGoal : σ → Bool}
    {heap : List (SNode σ)} {visited : List σ} {costs : List (σ × Int)} {expanded : Nat}
    {cur : SNode σ} {rest : List (SNode σ)}
    (hpop : popMinF heap = some (cur, rest)) (hv : cur.state ∉ visited)
    (hg : isGoal cur.state = false) (fuel : Nat) :
    searchLoop succ hfun isGoal (fuel + 1) heap visited costs expanded =
      searchLoop succ hfun isGoal fuel
        (relaxSuccs hfun cur (succ cur.state) rest costs).1 (cur.state :: visited)
        (relaxSuccs hfun cur (succ cur.state) rest costs).2 (expanded + 1) := by
  have heq := searchLoop_succ_eq succ hfun isGoal fuel heap visited costs expanded
  rw [hpop] at heq
  rw [heq]
  show (if cur.state ∈ visited then
          searchLoop succ hfun isGoal fuel rest visited costs expanded
        else if isGoal cur.state = true then
          some (SearchOutcome.success cur (expanded + 1))
        else
          searchLoop succ hfun isGoal fuel
            (relaxSuccs hfun cur (succ cur.state) rest costs).1 (cur.state :: visited)
            (relaxSuccs hfun cur (succ cur.state) rest costs).2 (expanded + 1)) = _
  rw [if_neg hv, if_neg (by rw [hg]; exact Bool.false_ne_true)]

/-- Termination: when every successor stays inside a finite set of
states, some fuel makes the loop return. -/
theorem searchLoop_terminates (succ : σ → List (σ × Int)) (hfun : σ → Int)
    (isGoal : σ → Bool) (S : Finset σ)
    (hSsucc : ∀ a ∈ S, ∀ b w, (b, w) ∈ succ a → b ∈ S) :
    ∀ (kc kh : Nat) (heap : List (SNode σ)) (visited : List σ) (costs : List (σ × Int))
      (expanded : Nat),
      (∀ n ∈ heap, n.state ∈ S) →
      (S.filter (fun v => v ∉ visited)).card ≤ kc →
      heap.length ≤ kh →
      ∃ fuel out, searchLoop succ hfun isGoal fuel heap visited costs expanded = some out := by
  intro kc
  induction kc with
  | zero =>
    intro kh
    induction kh with
    | zero =>
      intro heap visited costs expanded _ _ hlen
      have : heap = [] := List.length_eq_zero.mp (Nat.le_zero.mp hlen)
      subst this
      have hp : popMinF ([] : List (SNode σ)) = none := rfl
      exact ⟨1, SearchOutcome.failure expanded, searchLoop_none_eq hp 0⟩
    | succ kh ihh =>
      intro heap visited costs expanded hS hcard hlen
      cases hpop : popMinF heap with
      | none => exact ⟨1, SearchOutcome.failure expanded, searchLoop_none_eq hpop 0⟩
      | some pr =>
        cases pr with
        | mk cur rest =>
          have hcurS : cur.state ∈ S := hS cur (popMinF_mem heap cur rest hpop)
          have hv : cur.state ∈ visited := by
            by_contra hnv
            have hmem : cur.state ∈ S.filter (fun v => v ∉ visited) := by
              simp only [Finset.mem_filter]
              exact ⟨hcurS, hnv⟩
            have := Finset.card_pos.mpr ⟨cur.state, hmem⟩
            omega
          have hlen2 : rest.length ≤ kh := by
            have := popMinF_length heap cur rest hpop
            omega
          obtain ⟨fuel, out, hout⟩ := ihh rest visited costs expanded
            (fun n hn => hS n (popMinF_rest_sub heap cur rest hpop n hn)) hcard hlen2
          exact ⟨fuel + 1, out, by rw [searchLoop_skip_eq hpop hv fuel]; exact hout⟩
  | succ kc ihc =>
    intro kh
    induction kh with
    | zero =>
      intro heap visited costs expanded _ _ hlen
      have : heap = [] := List.length_eq_zero.mp (Nat.le_zero.mp hlen)
      subst this
      have hp : popMinF ([] : List (SNode σ)) = none := rfl
      exact ⟨1, SearchOutcome.failure expanded, searchLoop_none_eq hp 0⟩
    | succ kh ihh =>
      intro heap visited costs expanded hS hcard hlen
      cases hpop : popMinF heap with
      | none => exact ⟨1, SearchOutcome.failure expanded, searchLoop_none_eq hpop 0⟩
      | some pr =>
        cases pr with
        | mk cur rest =>
          have hcurS : cur.state ∈ S := hS cur (popMinF_mem heap cur rest hpop)
          have hrestS : ∀ n ∈ rest, n.state ∈ S :=
            fun n hn => hS n (popMinF_rest_sub heap cur rest hpop n hn)
          by_cases hv : cur.state ∈ visited
          · have hlen2 : rest.length ≤ kh := by
              have := popMinF_length heap cur rest hpop
              omega
            obtain ⟨fuel, out, hout⟩ := ihh rest visited costs expanded hrestS hcard hlen2
            exact ⟨fuel + 1, out, by rw [searchLoop_skip_eq hpop hv fuel]; exact hout⟩
          · by_cases hg : isGoal cur.state = true
            · exact ⟨1, SearchOutcome.success cur (expanded + 1),
                searchLoop_goal_eq hpop hv hg 0⟩
            · have hgf : isGoal cur.state = false := Bool.eq_false_iff.mpr hg
              have hcard2 : (S.filter (fun v => v ∉ (cur.state :: visited))).card ≤ kc := by
                have hsub : S.filter (fun v => v ∉ (cur.state :: visited)) ⊆
                    S.filter (fun v => v ∉ visited) := by
                  intro v hvm
                  simp only [Finset.mem_filter, List.mem_cons, not_or] at hvm ⊢
                  exact ⟨hvm.1, hvm.2.2⟩
                have hin : cur.state ∈ S.filter (fun v => v ∉ visited) := by
                  simp only [Finset.mem_filter]
                  exact ⟨hcurS, hv⟩
                have hnotin : cur.state ∉ S.filter (fun v => v ∉ (cur.state :: visited)) := by
                  simp [Finset.mem_filter]
                have hlt := Finset.card_lt_card
                  ((Finset.ssubset_iff_of_subset hsub).mpr ⟨cur.state, hin, hnotin⟩)
                omega
              have hheapS : ∀ n ∈ (relaxSuccs hfun cur (succ cur.state) rest costs).1,
                  n.state ∈ S := by
                obtain ⟨news, hshape, hnews⟩ :=
                  relaxSuccs_heap_shape hfun cur (succ cur.state) rest costs
                intro n hn
                rw [hshape] at hn
                rcases List.mem_append.mp hn with hr | hnew
                · exact hrestS n hr
                · obtain ⟨s, w, hsw, rfl⟩ := hnews n hnew
                  exact hSsucc cur.state hcurS s w hsw
              obtain ⟨fuel, out, hout⟩ := ihc
                ((relaxSuccs hfun cur (succ cur.state) rest costs).1.length)
                (relaxSuccs hfun cur (succ cur.state) rest costs).1
                (cur.state :: visited)
                (relaxSuccs hfun cur (succ cur.state) rest costs).2
                (expanded + 1) hheapS hcard2 (le_refl _)
              exact ⟨fuel + 1, out, by rw [searchLoop_expand_eq hpop hv hgf fuel]; exact hout⟩

/-- Relaxation keeps every heap node well formed, with no hypotheses on
the weights (used for the claims that hold on arbitrary terrain). -/
theorem relax_heap_sound {succ : σ → List (σ × Int)} {hfun : σ → Int} {s0 : σ}
    {cur : SNode σ} {rest : List (SNode σ)} {costs : List (σ × Int)}
    (hrest : ∀ n ∈ rest, NodeOk succ hfun s0 n) (hcur : NodeOk succ hfun s0 cur) :
    ∀ n ∈ (relaxSuccs hfun cur (succ cur.state) rest costs).1, NodeOk succ hfun s0 n := by
  obtain ⟨csteps, hcsf, hcstate, hcg, hcf, hcrev⟩ := hcur
  obtain ⟨news, hshape, hnews⟩ := relaxSuccs_heap_shape hfun cur (succ cur.state) rest costs
  intro n hn
  rw [hshape] at hn
  rcases List.mem_append.mp hn with hr | hnew
  · exact hrest n hr
  · obtain ⟨s, w, hsw, rfl⟩ := hnews n hnew
    rw [hcstate] at hsw
    refine ⟨csteps ++ [(s, w)], ?_, ?_, ?_, rfl, ?_⟩
    · rw [StepsFrom_append_iff]
      exact ⟨hcsf, hsw, trivial⟩
    · rw [endState_append]; rfl
    · rw [stepsCost_append, stepsCost_cons, stepsCost_nil, hcg]; ring
    · rw [hcrev]; simp

/-- Success shape of the loop on arbitrary weights: whatever the fuel
and the heuristic, a successful outcome carries a well-formed goal
node.  (No consistency or sign hypotheses: used by the invariants that
hold on every environment.) -/
theorem searchLoop_basic {succ : σ → List (σ × Int)} {hfun : σ → Int} {isGoal : σ → Bool}
    {s0 : σ} :
    ∀ (fuel : Nat) (heap : List (SNode σ)) (visited : List σ) (costs : List (σ × Int))
      (expanded : Nat),
      (∀ n ∈ heap, NodeOk succ hfun s0 n) →
      ∀ n e,
        searchLoop succ hfun isGoal fuel heap visited costs expanded =
          some (SearchOutcome.success n e) →
        NodeOk succ hfun s0 n ∧ isGoal n.state = true := by
  intro fuel
  induction fuel with
  | zero =>
    intro heap visited costs expanded _ n e h
    simp [searchLoop] at h
  | succ fuel ih =>
    intro heap visited costs expanded hsound n e h
    cases hpop : popMinF heap with
    | none =>
      rw [searchLoop_none_eq hpop fuel] at h
      simp at h
    | some pr =>
      cases pr with
      | mk cur rest =>
        by_cases hv : cur.state ∈ visited
        · rw [searchLoop_skip_eq hpop hv fuel] at h
          exact ih rest visited costs expanded
            (fun m hm => hsound m (popMinF_rest_sub heap cur rest hpop m hm)) n e h
        · by_cases hg : isGoal cur.state = true
          · rw [searchLoop_goal_eq hpop hv hg fuel] at h
            simp only [Option.some.injEq, SearchOutcome.success.injEq] at h
            rw [← h.1]
            exact ⟨hsound cur (popMinF_mem heap cur rest hpop), hg⟩
          · have hgf : isGoal cur.state = false := Bool.eq_false_iff.mpr hg
            rw [searchLoop_expand_eq hpop hv hgf fuel] at h
            exact ih _ _ _ _
              (relax_heap_sound
                (fun m hm => hsound m (popMinF_rest_sub heap cur rest hpop m hm))
                (hsound cur (popMinF_mem heap cur rest hpop))) n e h

/-- The last element of the reconstructed state list is the end state. -/
theorem getLast_cons_endState (s0 : σ) (steps : List (σ × Int)) :
    (s0 :: steps.map Prod.fst).getLast? = some (endState s0 steps) := by
  induction steps generalizing s0 with
  | nil => rfl
  | cons hd tl ih =>
    cases hd with
    | mk b w =>
      simp only [List.map_cons, endState_cons]
      rw [List.getLast?_cons_cons]
      exact ih b

end MasterProof

/-! ## Bridging abstract step sequences and environment move paths -/

theorem mem_spatialSucc_iff (env : GridEnvironment) (a : Pos) (b : Pos) (w : Int) :
    (b, w) ∈ spatialSucc env a ↔
      b ∈ env.get_neighbors a.1 a.2 none ∧ w = env.terrain_int b.1 b.2 := by
  simp only [spatialSucc, List.mem_map, Prod.mk.injEq]
  constructor
  · rintro ⟨q, hq, rfl, rfl⟩
    exact ⟨hq, rfl⟩
  · rintro ⟨hb, rfl⟩
    exact ⟨b, hb, rfl, rfl⟩

theorem mem_get_neighbors_iff (env : GridEnvironment) (x y : Int) (t : Option Int)
    (q : Pos) :
    q ∈ env.get_neighbors x y t ↔
      ∃ d ∈ ([(0, 1), (1, 0), (0, -1), (-1, 0)] : List (Int × Int)),
        q = (x + d.1, y + d.2) ∧ env.is_passable (x + d.1) (y + d.2) t = true := by
  simp only [GridEnvironment.get_neighbors, List.mem_filterMap]
  constructor
  · rintro ⟨d, hd, hq⟩
    by_cases hp : env.is_passable (x + d.1) (y + d.2) t = true
    · rw [if_pos hp] at hq
      exact ⟨d, hd, (Option.some.inj hq).symm, hp⟩
    · rw [if_neg hp] at hq
      simp at hq
  · rintro ⟨d, hd, rfl, hp⟩
    exact ⟨d, hd, by rw [if_pos hp]⟩

theorem mem_get_neighbors_passable (env : GridEnvironment) (x y : Int) (t : Option Int)
    (q : Pos) (hq : q ∈ env.get_neighbors x y t) :
    env.is_passable q.1 q.2 t = true := by
  rw [mem_get_neighbors_iff] at hq
  obtain ⟨d, _, rfl, hp⟩ := hq
  exact hp

theorem is_passable_valid (env : GridEnvironment) (x y : Int) (t : Option Int)
    (h : env.is_passable x y t = true) : env.is_valid_position x y = true := by
  unfold GridEnvironment.is_passable at h
  simp only [Bool.and_eq_true] at h
  exact h.1.1

theorem mem_get_neighbors_valid (env : GridEnvironment) (x y : Int) (t : Option Int)
    (q : Pos) (hq : q ∈ env.get_neighbors x y t) :
    env.is_valid_position q.1 q.2 = true :=
  is_passable_valid env q.1 q.2 t (mem_get_neighbors_passable env x y t q hq)

theorem get_terrain_cost_of_valid (env : GridEnvironment) (x y : Int)
    (h : env.is_valid_position x y = true) :
    env.get_terrain_cost x y = (env.terrain_int x y : WithTop Int) := by
  unfold GridEnvironment.get_terrain_cost
  rw [if_pos h]

theorem mem_get_neighbors_ne (env : GridEnvironment) (x y : Int) (t : Option Int)
    (q : Pos) (hq : q ∈ env.get_neighbors x y t) : q ≠ (x, y) := by
  rw [mem_get_neighbors_iff] at hq
  obtain ⟨d, hd, rfl, _⟩ := hq
  simp at hd
  rcases hd with rfl | rfl | rfl | rfl <;>
    · intro hcontra
      rw [Prod.mk.injEq] at hcontra
      omega

theorem mem_get_neighbors_manhattan (env : GridEnvironment) (a : Pos) (t : Option Int)
    (q : Pos) (hq : q ∈ env.get_neighbors a.1 a.2 t) : manhattan_distance a q = 1 := by
  rw [mem_get_neighbors_iff] at hq
  obtain ⟨d, hd, rfl, _⟩ := hq
  simp at hd
  rcases hd with rfl | rfl | rfl | rfl <;> simp [manhattan_distance]

/-- From abstract steps to an environment path with matching cost. -/
theorem steps_to_validpath (env : GridEnvironment) :
    ∀ (steps : List (Pos × Int)) (s0 : Pos),
      StepsFrom (spatialSucc env) s0 steps →
      ValidMovePath env (s0 :: steps.map Prod.fst) ∧
      path_terrain_sum env (s0 :: steps.map Prod.fst) =
        ((stepsCost steps : Int) : WithTop Int) := by
  intro steps
  induction steps with
  | nil =>
    intro s0 _
    constructor
    · simp [ValidMovePath]
    · simp [path_terrain_sum, stepsCost]
  | cons hd tl ih =>
    intro s0 hsf
    cases hd with
    | mk b w =>
      rw [StepsFrom_cons_iff] at hsf
      dsimp only at hsf
      rw [mem_spatialSucc_iff] at hsf
      obtain ⟨⟨hnb, rfl⟩, htl⟩ := hsf
      obtain ⟨ihv, ihc⟩ := ih b htl
      constructor
      · simp only [List.map_cons, ValidMovePath, List.chain'_cons]
        exact ⟨hnb, ihv⟩
      · have hval := mem_get_neighbors_valid env s0.1 s0.2 none b hnb
        simp only [List.map_cons, path_terrain_sum, List.tail_cons, List.sum_cons,
          stepsCost_cons]
        have : path_terrain_sum env (b :: tl.map Prod.fst) =
            ((stepsCost tl : Int) : WithTop Int) := ihc
        simp only [path_terrain_sum, List.tail_cons] at this
        rw [get_terrain_cost_of_valid env b.1 b.2 hval, this]
        push_cast
        rfl

/-- From an environment path to abstract steps with matching cost. -/
theorem validpath_to_steps (env : GridEnvironment) :
    ∀ (l : List Pos) (s0 : Pos),
      ValidMovePath env (s0 :: l) →
      StepsFrom (spatialSucc env) s0 (stepsOfPath env l) ∧
      (s0 :: l).getLast? = some (endState s0 (stepsOfPath env l)) ∧
      path_terrain_sum env (s0 :: l) =
        ((stepsCost (stepsOfPath env l) : Int) : WithTop Int) := by
  intro l
  induction l with
  | nil =>
    intro s0 _
    refine ⟨trivial, rfl, ?_⟩
    simp [path_terrain_sum, stepsCost, stepsOfPath]
  | cons b tl ih =>
    intro s0 hv
    simp only [ValidMovePath, List.chain'_cons] at hv
    obtain ⟨hnb, htl⟩ := hv
    obtain ⟨ihs, ihl, ihc⟩ := ih b htl
    refine ⟨?_, ?_, ?_⟩
    · simp only [stepsOfPath, List.map_cons]
      rw [StepsFrom_cons_iff]
      exact ⟨(mem_spatialSucc_iff env s0 b _).mpr ⟨hnb, rfl⟩, ihs⟩
    · simp only [stepsOfPath, List.map_cons, endState_cons]
      rw [List.getLast?_cons_cons]
      exact ihl
    · have hval := mem_get_neighbors_valid env s0.1 s0.2 none b hnb
      simp only [stepsOfPath, List.map_cons, path_terrain_sum, List.tail_cons,
        List.sum_cons, stepsCost_cons]
      simp only [path_terrain_sum, List.tail_cons, stepsOfPath] at ihc
      rw [get_terrain_cost_of_valid env b.1 b.2 hval, ihc]
      push_cast
      rfl

/-! ## Shape of the wrapped search results -/

theorem ucs_find_path_of_success {fuel : Nat} {env : GridEnvironment} {start goal : Pos}
    {n : SNode Pos} {exp : Nat}
    (hout : searchLoop (spatialSucc env) (fun _ => 0) (fun p => p = goal)
      fuel [⟨start, 0, 0, 0, [start]⟩] [] [(start, 0)] 0 =
        some (SearchOutcome.success n exp)) :
    ucs_find_path fuel env start goal =
      some ⟨reconstructStates n, (n.g : WithTop Int), exp, true, "UCS"⟩ := by
  unfold ucs_find_path
  rw [hout]

theorem ucs_find_path_of_failure {fuel : Nat} {env : GridEnvironment} {start goal : Pos}
    {exp : Nat}
    (hout : searchLoop (spatialSucc env) (fun _ => 0) (fun p => p = goal)
      fuel [⟨start, 0, 0, 0, [start]⟩] [] [(start, 0)] 0 =
        some (SearchOutcome.failure exp)) :
    ucs_find_path fuel env start goal = some ⟨[], ⊤, exp, false, "UCS"⟩ := by
  unfold ucs_find_path
  rw [hout]

theorem astar_find_path_of_success {fuel : Nat} {env : GridEnvironment} {start goal : Pos}
    {n : SNode Pos} {exp : Nat}
    (hout : searchLoop (spatialSucc env) (fun p => manhattan_distance p goal)
      (fun p => p = goal) fuel
      [⟨start, 0, manhattan_distance start goal, manhattan_distance start goal, [start]⟩]
      [] [(start, 0)] 0 = some (SearchOutcome.success n exp)) :
    astar_find_path fuel env start goal =
      some ⟨reconstructStates n, (n.g : WithTop Int), exp, true, "A*"⟩ := by
  unfold astar_find_path
  rw [hout]

theorem astar_find_path_of_failure {fuel : Nat} {env : GridEnvironment} {start goal : Pos}
    {exp : Nat}
    (hout : searchLoop (spatialSucc env) (fun p => manhattan_distance p goal)
      (fun p => p = goal) fuel
      [⟨start, 0, manhattan_distance start goal, manhattan_distance start goal, [start]⟩]
      [] [(start, 0)] 0 = some (SearchOutcome.failure exp)) :
    astar_find_path fuel env start goal = some ⟨[], ⊤, exp, false, "A*"⟩ := by
  unfold astar_find_path
  rw [hout]

theorem temporal_find_path_of_success {fuel : Nat} {env : GridEnvironment}
    {horizon : Int} {start goal : Pos} {t0 : Int} {n : SNode (Pos × Int)} {exp : Nat}
    (hout : searchLoop (temporalSucc env t0 horizon)
      (fun st => manhattan_distance st.1 goal) (fun st => st.1 = goal) fuel
      [⟨(start, t0), 0, manhattan_distance start goal, manhattan_distance start goal,
        [(start, t0)]⟩] [] [] 0 = some (SearchOutcome.success n exp)) :
    temporal_astar_find_path fuel env horizon start goal t0 =
      some ⟨(reconstructStates n).map (fun st => st.1), (n.g : WithTop Int), exp, true,
        "Temporal A*"⟩ := by
  unfold temporal_astar_find_path
  rw [hout]

theorem temporal_find_path_of_failure {fuel : Nat} {env : GridEnvironment}
    {horizon : Int} {start goal : Pos} {t0 : Int} {exp : Nat}
    (hout : searchLoop (temporalSucc env t0 horizon)
      (fun st => manhattan_distance st.1 goal) (fun st => st.1 = goal) fuel
      [⟨(start, t0), 0, manhattan_distance start goal, manhattan_distance start goal,
        [(start, t0)]⟩] [] [] 0 = some (SearchOutcome.failure exp)) :
    temporal_astar_find_path fuel env horizon start goal t0 =
      some ⟨[], ⊤, exp, false, "Temporal A*"⟩ := by
  unfold temporal_astar_find_path
  rw [hout]

/-- The initial UCS heap is well formed. -/
theorem ucs_init_sound (env : GridEnvironment) (start : Pos) :
    ∀ m ∈ [(⟨start, 0, 0, 0, [start]⟩ : SNode Pos)],
      NodeOk (spatialSucc env) (fun _ => 0) start m := by
  intro m hm
  simp only [List.mem_singleton] at hm
  subst hm
  exact ⟨[], trivial, rfl, rfl, by simp, by simp⟩

/-- The initial A* heap is well formed. -/
theorem astar_init_sound (env : GridEnvironment) (start goal : Pos) :
    ∀ m ∈ [(⟨start, 0, manhattan_distance start goal, manhattan_distance start goal,
        [start]⟩ : SNode Pos)],
      NodeOk (spatialSucc env) (fun p => manhattan_distance p goal) start m := by
  intro m hm
  simp only [List.mem_singleton] at hm
  subst hm
  exact ⟨[], trivial, rfl, rfl, by simp, by simp⟩

/-- The initial Temporal A* heap is well formed. -/
theorem temporal_init_sound (env : GridEnvironment) (t0 horizon : Int)
    (start goal : Pos) :
    ∀ m ∈ [(⟨(start, t0), 0, manhattan_distance start goal,
        manhattan_distance start goal, [(start, t0)]⟩ : SNode (Pos × Int))],
      NodeOk (temporalSucc env t0 horizon) (fun st => manhattan_distance st.1 goal)
        (start, t0) m := by
  intro m hm
  simp only [List.mem_singleton] at hm
  subst hm
  exact ⟨[], trivial, rfl, rfl, by simp, by simp⟩

/-- Characterisation of a returned UCS result, on arbitrary terrain:
a successful result is a reconstruction of a legal step sequence ending
at the goal, whose cost is the result's cost; a failed result has an
empty path and infinite cost. -/
theorem ucs_result_shape {fuel : Nat} {env : GridEnvironment} {start goal : Pos}
    {r : SearchResult} (h : ucs_find_path fuel env start goal = some r) :
    (r.success = true →
      ∃ steps, StepsFrom (spatialSucc env) start steps ∧
        r.path = start :: steps.map Prod.fst ∧ endState start steps = goal ∧
        r.cost = ((stepsCost steps : Int) : WithTop Int)) ∧
    (r.success = false → r.path = [] ∧ r.cost = ⊤) := by
  cases hout : searchLoop (spatialSucc env) (fun _ => 0) (fun p => p = goal)
      fuel [⟨start, 0, 0, 0, [start]⟩] [] [(start, 0)] 0 with
  | none => unfold ucs_find_path at h; rw [hout] at h; exact absurd h (by simp)
  | some out =>
    cases out with
    | success n exp =>
      rw [ucs_find_path_of_success hout] at h
      have hr := Option.some.inj h
      obtain ⟨⟨steps, hsf, hstate, hg, _, hrev⟩, hgoal⟩ :=
        searchLoop_basic fuel _ _ _ _ (ucs_init_sound env start) n exp hout
      subst hr
      refine ⟨fun _ => ⟨steps, hsf, ?_, ?_, ?_⟩, fun hc => by simp at hc⟩
      · show reconstructStates n = _
        unfold reconstructStates
        rw [hrev, List.reverse_reverse]
      · rw [← hstate]
        exact of_decide_eq_true hgoal
      · show (n.g : WithTop Int) = _
        rw [hg]
    | failure exp =>
      rw [ucs_find_path_of_failure hout] at h
      have hr := Option.some.inj h
      subst hr
      exact ⟨fun hc => by simp at hc, fun _ => ⟨rfl, rfl⟩⟩

/-- Characterisation of a returned A* result, on arbitrary terrain. -/
theorem astar_result_shape {fuel : Nat} {env : GridEnvironment} {start goal : Pos}
    {r : SearchResult} (h : astar_find_path fuel env start goal = some r) :
    (r.success = true →
      ∃ steps, StepsFrom (spatialSucc env) start steps ∧
        r.path = start :: steps.map Prod.fst ∧ endState start steps = goal ∧
        r.cost = ((stepsCost steps : Int) : WithTop Int)) ∧
    (r.success = false → r.path = [] ∧ r.cost = ⊤) := by
  cases hout : searchLoop (spatialSucc env) (fun p => manhattan_distance p goal)
      (fun p => p = goal) fuel
      [⟨start, 0, manhattan_distance start goal, manhattan_distance start goal, [start]⟩]
      [] [(start, 0)] 0 with
  | none => unfold astar_find_path at h; rw [hout] at h; exact absurd h (by simp)
  | some out =>
    cases out with
    | success n exp =>
      rw [astar_find_path_of_success hout] at h
      have hr := Option.some.inj h
      obtain ⟨⟨steps, hsf, hstate, hg, _, hrev⟩, hgoal⟩ :=
        searchLoop_basic fuel _ _ _ _ (astar_init_sound env start goal) n exp hout
      subst hr
      refine ⟨fun _ => ⟨steps, hsf, ?_, ?_, ?_⟩, fun hc => by simp at hc⟩
      · show reconstructStates n = _
        unfold reconstructStates
        rw [hrev, List.reverse_reverse]
      · rw [← hstate]
        exact of_decide_eq_true hgoal
      · show (n.g : WithTop Int) = _
        rw [hg]
    | failure exp =>
      rw [astar_find_path_of_failure hout] at h
      have hr := Option.some.inj h
      subst hr
      exact ⟨fun hc => by simp at hc, fun _ => ⟨rfl, rfl⟩⟩

/-- Characterisation of a returned Temporal A* result. -/
theorem temporal_result_shape {fuel : Nat} {env : GridEnvironment} {horizon : Int}
    {start goal : Pos} {t0 : Int} {r : SearchResult}
    (h : temporal_astar_find_path fuel env horizon start goal t0 = some r) :
    (r.success = true →
      ∃ steps, StepsFrom (temporalSucc env t0 horizon) (start, t0) steps ∧
        r.path = start :: (steps.map Prod.fst).map (fun st => st.1) ∧
        (endState (start, t0) steps).1 = goal ∧
        r.cost = ((stepsCost steps : Int) : WithTop Int)) ∧
    (r.success = false → r.path = [] ∧ r.cost = ⊤) := by
  cases hout : searchLoop (temporalSucc env t0 horizon)
      (fun st => manhattan_distance st.1 goal) (fun st => st.1 = goal) fuel
      [⟨(start, t0), 0, manhattan_distance start goal, manhattan_distance start goal,
        [(start, t0)]⟩] [] [] 0 with
  | none =>
    unfold temporal_astar_find_path at h; rw [hout] at h; exact absurd h (by simp)
  | some out =>
    cases out with
    | success n exp =>
      rw [temporal_find_path_of_success hout] at h
      have hr := Option.some.inj h
      obtain ⟨⟨steps, hsf, hstate, hg, _, hrev⟩, hgoal⟩ :=
        searchLoop_basic fuel _ _ _ _ (temporal_init_sound env t0 horizon start goal)
          n exp hout
      subst hr
      refine ⟨fun _ => ⟨steps, hsf, ?_, ?_, ?_⟩, fun hc => by simp at hc⟩
      · show (reconstructStates n).map (fun st => st.1) = _
        unfold reconstructStates
        rw [hrev, List.reverse_reverse]
        simp
      · rw [← hstate]
        exact of_decide_eq_true hgoal
      · show (n.g : WithTop Int) = _
        rw [hg]
    | failure exp =>
      rw [temporal_find_path_of_failure hout] at h
      have hr := Option.some.inj h
      subst hr
      exact ⟨fun hc => by simp at hc, fun _ => ⟨rfl, rfl⟩⟩

/-! ## Optimality of UCS and A* -/

/-- With non-negative terrain the constant-zero heuristic of UCS is
consistent. -/
theorem ucs_consistent (env : GridEnvironment)
    (hnn : ∀ x y, env.is_valid_position x y = true → 0 ≤ env.terrain_int x y) :
    ∀ a b w, (b, w) ∈ spatialSucc env a →
      (fun _ : Pos => (0 : Int)) a ≤ w + (fun _ : Pos => (0 : Int)) b := by
  intro a b w hbw
  rw [mem_spatialSucc_iff] at hbw
  obtain ⟨hnb, rfl⟩ := hbw
  have := hnn b.1 b.2 (mem_get_neighbors_valid env a.1 a.2 none b hnb)
  simpa using this

/-- With terrain costs at least 1 the Manhattan heuristic is
consistent: a move changes the estimate by at most 1 and costs at
least 1. -/
theorem astar_consistent (env : GridEnvironment) (goal : Pos)
    (hpos : ∀ x y, env.is_valid_position x y = true → 1 ≤ env.terrain_int x y) :
    ∀ a b w, (b, w) ∈ spatialSucc env a →
      manhattan_distance a goal ≤ w + manhattan_distance b goal := by
  intro a b w hbw
  rw [mem_spatialSucc_iff] at hbw
  obtain ⟨hnb, rfl⟩ := hbw
  have hone : manhattan_distance a b = 1 := mem_get_neighbors_manhattan env a none b hnb
  have hw : 1 ≤ env.terrain_int b.1 b.2 :=
    hpos b.1 b.2 (mem_get_neighbors_valid env a.1 a.2 none b hnb)
  have htri : manhattan_distance a goal ≤
      manhattan_distance a b + manhattan_distance b goal := by
    unfold manhattan_distance
    have h1 := abs_sub_le a.1 b.1 goal.1
    have h2 := abs_sub_le a.2 b.2 goal.2
    omega
  omega

theorem spatialStates_start (env : GridEnvironment) (start : Pos) :
    start ∈ spatialStates env start := Finset.mem_insert_self _ _

theorem spatialStates_closed (env : GridEnvironment) (start : Pos) :
    ∀ a ∈ spatialStates env start, ∀ b w, (b, w) ∈ spatialSucc env a →
      b ∈ spatialStates env start := by
  intro a _ b w hbw
  rw [mem_spatialSucc_iff] at hbw
  have hval := mem_get_neighbors_valid env a.1 a.2 none b hbw.1
  unfold GridEnvironment.is_valid_position at hval
  simp only [Bool.and_eq_true, decide_eq_true_eq] at hval
  apply Finset.mem_insert_of_mem
  rw [Finset.mem_product, Finset.mem_Icc, Finset.mem_Icc]
  omega

/-- Full correctness of UCS on non-negative terrain: for some fuel it
returns a successful result whose path is a legal move path from start
to goal, whose cost is the path's terrain sum, and whose cost is
minimal among all legal move paths from start to goal. -/
theorem ucs_optimal (env : GridEnvironment) (start goal : Pos)
    (hnn : ∀ x y, env.is_valid_position x y = true → 0 ≤ env.terrain_int x y)
    (l0 : List Pos) (hvp : ValidMovePath env (start :: l0))
    (hlast : (start :: l0).getLast? = some goal) :
    ∃ fuel r, ucs_find_path fuel env start goal = some r ∧ r.success = true ∧
      ValidMovePath env r.path ∧ r.path.head? = some start ∧
      r.path.getLast? = some goal ∧ r.cost = path_terrain_sum env r.path ∧
      ∀ m, ValidMovePath env m → m.head? = some start → m.getLast? = some goal →
        r.cost ≤ path_terrain_sum env m := by
  have hcons := ucs_consistent env hnn
  have hinv : LoopInv (spatialSucc env) (fun _ => 0) (fun p => p = goal) start
      [⟨start, 0, 0, 0, [start]⟩] [] [(start, 0)] :=
    loopInv_init (spatialSucc env) (fun _ => 0) (fun p => p = goal) start
      [(start, 0)] (Or.inr rfl)
  obtain ⟨fuel, out, hout⟩ := searchLoop_terminates (spatialSucc env) (fun _ => 0)
    (fun p => p = goal) (spatialStates env start) (spatialStates_closed env start)
    (((spatialStates env start).filter (fun v => v ∉ ([] : List Pos))).card) 1
    [⟨start, 0, 0, 0, [start]⟩] [] [(start, 0)] 0
    (by intro n hn
        simp only [List.mem_singleton] at hn
        subst hn
        exact spatialStates_start env start)
    (le_refl _) (by simp)
  have hsound := searchLoop_sound hcons fuel
    [⟨start, 0, 0, 0, [start]⟩] [] [(start, 0)] 0 hinv out hout
  obtain ⟨hsteps0, hlast0, _⟩ := validpath_to_steps env l0 start hvp
  have hend0 : endState start (stepsOfPath env l0) = goal := by
    rw [hlast0] at hlast
    exact Option.some.inj hlast
  cases out with
  | failure exp =>
    exfalso
    have := hsound.2 exp rfl (stepsOfPath env l0) hsteps0
    rw [hend0] at this
    simp at this
  | success n exp =>
    obtain ⟨⟨steps, hsf, hstate, hg, _, hrev⟩, hgoal, hLB, _⟩ :=
      hsound.1 n exp rfl
    have hngoal : n.state = goal := of_decide_eq_true hgoal
    have hpath : reconstructStates n = start :: steps.map Prod.fst := by
      unfold reconstructStates
      rw [hrev, List.reverse_reverse]
    obtain ⟨hvp2, hcost2⟩ := steps_to_validpath env steps start hsf
    refine ⟨fuel, _, ucs_find_path_of_success hout, rfl, ?_, ?_, ?_, ?_, ?_⟩
    · show ValidMovePath env (reconstructStates n)
      rw [hpath]; exact hvp2
    · rw [hpath]; rfl
    · show (reconstructStates n).getLast? = some goal
      rw [hpath, getLast_cons_endState, ← hstate, hngoal]
    · show (n.g : WithTop Int) = path_terrain_sum env (reconstructStates n)
      rw [hpath, hcost2, hg]
    · intro m hm hmh hml
      cases m with
      | nil => simp at hmh
      | cons m0 mtl =>
        have hm0 : m0 = start := by
          simpa using hmh
        cases hm0
        obtain ⟨hsteps2, hlast2, hcost3⟩ := validpath_to_steps env mtl start hm
        have hend2 : endState start (stepsOfPath env mtl) = n.state := by
          rw [hlast2] at hml
          rw [Option.some.inj hml, hngoal]
        have := hLB (stepsOfPath env mtl) hsteps2 hend2
        show (n.g : WithTop Int) ≤ path_terrain_sum env (start :: mtl)
        rw [hcost3]
        exact_mod_cast this

/-- Full correctness of A* with the Manhattan heuristic on terrain
costs at least 1 (which makes the heuristic consistent). -/
theorem astar_optimal (env : GridEnvironment) (start goal : Pos)
    (hpos : ∀ x y, env.is_valid_position x y = true → 1 ≤ env.terrain_int x y)
    (l0 : List Pos) (hvp : ValidMovePath env (start :: l0))
    (hlast : (start :: l0).getLast? = some goal) :
    ∃ fuel r, astar_find_path fuel env start goal = some r ∧ r.success = true ∧
      ValidMovePath env r.path ∧ r.path.head? = some start ∧
      r.path.getLast? = some goal ∧ r.cost = path_terrain_sum env r.path ∧
      ∀ m, ValidMovePath env m → m.head? = some start → m.getLast? = some goal →
        r.cost ≤ path_terrain_sum env m := by
  have hcons := astar_consistent env goal hpos
  have hinv : LoopInv (spatialSucc env) (fun p => manhattan_distance p goal)
      (fun p => p = goal) start
      [⟨start, 0, manhattan_distance start goal, manhattan_distance start goal, [start]⟩]
      [] [(start, 0)] :=
    loopInv_init (spatialSucc env) (fun p => manhattan_distance p goal)
      (fun p => p = goal) start [(start, 0)] (Or.inr rfl)
  obtain ⟨fuel, out, hout⟩ := searchLoop_terminates (spatialSucc env)
    (fun p => manhattan_distance p goal) (fun p => p = goal)
    (spatialStates env start) (spatialStates_closed env start)
    (((spatialStates env start).filter (fun v => v ∉ ([] : List Pos))).card) 1
    [⟨start, 0, manhattan_distance start goal, manhattan_distance start goal, [start]⟩]
    [] [(start, 0)] 0
    (by intro n hn
        simp only [List.mem_singleton] at hn
        subst hn
        exact spatialStates_start env start)
    (le_refl _) (by simp)
  have hsound := searchLoop_sound hcons fuel
    [⟨start, 0, manhattan_distance start goal, manhattan_distance start goal, [start]⟩]
    [] [(start, 0)] 0 hinv out hout
  obtain ⟨hsteps0, hlast0, _⟩ := validpath_to_steps env l0 start hvp
  have hend0 : endState start (stepsOfPath env l0) = goal := by
    rw [hlast0] at hlast
    exact Option.some.inj hlast
  cases out with
  | failure exp =>
    exfalso
    have := hsound.2 exp rfl (stepsOfPath env l0) hsteps0
    rw [hend0] at this
    simp at this
  | success n exp =>
    obtain ⟨⟨steps, hsf, hstate, hg, _, hrev⟩, hgoal, hLB, _⟩ :=
      hsound.1 n exp rfl
    have hngoal : n.state = goal := of_decide_eq_true hgoal
    have hpath : reconstructStates n = start :: steps.map Prod.fst := by
      unfold reconstructStates
      rw [hrev, List.reverse_reverse]
    obtain ⟨hvp2, hcost2⟩ := steps_to_validpath env steps start hsf
    refine ⟨fuel, _, astar_find_path_of_success hout, rfl, ?_, ?_, ?_, ?_, ?_⟩
    · show ValidMovePath env (reconstructStates n)
      rw [hpath]; exact hvp2
    · rw [hpath]; rfl
    · show (reconstructStates n).getLast? = some goal
      rw [hpath, getLast_cons_endState, ← hstate, hngoal]
    · show (n.g : WithTop Int) = path_terrain_sum env (reconstructStates n)
      rw [hpath, hcost2, hg]
    · intro m hm hmh hml
      cases m with
      | nil => simp at hmh
      | cons m0 mtl =>
        have hm0 : m0 = start := by
          simpa using hmh
        cases hm0
        obtain ⟨hsteps2, hlast2, hcost3⟩ := validpath_to_steps env mtl start hm
        have hend2 : endState start (stepsOfPath env mtl) = n.state := by
          rw [hlast2] at hml
          rw [Option.some.inj hml, hngoal]
        have := hLB (stepsOfPath env mtl) hsteps2 hend2
        show (n.g : WithTop Int) ≤ path_terrain_sum env (start :: mtl)
        rw [hcost3]
        exact_mod_cast this

/-! ## One-step unfoldings for BFS and trivial self-paths -/

theorem bfsLoop_succ_eq (env : GridEnvironment) (goal : Pos) (fuel : Nat)
    (queue : List BNode) (visited : List Pos) (expanded : Nat) :
    bfsLoop env goal (fuel + 1) queue visited expanded =
      match queue with
      | [] => some (SearchOutcome.failure expanded)
      | cur :: rest =>
        if cur.pos = goal then
          some (SearchOutcome.success ⟨cur.pos, 0, 0, 0, cur.rev⟩ (expanded + 1))
        else
          bfsLoop env goal fuel
            (bfsRelax cur (env.get_neighbors cur.pos.1 cur.pos.2 none) rest visited).1
            (bfsRelax cur (env.get_neighbors cur.pos.1 cur.pos.2 none) rest visited).2
            (expanded + 1) := rfl

theorem bfs_find_path_of_success {fuel : Nat} {env : GridEnvironment} {start goal : Pos}
    {n : SNode Pos} {exp : Nat}
    (hout : bfsLoop env goal fuel [⟨start, [start]⟩] [start] 0 =
      some (SearchOutcome.success n exp)) :
    bfs_find_path fuel env start goal =
      some ⟨reconstructStates n, ((n.rev.length : Int) - 1 : Int), exp, true, "BFS"⟩ := by
  unfold bfs_find_path
  rw [hout]

theorem bfs_find_path_of_failure {fuel : Nat} {env : GridEnvironment} {start goal : Pos}
    {exp : Nat}
    (hout : bfsLoop env goal fuel [⟨start, [start]⟩] [start] 0 =
      some (SearchOutcome.failure exp)) :
    bfs_find_path fuel env start goal = some ⟨[], ⊤, exp, false, "BFS"⟩ := by
  unfold bfs_find_path
  rw [hout]

/-- If the initial node is already a goal node, the shared loop returns
it on the first iteration: the start's passability is never consulted. -/
theorem searchLoop_first_goal {σ : Type} [DecidableEq σ] (succ : σ → List (σ × Int))
    (hfun : σ → Int) (isGoal : σ → Bool) (n0 : SNode σ)
    (hg : isGoal n0.state = true) (costs0 : List (σ × Int)) (k : Nat) :
    searchLoop succ hfun isGoal (k + 1) [n0] [] costs0 0 =
      some (SearchOutcome.success n0 1) := by
  have hpop : popMinF [n0] = some (n0, []) := rfl
  exact searchLoop_goal_eq hpop (by simp) hg k

/-! ## Concrete environments used by counterexamples and witnesses -/

/-- C10: for every environment and every position `p` — in or out of
bounds, obstacle or not — BFS, UCS, A* and Temporal A* return
`success = true` with path `[p]` and cost `0` on `find_path(p, p)`:
the goal test fires when the start node is popped and the start's
passability is never checked. -/
theorem C10_self_goal_trivial (env : GridEnvironment) (p : Pos) (fuel : Nat)
    (hfuel : 1 ≤ fuel) :
    bfs_find_path fuel env p p = some ⟨[p], 0, 1, true, "BFS"⟩ ∧
    ucs_find_path fuel env p p = some ⟨[p], 0, 1, true, "UCS"⟩ ∧
    astar_find_path fuel env p p = some ⟨[p], 0, 1, true, "A*"⟩ ∧
    ∀ horizon t0, temporal_astar_find_path fuel env horizon p p t0 =
      some ⟨[p], 0, 1, true, "Temporal A*"⟩ := by
  cases fuel with
  | zero => omega
  | succ k =>
    refine ⟨?_, ?_, ?_, ?_⟩
    · have hout : bfsLoop env p (k + 1) [⟨p, [p]⟩] [p] 0 =
          some (SearchOutcome.success ⟨p, 0, 0, 0, [p]⟩ 1) := by
        rw [bfsLoop_succ_eq]
        simp
      rw [bfs_find_path_of_success hout]
      simp [reconstructStates]
    · have hout := searchLoop_first_goal (spatialSucc env) (fun _ => 0)
        (fun q => q = p) ⟨p, 0, 0, 0, [p]⟩ (by simp) [(p, 0)] k
      rw [ucs_find_path_of_success hout]
      simp [reconstructStates]
    · have hout := searchLoop_first_goal (spatialSucc env)
        (fun q => manhattan_distance q p) (fun q => q = p)
        ⟨p, 0, manhattan_distance p p, manhattan_distance p p, [p]⟩ (by simp) [(p, 0)] k
      rw [astar_find_path_of_success hout]
      simp [reconstructStates]
    · intro horizon t0
      have hout := searchLoop_first_goal (temporalSucc env t0 horizon)
        (fun st => manhattan_distance st.1 p) (fun st => st.1 = p)
        ⟨(p, t0), 0, manhattan_distance p p, manhattan_distance p p, [(p, t0)]⟩
        (by simp) [] k
      rw [temporal_find_path_of_success hout]
      simp [reconstructStates]

/-- Witness for C10 at a concrete out-of-bounds position. -/
theorem C10_self_goal_trivial_witness :
    bfs_find_path 5 envCorridor (9, 9) (9, 9) =
      some ⟨[(9, 9)], 0, 1, true, "BFS"⟩ ∧
    ucs_find_path 5 envCorridor (9, 9) (9, 9) =
      some ⟨[(9, 9)], 0, 1, true, "UCS"⟩ := by
  have h := C10_self_goal_trivial envCorridor (9, 9) 5 (by decide)
  exact ⟨h.1, h.2.1⟩

/-- C3: for every environment with non-negative terrain costs and every
start/goal pair with the goal reachable from the start, UCS returns a
path from start to goal whose total terrain cost (sum over the
positions after the first) is minimal among all such paths. -/
theorem C3_ucs_minimal_cost (env : GridEnvironment) (start goal : Pos)
    (hnn : ∀ x y, env.is_valid_position x y = true → 0 ≤ env.terrain_int x y)
    (hreach : ∃ l, ValidMovePath env l ∧ l.head? = some start ∧
      l.getLast? = some goal) :
    ∃ fuel r, ucs_find_path fuel env start goal = some r ∧ r.success = true ∧
      ValidMovePath env r.path ∧ r.path.head? = some start ∧
      r.path.getLast? = some goal ∧ r.cost = path_terrain_sum env r.path ∧
      ∀ m, ValidMovePath env m → m.head? = some start → m.getLast? = some goal →
        r.cost ≤ path_terrain_sum env m := by
  obtain ⟨l, hv, hh, hl⟩ := hreach
  cases l with
  | nil => simp at hh
  | cons a tl =>
    have ha : a = start := by simpa using hh
    cases ha
    exact ucs_optimal env start goal hnn tl hv hl

/-- Witness for C3 on the 2-cell strip. -/
theorem C3_ucs_minimal_cost_witness :
    (∀ x y, envStrip.is_valid_position x y = true → 0 ≤ envStrip.terrain_int x y) ∧
    (∃ l, ValidMovePath envStrip l ∧ l.head? = some (0, 0) ∧
      l.getLast? = some (1, 0)) ∧
    (∃ fuel r, ucs_find_path fuel envStrip (0, 0) (1, 0) = some r ∧
      r.success = true ∧
      ValidMovePath envStrip r.path ∧ r.path.head? = some (0, 0) ∧
      r.path.getLast? = some (1, 0) ∧ r.cost = path_terrain_sum envStrip r.path ∧
      ∀ m, ValidMovePath envStrip m → m.head? = some (0, 0) →
        m.getLast? = some (1, 0) → r.cost ≤ path_terrain_sum envStrip m) := by
  have hnn : ∀ x y, envStrip.is_valid_position x y = true →
      0 ≤ envStrip.terrain_int x y := by
    intro x y h
    unfold GridEnvironment.is_valid_position at h
    simp only [Bool.and_eq_true, decide_eq_true_eq,
      show envStrip.width = 2 from rfl, show envStrip.height = 1 from rfl] at h
    obtain ⟨⟨⟨hx0, hx1⟩, hy0⟩, hy1⟩ := h
    interval_cases x <;> interval_cases y <;> decide
  have hreach : ∃ l, ValidMovePath envStrip l ∧ l.head? = some (0, 0) ∧
      l.getLast? = some (1, 0) :=
    ⟨[(0, 0), (1, 0)], by decide, rfl, rfl⟩
  exact ⟨hnn, hreach, C3_ucs_minimal_cost envStrip (0, 0) (1, 0) hnn hreach⟩

/-- C4 counterexample: on a static 3x3 environment with non-negative
terrain costs (some of them 0), UCS returns cost 0, A* with the
Manhattan heuristic returns cost 1, and a legal move path of cost 0
exists: the claim's conclusion fails both in the UCS/A* comparison and
against the true minimum. -/
theorem C4_counterexample :
    envZero.moving_obstacles = [] ∧
    (∀ x y, envZero.is_valid_position x y = true → 0 ≤ envZero.terrain_int x y) ∧
    (ucs_find_path 100 envZero (2, 1) (0, 0)).map SearchResult.cost =
      some ((0 : Int) : WithTop Int) ∧
    (astar_find_path 100 envZero (2, 1) (0, 0)).map SearchResult.cost =
      some ((1 : Int) : WithTop Int) ∧
    ValidMovePath envZero [(2, 1), (2, 2), (1, 2), (0, 2), (0, 1), (0, 0)] ∧
    path_terrain_sum envZero [(2, 1), (2, 2), (1, 2), (0, 2), (0, 1), (0, 0)] =
      ((0 : Int) : WithTop Int) := by
  refine ⟨rfl, ?_, by decide, by decide, by decide, by decide⟩
  intro x y h
  unfold GridEnvironment.is_valid_position at h
  simp only [Bool.and_eq_true, decide_eq_true_eq,
    show envZero.width = 3 from rfl, show envZero.height = 3 from rfl] at h
  obtain ⟨⟨⟨hx0, hx1⟩, hy0⟩, hy1⟩ := h
  interval_cases x <;> interval_cases y <;> decide

set_option linter.unusedVariables false in
/-- C4 (amended): on a static environment whose terrain costs are all
at least 1 — rather than merely non-negative, which the counterexample
refutes — A* with the Manhattan heuristic and UCS return results with
identical cost, and this cost is the true minimum path cost (a lower
bound on every path's cost, attained by a path). -/
theorem C4_amended_ucs_astar_equal_optimal (env : GridEnvironment) (start goal : Pos)
    (hstatic : env.moving_obstacles = [])
    (hpos : ∀ x y, env.is_valid_position x y = true → 1 ≤ env.terrain_int x y)
    (hreach : ∃ l, ValidMovePath env l ∧ l.head? = some start ∧
      l.getLast? = some goal) :
    ∃ fuel1 fuel2 r1 r2,
      ucs_find_path fuel1 env start goal = some r1 ∧
      astar_find_path fuel2 env start goal = some r2 ∧
      r1.success = true ∧ r2.success = true ∧ r1.cost = r2.cost ∧
      (∀ m, ValidMovePath env m → m.head? = some start → m.getLast? = some goal →
        r1.cost ≤ path_terrain_sum env m) ∧
      ∃ m, ValidMovePath env m ∧ m.head? = some start ∧ m.getLast? = some goal ∧
        r1.cost = path_terrain_sum env m := by
  have hnn : ∀ x y, env.is_valid_position x y = true → 0 ≤ env.terrain_int x y :=
    fun x y h => le_trans (by omega) (hpos x y h)
  obtain ⟨l, hv, hh, hl⟩ := hreach
  cases l with
  | nil => simp at hh
  | cons a tl =>
    have ha : a = start := by simpa using hh
    cases ha
    obtain ⟨fuel1, r1, h1, hs1, hv1, hh1, hl1, hc1, hmin1⟩ :=
      ucs_optimal env start goal hnn tl hv hl
    obtain ⟨fuel2, r2, h2, hs2, hv2, hh2, hl2, hc2, hmin2⟩ :=
      astar_optimal env start goal hpos tl hv hl
    have hle1 : r1.cost ≤ r2.cost := by
      rw [hc2]
      exact hmin1 r2.path hv2 hh2 hl2
    have hle2 : r2.cost ≤ r1.cost := by
      rw [hc1]
      exact hmin2 r1.path hv1 hh1 hl1
    exact ⟨fuel1, fuel2, r1, r2, h1, h2, hs1, hs2, le_antisymm hle1 hle2, hmin1,
      r1.path, hv1, hh1, hl1, hc1⟩

/-- Witness for the amended C4 on the unit-cost corridor. -/
theorem C4_amended_witness :
    envCorridor.moving_obstacles = [] ∧
    (∀ x y, envCorridor.is_valid_position x y = true →
      1 ≤ envCorridor.terrain_int x y) ∧
    (∃ l, ValidMovePath envCorridor l ∧ l.head? = some (0, 0) ∧
      l.getLast? = some (2, 0)) ∧
    (∃ fuel1 fuel2 r1 r2,
      ucs_find_path fuel1 envCorridor (0, 0) (2, 0) = some r1 ∧
      astar_find_path fuel2 envCorridor (0, 0) (2, 0) = some r2 ∧
      r1.success = true ∧ r2.success = true ∧ r1.cost = r2.cost ∧
      (∀ m, ValidMovePath envCorridor m → m.head? = some (0, 0) →
        m.getLast? = some (2, 0) → r1.cost ≤ path_terrain_sum envCorridor m) ∧
      ∃ m, ValidMovePath envCorridor m ∧ m.head? = some (0, 0) ∧
        m.getLast? = some (2, 0) ∧ r1.cost = path_terrain_sum envCorridor m) := by
  have hstatic : envCorridor.moving_obstacles = [] := rfl
  have hpos : ∀ x y, envCorridor.is_valid_position x y = true →
      1 ≤ envCorridor.terrain_int x y := by
    intro x y h
    unfold GridEnvironment.is_valid_position at h
    simp only [Bool.and_eq_true, decide_eq_true_eq,
      show envCorridor.width = 5 from rfl, show envCorridor.height = 1 from rfl] at h
    obtain ⟨⟨⟨hx0, hx1⟩, hy0⟩, hy1⟩ := h
    interval_cases x <;> interval_cases y <;> decide
  have hreach : ∃ l, ValidMovePath envCorridor l ∧ l.head? = some (0, 0) ∧
      l.getLast? = some (2, 0) :=
    ⟨[(0, 0), (1, 0), (2, 0)], by decide, rfl, rfl⟩
  exact ⟨hstatic, hpos, hreach,
    C4_amended_ucs_astar_equal_optimal envCorridor (0, 0) (2, 0) hstatic hpos hreach⟩

/-! ## Temporal A*: structure of the space-time graph -/

theorem manhattan_self (p : Pos) : manhattan_distance p p = 0 := by
  simp [manhattan_distance]

theorem temporalSucc_gate {env : GridEnvironment} {t0 horizon : Int} {st : Pos × Int}
    (hgate : st.2 - t0 > horizon) : temporalSucc env t0 horizon st = [] := by
  unfold temporalSucc
  rw [if_pos hgate]

theorem mem_temporalSucc_elim {env : GridEnvironment} {t0 horizon : Int}
    {st : Pos × Int} {b : Pos × Int} {w : Int}
    (h : (b, w) ∈ temporalSucc env t0 horizon st) :
    st.2 - t0 ≤ horizon ∧ b.2 = st.2 + 1 ∧
      ((b.1 = st.1 ∧ w = 1 ∧ env.is_passable st.1.1 st.1.2 (some (st.2 + 1)) = true) ∨
       (b.1 ∈ env.get_neighbors st.1.1 st.1.2 (some (st.2 + 1)) ∧
         w = env.terrain_int b.1.1 b.1.2)) := by
  simp only [temporalSucc] at h
  by_cases hgate : st.2 - t0 > horizon
  · rw [if_pos hgate] at h; simp at h
  · rw [if_neg hgate] at h
    refine ⟨by omega, ?_⟩
    rcases List.mem_append.mp h with hwait | hmove
    · by_cases hp : env.is_passable st.1.1 st.1.2 (some (st.2 + 1)) = true
      · rw [if_pos hp] at hwait
        simp only [List.mem_singleton, Prod.mk.injEq] at hwait
        obtain ⟨hb, hw⟩ := hwait
        exact ⟨by rw [hb], Or.inl ⟨by rw [hb], hw, hp⟩⟩
      · rw [if_neg hp] at hwait
        simp at hwait
    · rw [List.mem_map] at hmove
      obtain ⟨q, hq, heq⟩ := hmove
      rw [Prod.mk.injEq] at heq
      obtain ⟨hb, hw⟩ := heq
      refine ⟨by rw [← hb], Or.inr ?_⟩
      rw [← hb, ← hw]
      exact ⟨hq, rfl⟩

theorem mem_temporalSucc_wait {env : GridEnvironment} {t0 horizon : Int}
    {st : Pos × Int} (hgate : st.2 - t0 ≤ horizon)
    (hp : env.is_passable st.1.1 st.1.2 (some (st.2 + 1)) = true) :
    ((st.1, st.2 + 1), (1 : Int)) ∈ temporalSucc env t0 horizon st := by
  simp only [temporalSucc]
  rw [if_neg (by omega), if_pos hp]
  simp

theorem mem_temporalSucc_move {env : GridEnvironment} {t0 horizon : Int}
    {st : Pos × Int} {q : Pos} (hgate : st.2 - t0 ≤ horizon)
    (hq : q ∈ env.get_neighbors st.1.1 st.1.2 (some (st.2 + 1))) :
    ((q, st.2 + 1), env.terrain_int q.1 q.2) ∈ temporalSucc env t0 horizon st := by
  simp only [temporalSucc]
  rw [if_neg (by omega)]
  refine List.mem_append_right _ ?_
  rw [List.mem_map]
  exact ⟨q, hq, rfl⟩

/-- With terrain costs at least 1, the time-blind Manhattan heuristic
of Temporal A* is consistent on the space-time graph. -/
theorem temporal_consistent (env : GridEnvironment) (t0 horizon : Int) (goal : Pos)
    (hpos : ∀ x y, env.is_valid_position x y = true → 1 ≤ env.terrain_int x y) :
    ∀ a b w, (b, w) ∈ temporalSucc env t0 horizon a →
      manhattan_distance a.1 goal ≤ w + manhattan_distance b.1 goal := by
  intro a b w hbw
  obtain ⟨_, _, hcase⟩ := mem_temporalSucc_elim hbw
  rcases hcase with ⟨hb, hw, _⟩ | ⟨hnb, hw⟩
  · rw [hb, hw]; omega
  · have hone : manhattan_distance a.1 b.1 = 1 :=
      mem_get_neighbors_manhattan env a.1 (some (a.2 + 1)) b.1 hnb
    have hwge : 1 ≤ w := by
      rw [hw]
      exact hpos b.1.1 b.1.2 (mem_get_neighbors_valid env a.1.1 a.1.2 _ b.1 hnb)
    have htri : manhattan_distance a.1 goal ≤
        manhattan_distance a.1 b.1 + manhattan_distance b.1 goal := by
      unfold manhattan_distance
      have h1 := abs_sub_le a.1.1 b.1.1 goal.1
      have h2 := abs_sub_le a.1.2 b.1.2 goal.2
      omega
    omega

/-- Without moving obstacles, passability does not depend on time. -/
theorem is_passable_time_irrelevant (env : GridEnvironment)
    (hnomove : env.moving_obstacles = []) (x y t : Int) :
    env.is_passable x y (some t) = env.is_passable x y none := by
  unfold GridEnvironment.is_passable
  rw [hnomove]
  simp

/-- Without moving obstacles, the neighbour query does not depend on
time. -/
theorem get_neighbors_time_irrelevant (env : GridEnvironment)
    (hnomove : env.moving_obstacles = []) (x y t : Int) :
    env.get_neighbors x y (some t) = env.get_neighbors x y none := by
  unfold GridEnvironment.get_neighbors
  congr 1
  funext d
  simp only [is_passable_time_irrelevant env hnomove]

/-- A spatial path that fits in the horizon lifts to a legal space-time
route of the same cost. -/
theorem temporal_lift (env : GridEnvironment) (t0 horizon : Int)
    (hnomove : env.moving_obstacles = []) :
    ∀ (l : List Pos) (p0 : Pos) (t : Int),
      ValidMovePath env (p0 :: l) → t - t0 + (l.length : Int) ≤ horizon + 1 →
      StepsFrom (temporalSucc env t0 horizon) (p0, t) (liftSteps env l t) ∧
      (p0 :: l).getLast? = some (endState (p0, t) (liftSteps env l t)).1 ∧
      stepsCost (liftSteps env l t) = stepsCost (stepsOfPath env l) := by
  intro l
  induction l with
  | nil =>
    intro p0 t _ _
    exact ⟨trivial, rfl, rfl⟩
  | cons q tl ih =>
    intro p0 t hvp hfits
    simp only [ValidMovePath, List.chain'_cons] at hvp
    obtain ⟨hnb, htl⟩ := hvp
    have hlen : (0 : Int) ≤ tl.length := by positivity
    have hgate : t - t0 ≤ horizon := by
      simp only [List.length_cons] at hfits
      push_cast at hfits
      omega
    have hq2 : q ∈ env.get_neighbors p0.1 p0.2 (some (t + 1)) := by
      rw [get_neighbors_time_irrelevant env hnomove]
      exact hnb
    obtain ⟨ihs, ihl, ihc⟩ := ih q (t + 1) htl
      (by simp only [List.length_cons] at hfits; push_cast at hfits ⊢; omega)
    refine ⟨?_, ?_, ?_⟩
    · simp only [liftSteps]
      rw [StepsFrom_cons_iff]
      exact ⟨@mem_temporalSucc_move env t0 horizon (p0, t) q hgate hq2, ihs⟩
    · simp only [liftSteps, endState_cons]
      rw [List.getLast?_cons_cons]
      exact ihl
    · simp only [liftSteps, stepsCost_cons, stepsOfPath, List.map_cons]
      simp only [stepsOfPath] at ihc
      rw [ihc]

/-- Projection of a space-time route to a spatial path, dropping waits;
the spatial cost is at most the space-time cost. -/
theorem temporal_project (env : GridEnvironment) (t0 horizon : Int)
    (hnomove : env.moving_obstacles = []) :
    ∀ (steps : List ((Pos × Int) × Int)) (st0 : Pos × Int),
      StepsFrom (temporalSucc env t0 horizon) st0 steps →
      ∃ l : List Pos, ValidMovePath env (st0.1 :: l) ∧
        (st0.1 :: l).getLast? = some (endState st0 steps).1 ∧
        stepsCost (stepsOfPath env l) ≤ stepsCost steps := by
  intro steps
  induction steps with
  | nil =>
    intro st0 _
    exact ⟨[], by simp [ValidMovePath], rfl, le_refl 0⟩
  | cons hd tl ih =>
    intro st0 hsf
    cases hd with
    | mk b w =>
      rw [StepsFrom_cons_iff] at hsf
      dsimp only at hsf
      obtain ⟨hmem, htl⟩ := hsf
      obtain ⟨_, _, hcase⟩ := mem_temporalSucc_elim hmem
      obtain ⟨l, hvl, hll, hcl⟩ := ih b htl
      rcases hcase with ⟨hb, hw, _⟩ | ⟨hnb, hw⟩
      · refine ⟨l, ?_, ?_, ?_⟩
        · rw [hb] at hvl; exact hvl
        · rw [hb] at hll
          simp only [endState_cons]
          exact hll
        · simp only [stepsCost_cons]
          omega
      · have hnb2 : b.1 ∈ env.get_neighbors st0.1.1 st0.1.2 none := by
          rw [← get_neighbors_time_irrelevant env hnomove st0.1.1 st0.1.2 (st0.2 + 1)]
          exact hnb
        refine ⟨b.1 :: l, ?_, ?_, ?_⟩
        · simp only [ValidMovePath, List.chain'_cons] at hvl ⊢
          exact ⟨hnb2, hvl⟩
        · rw [List.getLast?_cons_cons]
          simp only [endState_cons]
          exact hll
        · simp only [stepsOfPath, List.map_cons, stepsCost_cons] at hcl ⊢
          rw [hw]
          omega

theorem temporalStates_closed (env : GridEnvironment) (start : Pos) (t0 horizon : Int) :
    ∀ a ∈ temporalStates env start t0 horizon, ∀ b w,
      (b, w) ∈ temporalSucc env t0 horizon a →
      b ∈ temporalStates env start t0 horizon := by
  intro a ha b w hbw
  obtain ⟨hgate, htime, hcase⟩ := mem_temporalSucc_elim hbw
  have hb1 : b.1 ∈ spatialStates env start := by
    rcases hcase with ⟨hb, _, _⟩ | ⟨hnb, _⟩
    · rw [hb]
      rcases Finset.mem_insert.mp ha with heq | hmem
      · rw [heq]
        exact spatialStates_start env start
      · exact (Finset.mem_product.mp hmem).1
    · have hval := mem_get_neighbors_valid env a.1.1 a.1.2 _ b.1 hnb
      unfold GridEnvironment.is_valid_position at hval
      simp only [Bool.and_eq_true, decide_eq_true_eq] at hval
      apply Finset.mem_insert_of_mem
      rw [Finset.mem_product, Finset.mem_Icc, Finset.mem_Icc]
      omega
  apply Finset.mem_insert_of_mem
  rw [Finset.mem_product]
  refine ⟨hb1, ?_⟩
  rw [Finset.mem_Icc]
  rcases Finset.mem_insert.mp ha with heq | hmem
  · have : a.2 = t0 := by rw [heq]
    omega
  · have := (Finset.mem_product.mp hmem).2
    rw [Finset.mem_Icc] at this
    omega

/-- With terrain at least 1, every path costs at least the Manhattan
distance between its endpoints (telescoped consistency). -/
theorem path_sum_lower_bound (env : GridEnvironment)
    (hpos : ∀ x y, env.is_valid_position x y = true → 1 ≤ env.terrain_int x y)
    (s0 goal : Pos) (l : List Pos) (hv : ValidMovePath env (s0 :: l))
    (hl : (s0 :: l).getLast? = some goal) :
    manhattan_distance s0 goal ≤ stepsCost (stepsOfPath env l) := by
  obtain ⟨hsteps, hlast, _⟩ := validpath_to_steps env l s0 hv
  have hend : endState s0 (stepsOfPath env l) = goal := by
    rw [hlast] at hl
    exact Option.some.inj hl
  have htel := hfun_le_of_consistent (spatialSucc env)
    (fun p => manhattan_distance p goal) (astar_consistent env goal hpos)
    s0 (stepsOfPath env l) hsteps
  simp only [hend, manhattan_self] at htel
  simpa using htel

/-- C6 (amended): for every environment without moving obstacles whose
terrain costs are all at least 1, and every start/goal pair admitting a
minimum-cost path whose step count fits within the planning horizon,
Temporal A* succeeds and returns the same cost as plain A* with the
Manhattan heuristic.  (The unrestricted claim fails: see the
counterexample, where the only route is longer than the horizon.) -/
theorem C6_amended_temporal_matches_astar (env : GridEnvironment) (horizon : Int)
    (start goal : Pos) (t0 : Int)
    (hnomove : env.moving_obstacles = [])
    (hpos : ∀ x y, env.is_valid_position x y = true → 1 ≤ env.terrain_int x y)
    (hreach : ∃ l, ValidMovePath env (start :: l) ∧
      (start :: l).getLast? = some goal ∧ (l.length : Int) ≤ horizon + 1 ∧
      ∀ m, ValidMovePath env m → m.head? = some start → m.getLast? = some goal →
        path_terrain_sum env (start :: l) ≤ path_terrain_sum env m) :
    ∃ fuel1 fuel2 r1 r2,
      temporal_astar_find_path fuel1 env horizon start goal t0 = some r1 ∧
      astar_find_path fuel2 env start goal = some r2 ∧
      r1.success = true ∧ r2.success = true ∧ r1.cost = r2.cost := by
  obtain ⟨l0, hvp, hlast, hfits, hopt⟩ := hreach
  obtain ⟨fuel2, r2, h2, hs2, hv2, hh2, hl2, hc2, hmin2⟩ :=
    astar_optimal env start goal hpos l0 hvp hlast
  obtain ⟨hsteps0, hlast0, hcost0⟩ := validpath_to_steps env l0 start hvp
  have hr2cost : r2.cost = path_terrain_sum env (start :: l0) := by
    apply le_antisymm
    · exact hmin2 (start :: l0) hvp rfl hlast
    · rw [hc2]
      exact hopt r2.path hv2 hh2 hl2
  have hcons := temporal_consistent env t0 horizon goal hpos
  have hinv := loopInv_init (temporalSucc env t0 horizon)
    (fun st => manhattan_distance st.1 goal) (fun st => st.1 = goal) (start, t0)
    [] (Or.inl rfl)
  obtain ⟨fuel1, out, hout⟩ := searchLoop_terminates (temporalSucc env t0 horizon)
    (fun st => manhattan_distance st.1 goal) (fun st => st.1 = goal)
    (temporalStates env start t0 horizon) (temporalStates_closed env start t0 horizon)
    (((temporalStates env start t0 horizon).filter
      (fun v => v ∉ ([] : List (Pos × Int)))).card) 1
    [⟨(start, t0), 0, manhattan_distance start goal, manhattan_distance start goal,
      [(start, t0)]⟩]
    [] [] 0
    (by intro n hn
        simp only [List.mem_singleton] at hn
        subst hn
        exact Finset.mem_insert_self _ _)
    (le_refl _) (by simp)
  have hsound := searchLoop_sound hcons fuel1
    [⟨(start, t0), 0, manhattan_distance start goal, manhattan_distance start goal,
      [(start, t0)]⟩]
    [] [] 0 hinv out hout
  obtain ⟨hlsf, hllast, hlcost⟩ :=
    temporal_lift env t0 horizon hnomove l0 start t0 hvp (by omega)
  have hgoallift : (endState (start, t0) (liftSteps env l0 t0)).1 = goal := by
    rw [hllast] at hlast
    exact Option.some.inj hlast
  cases out with
  | failure exp =>
    exfalso
    have hfail := hsound.2 exp rfl (liftSteps env l0 t0) hlsf
    simp only [hgoallift] at hfail
    simp at hfail
  | success n exp =>
    obtain ⟨⟨steps, hsf, hstate, hg, _, hrev⟩, hgoal, _, hGB⟩ := hsound.1 n exp rfl
    have hngoal : n.state.1 = goal := of_decide_eq_true hgoal
    have hub0 := hGB (liftSteps env l0 t0) hlsf (by simp [hgoallift])
    have hub : n.g + manhattan_distance n.state.1 goal ≤
        stepsCost (liftSteps env l0 t0) +
        manhattan_distance (endState (start, t0) (liftSteps env l0 t0)).1 goal := hub0
    rw [hngoal, manhattan_self, hgoallift, manhattan_self] at hub
    obtain ⟨lp, hlpv, hlpl, hlpc⟩ :=
      temporal_project env t0 horizon hnomove steps (start, t0) hsf
    have hlpgoal : (start :: lp).getLast? = some goal := by
      have : (endState (start, t0) steps).1 = n.state.1 := by rw [← hstate]
      rw [hlpl, this, hngoal]
    have homin := hopt (start :: lp) hlpv rfl hlpgoal
    obtain ⟨_, _, hlpcost⟩ := validpath_to_steps env lp start hlpv
    have hle1 : stepsCost (stepsOfPath env l0) ≤ stepsCost (stepsOfPath env lp) := by
      rw [hcost0, hlpcost] at homin
      exact_mod_cast homin
    have hng : n.g = stepsCost (stepsOfPath env l0) := by
      rw [hg]
      have h1 : stepsCost (stepsOfPath env l0) ≤ stepsCost steps :=
        le_trans hle1 hlpc
      have h2 : stepsCost steps ≤ stepsCost (stepsOfPath env l0) := by
        rw [← hlcost, ← hg]
        omega
      omega
    refine ⟨fuel1, fuel2, _, r2, temporal_find_path_of_success hout, h2, rfl, hs2, ?_⟩
    show (n.g : WithTop Int) = r2.cost
    rw [hng, hr2cost, hcost0]

/-- C6 counterexample: on a free 1x5 corridor with no moving obstacles,
plain A* finds the goal at cost 4, but Temporal A* with planning
horizon 2 exhausts its bounded-depth frontier and fails — its cost is
infinite, not A*'s. -/
theorem C6_counterexample :
    envCorridor.moving_obstacles = [] ∧
    (astar_find_path 100 envCorridor (0, 0) (4, 0)).map
      (fun r => (r.success, r.cost)) = some (true, ((4 : Int) : WithTop Int)) ∧
    (temporal_astar_find_path 200 envCorridor 2 (0, 0) (4, 0) 0).map
      (fun r => (r.success, r.cost)) = some (false, ⊤) :=
  ⟨rfl, by decide, by decide⟩

/-- Witness for the amended C6 on the corridor with the default
horizon value 50. -/
theorem C6_amended_witness :
    envCorridor.moving_obstacles = [] ∧
    (∀ x y, envCorridor.is_valid_position x y = true →
      1 ≤ envCorridor.terrain_int x y) ∧
    (∃ l, ValidMovePath envCorridor ((0, 0) :: l) ∧
      ((0, 0) :: l).getLast? = some (2, 0) ∧ (l.length : Int) ≤ 50 + 1 ∧
      ∀ m, ValidMovePath envCorridor m → m.head? = some (0, 0) →
        m.getLast? = some (2, 0) →
        path_terrain_sum envCorridor ((0, 0) :: l) ≤ path_terrain_sum envCorridor m) ∧
    (∃ fuel1 fuel2 r1 r2,
      temporal_astar_find_path fuel1 envCorridor 50 (0, 0) (2, 0) 7 = some r1 ∧
      astar_find_path fuel2 envCorridor (0, 0) (2, 0) = some r2 ∧
      r1.success = true ∧ r2.success = true ∧ r1.cost = r2.cost) := by
  have hnomove : envCorridor.moving_obstacles = [] := rfl
  have hpos : ∀ x y, envCorridor.is_valid_position x y = true →
      1 ≤ envCorridor.terrain_int x y := by
    intro x y h
    unfold GridEnvironment.is_valid_position at h
    simp only [Bool.and_eq_true, decide_eq_true_eq,
      show envCorridor.width = 5 from rfl, show envCorridor.height = 1 from rfl] at h
    obtain ⟨⟨⟨hx0, hx1⟩, hy0⟩, hy1⟩ := h
    interval_cases x <;> interval_cases y <;> decide
  have hopt : ∀ m, ValidMovePath envCorridor m → m.head? = some (0, 0) →
      m.getLast? = some (2, 0) →
      path_terrain_sum envCorridor ((0, 0) :: [(1, 0), (2, 0)]) ≤
        path_terrain_sum envCorridor m := by
    intro m hm hh hl
    cases m with
    | nil => simp at hh
    | cons m0 mtl =>
      have hm0 : m0 = (0, 0) := by simpa using hh
      cases hm0
      obtain ⟨_, _, hcost⟩ := validpath_to_steps envCorridor mtl (0, 0) hm
      rw [hcost]
      have hlb := path_sum_lower_bound envCorridor hpos (0, 0) (2, 0) mtl hm hl
      have hman : manhattan_distance (0, 0) (2, 0) = 2 := by decide
      have h2 : (2 : Int) ≤ stepsCost (stepsOfPath envCorridor mtl) := by omega
      have hsum : path_terrain_sum envCorridor [(0, 0), (1, 0), (2, 0)] =
          ((2 : Int) : WithTop Int) := by decide
      rw [hsum]
      exact_mod_cast h2
  have hreach : ∃ l, ValidMovePath envCorridor ((0, 0) :: l) ∧
      ((0, 0) :: l).getLast? = some (2, 0) ∧ (l.length : Int) ≤ 50 + 1 ∧
      ∀ m, ValidMovePath envCorridor m → m.head? = some (0, 0) →
        m.getLast? = some (2, 0) →
        path_terrain_sum envCorridor ((0, 0) :: l) ≤ path_terrain_sum envCorridor m :=
    ⟨[(1, 0), (2, 0)], by decide, rfl, by norm_num, hopt⟩
  exact ⟨hnomove, hpos, hreach,
    C6_amended_temporal_matches_astar envCorridor 50 (0, 0) (2, 0) 7 hnomove hpos hreach⟩

/-! ## BFS: queue invariants and shortest-step-count correctness -/

/-- Path extension by one neighbour move. -/
theorem validMovePath_snoc (env : GridEnvironment) (start : Pos) (l : List Pos)
    (a q : Pos) (hv : ValidMovePath env (start :: l))
    (hlast : (start :: l).getLast? = some a)
    (hq : q ∈ env.get_neighbors a.1 a.2 none) :
    ValidMovePath env (start :: (l ++ [q])) ∧
    (start :: (l ++ [q])).getLast? = some q := by
  constructor
  · have : start :: (l ++ [q]) = (start :: l) ++ [q] := by simp
    rw [this]
    apply List.Chain'.append hv (by simp [ValidMovePath])
    intro x hx y hy
    simp only [List.head?_cons, Option.mem_def, Option.some.injEq] at hy
    rw [hlast] at hx
    simp only [Option.mem_def, Option.some.injEq] at hx
    rw [← hx, ← hy]
    exact hq
  · have h2 : start :: (l ++ [q]) = (start :: l) ++ [q] := by simp
    rw [h2, List.getLast?_concat]

/-- Facts about one run of the BFS enqueueing loop. -/
theorem bfsRelax_spec (cur : BNode) :
    ∀ (ns : List Pos) (queue : List BNode) (visited : List Pos),
      (∃ news, (bfsRelax cur ns queue visited).1 = queue ++ news ∧
        (∀ m ∈ news, ∃ q, q ∈ ns ∧ m = ⟨q, q :: cur.rev⟩ ∧ q ∉ visited) ∧
        news.Pairwise (fun a b => a.pos ≠ b.pos)) ∧
      (∀ p ∈ visited, p ∈ (bfsRelax cur ns queue visited).2) ∧
      (∀ q ∈ ns, q ∈ (bfsRelax cur ns queue visited).2) ∧
      (∀ p ∈ (bfsRelax cur ns queue visited).2, p ∈ visited ∨ p ∈ ns) ∧
      (∀ q ∈ ns, q ∈ visited ∨ ∃ m, m ∈ (bfsRelax cur ns queue visited).1 ∧ m.pos = q) := by
  intro ns
  induction ns with
  | nil =>
    intro queue visited
    refine ⟨⟨[], by simp [bfsRelax], by simp, List.Pairwise.nil⟩, ?_, ?_, ?_, ?_⟩
    · intro p hp; exact hp
    · intro q hq; simp at hq
    · intro p hp; exact Or.inl hp
    · intro q hq; simp at hq
  | cons q tl ih =>
    intro queue visited
    by_cases hq : q ∈ visited
    · have hstep : bfsRelax cur (q :: tl) queue visited = bfsRelax cur tl queue visited := by
        simp [bfsRelax, hq]
      rw [hstep]
      obtain ⟨⟨news, hshape, hnews, hdist⟩, hvmono, hns, hvfrom, hqv⟩ := ih queue visited
      refine ⟨⟨news, hshape, ?_, hdist⟩, hvmono, ?_, ?_, ?_⟩
      · intro m hm
        obtain ⟨q2, hq2, hm2, hnv⟩ := hnews m hm
        exact ⟨q2, List.mem_cons_of_mem _ hq2, hm2, hnv⟩
      · intro q2 hq2
        rcases List.mem_cons.mp hq2 with rfl | htl
        · exact hvmono q2 hq
        · exact hns q2 htl
      · intro p hp
        rcases hvfrom p hp with h1 | h2
        · exact Or.inl h1
        · exact Or.inr (List.mem_cons_of_mem _ h2)
      · intro q2 hq2
        rcases List.mem_cons.mp hq2 with rfl | htl
        · exact Or.inl hq
        · exact hqv q2 htl
    · have hstep : bfsRelax cur (q :: tl) queue visited =
          bfsRelax cur tl (queue ++ [⟨q, q :: cur.rev⟩]) (q :: visited) := by
        simp [bfsRelax, hq]
      rw [hstep]
      obtain ⟨⟨news, hshape, hnews, hdist⟩, hvmono, hns, hvfrom, hqv⟩ :=
        ih (queue ++ [⟨q, q :: cur.rev⟩]) (q :: visited)
      refine ⟨⟨⟨q, q :: cur.rev⟩ :: news, ?_, ?_, ?_⟩, ?_, ?_, ?_, ?_⟩
      · rw [hshape]; simp
      · intro m hm
        rcases List.mem_cons.mp hm with rfl | hmn
        · exact ⟨q, List.mem_cons_self _ _, rfl, hq⟩
        · obtain ⟨q2, hq2, hm2, hnv⟩ := hnews m hmn
          refine ⟨q2, List.mem_cons_of_mem _ hq2, hm2, fun hc => hnv ?_⟩
          exact List.mem_cons_of_mem _ hc
      · rw [List.pairwise_cons]
        refine ⟨?_, hdist⟩
        intro m hm
        obtain ⟨q2, _, hm2, hnv⟩ := hnews m hm
        intro hc
        rw [hm2] at hc
        simp only at hc
        exact hnv (by rw [← hc]; exact List.mem_cons_self _ _)
      · intro p hp
        exact hvmono p (List.mem_cons_of_mem _ hp)
      · intro q2 hq2
        rcases List.mem_cons.mp hq2 with rfl | htl
        · exact hvmono q2 (List.mem_cons_self _ _)
        · exact hns q2 htl
      · intro p hp
        rcases hvfrom p hp with h1 | h2
        · rcases List.mem_cons.mp h1 with rfl | hv2
          · exact Or.inr (List.mem_cons_self _ _)
          · exact Or.inl hv2
        · exact Or.inr (List.mem_cons_of_mem _ h2)
      · intro q2 hq2
        rcases List.mem_cons.mp hq2 with rfl | htl
        · refine Or.inr ⟨⟨q2, q2 :: cur.rev⟩, ?_, rfl⟩
          rw [hshape]
          exact List.mem_append_left _ (List.mem_append_right _ (List.mem_singleton_self _))
        · rcases hqv q2 htl with h1 | h2
          · rcases List.mem_cons.mp h1 with rfl | hv2
            · refine Or.inr ⟨⟨q2, q2 :: cur.rev⟩, ?_, rfl⟩
              rw [hshape]
              exact List.mem_append_left _ (List.mem_append_right _ (List.mem_singleton_self _))
            · exact Or.inl hv2
          · exact Or.inr h2

/-- A nonempty list has a last element. -/
theorem cons_getLast_some (start : Pos) :
    ∀ xs : List Pos, ∃ a, (start :: xs).getLast? = some a
  | [] => ⟨start, rfl⟩
  | b :: tl => by
    obtain ⟨a, ha⟩ := cons_getLast_some b tl
    exact ⟨a, by rw [List.getLast?_cons_cons]; exact ha⟩

/-- Splitting off the last move of a path. -/
theorem validMovePath_unsnoc (env : GridEnvironment) (start : Pos) (xs : List Pos)
    (q : Pos) (hv : ValidMovePath env (start :: (xs ++ [q]))) :
    ValidMovePath env (start :: xs) ∧
    ∃ a, (start :: xs).getLast? = some a ∧ q ∈ env.get_neighbors a.1 a.2 none := by
  have h2 : start :: (xs ++ [q]) = (start :: xs) ++ [q] := by simp
  rw [h2, ValidMovePath, List.chain'_append] at hv
  obtain ⟨h1, _, h3⟩ := hv
  obtain ⟨a, ha⟩ := cons_getLast_some start xs
  exact ⟨h1, a, ha, h3 a (by rw [ha]; rfl) q rfl⟩

/-- A constant list of naturals is sorted. -/
theorem sorted_of_all_eq {l : List Nat} {c : Nat} (h : ∀ a ∈ l, a = c) :
    List.Sorted (fun a b => a ≤ b) l := by
  induction l with
  | nil => exact List.sorted_nil
  | cons x tl ih =>
    rw [List.sorted_cons]
    refine ⟨fun b hb => ?_, ih (fun a ha => h a (List.mem_cons_of_mem _ ha))⟩
    rw [h x (List.mem_cons_self _ _), h b (List.mem_cons_of_mem _ hb)]

/-- Core BFS bound: a valid path ending at an unvisited position is at
least one step longer than some queued node's depth. -/
theorem bfs_bound {env : GridEnvironment} {start goal : Pos} {Q : List BNode}
    {V : List Pos} (inv : BfsInv env start goal Q V) :
    ∀ (l : List Pos) (u : Pos), ValidMovePath env (start :: l) →
      (start :: l).getLast? = some u → u ∉ V →
      ∃ m ∈ Q, m.rev.length + 1 ≤ (start :: l).length := by
  intro l
  induction l using List.reverseRecOn with
  | nil =>
    intro u _ hlast hu
    simp only [List.getLast?_singleton, Option.some.injEq] at hlast
    exact absurd (hlast ▸ inv.start_mem) hu
  | append_singleton xs q ih =>
    intro u hv hlast hu
    have h2 : start :: (xs ++ [q]) = (start :: xs) ++ [q] := by simp
    have huq : u = q := by
      rw [h2, List.getLast?_concat] at hlast
      exact (Option.some.inj hlast).symm
    rw [huq] at hu
    obtain ⟨hvpre, a, hlasta, hqa⟩ := validMovePath_unsnoc env start xs q hv
    have hlen : (start :: (xs ++ [q])).length = (start :: xs).length + 1 := by simp
    by_cases ha : a ∈ V
    · by_cases hex : ∃ m ∈ Q, m.pos = a
      · obtain ⟨m, hmQ, hma⟩ := hex
        have := inv.node_min m hmQ xs hvpre (by rw [hma]; exact hlasta)
        exact ⟨m, hmQ, by omega⟩
      · push_neg at hex
        exact absurd (inv.processed_closed a ha (fun n hn => hex n hn) q hqa) hu
    · obtain ⟨m, hmQ, hm⟩ := ih a hvpre hlasta ha
      exact ⟨m, hmQ, by omega⟩

/-- The initial queue/visited pair of BFS satisfies the invariant. -/
theorem bfsInv_init (env : GridEnvironment) (start goal : Pos) :
    BfsInv env start goal [⟨start, [start]⟩] [start] := by
  refine ⟨?_, ?_, ?_, ?_, ?_, ?_, ?_, ?_, ?_⟩
  · intro n hn
    rw [List.mem_singleton] at hn
    subst hn
    exact ⟨[], List.chain'_singleton _, rfl, rfl⟩
  · intro n hn l _ _
    rw [List.mem_singleton] at hn
    subst hn
    simp
  · intro n hn
    rw [List.mem_singleton] at hn
    subst hn
    exact List.mem_singleton_self _
  · exact List.sorted_singleton _
  · intro a ha b hb
    simp only [List.map_cons, List.map_nil, List.mem_singleton] at ha hb
    omega
  · intro p hp hno q _
    rw [List.mem_singleton] at hp
    exact absurd (hp ▸ rfl) (hno ⟨start, [start]⟩ (List.mem_singleton_self _))
  · exact List.mem_singleton_self _
  · exact List.pairwise_singleton _ _
  · intro hgv
    rw [List.mem_singleton] at hgv
    exact ⟨⟨start, [start]⟩, List.mem_singleton_self _, hgv.symm⟩

/-- Expanding a non-goal head node preserves the BFS invariant. -/
theorem bfsInv_step (env : GridEnvironment) (start goal : Pos) (cur : BNode)
    (rest : List BNode) (V : List Pos)
    (inv : BfsInv env start goal (cur :: rest) V) (hg : cur.pos ≠ goal) :
    BfsInv env start goal
      (bfsRelax cur (env.get_neighbors cur.pos.1 cur.pos.2 none) rest V).1
      (bfsRelax cur (env.get_neighbors cur.pos.1 cur.pos.2 none) rest V).2 := by
  obtain ⟨⟨news, hshape, hnews, hndist⟩, hvmono, hns, hvfrom, hnsq⟩ :=
    bfsRelax_spec cur (env.get_neighbors cur.pos.1 cur.pos.2 none) rest V
  rw [hshape] at hnsq ⊢
  have hmap := inv.lens_sorted
  rw [List.map_cons] at hmap
  have hsorted_head := (List.sorted_cons.mp hmap).1
  have hsorted_tail := (List.sorted_cons.mp hmap).2
  have hnewslen : ∀ m ∈ news, m.rev.length = cur.rev.length + 1 := by
    intro m hm
    obtain ⟨q, _, rfl, _⟩ := hnews m hm
    rfl
  refine ⟨?_, ?_, ?_, ?_, ?_, ?_, ?_, ?_, ?_⟩
  · intro n hn
    rcases List.mem_append.mp hn with hr | hnw
    · exact inv.node_ok n (List.mem_cons_of_mem _ hr)
    · obtain ⟨q, hqns, rfl, hqV⟩ := hnews n hnw
      obtain ⟨l, hvl, hrev, hlast⟩ := inv.node_ok cur (List.mem_cons_self _ _)
      obtain ⟨hv2, hlast2⟩ := validMovePath_snoc env start l cur.pos q hvl hlast hqns
      refine ⟨l ++ [q], hv2, ?_, hlast2⟩
      show q :: cur.rev = (start :: (l ++ [q])).reverse
      rw [show start :: (l ++ [q]) = (start :: l) ++ [q] from by simp,
        List.reverse_append, ← hrev]
      rfl
  · intro n hn l hvl hlast
    rcases List.mem_append.mp hn with hr | hnw
    · exact inv.node_min n (List.mem_cons_of_mem _ hr) l hvl hlast
    · obtain ⟨q, hqns, rfl, hqV⟩ := hnews n hnw
      obtain ⟨m2, hm2Q, hm2len⟩ := bfs_bound inv l q hvl hlast hqV
      have hcur2 : cur.rev.length ≤ m2.rev.length := by
        rcases List.mem_cons.mp hm2Q with rfl | hm2r
        · exact le_refl _
        · exact hsorted_head _ (List.mem_map_of_mem _ hm2r)
      show (q :: cur.rev).length ≤ (start :: l).length
      simp only [List.length_cons] at hm2len ⊢
      omega
  · intro n hn
    rcases List.mem_append.mp hn with hr | hnw
    · exact hvmono _ (inv.queue_visited n (List.mem_cons_of_mem _ hr))
    · obtain ⟨q, hqns, rfl, hqV⟩ := hnews n hnw
      exact hns q hqns
  · rw [List.map_append]
    refine List.pairwise_append.mpr ⟨hsorted_tail, ?_, ?_⟩
    · apply sorted_of_all_eq
      intro a ha
      obtain ⟨m, hm, rfl⟩ := List.mem_map.mp ha
      exact hnewslen m hm
    · intro x hx y hy
      obtain ⟨m, hm, rfl⟩ := List.mem_map.mp hy
      have h1 := hnewslen m hm
      have h2 := inv.lens_spread x
        (by rw [List.map_cons]; exact List.mem_cons_of_mem _ hx)
        cur.rev.length (by rw [List.map_cons]; exact List.mem_cons_self _ _)
      omega
  · intro a ha b hb
    rw [List.map_append] at ha hb
    rcases List.mem_append.mp ha with ha1 | ha2 <;>
      rcases List.mem_append.mp hb with hb1 | hb2
    · exact inv.lens_spread a (by rw [List.map_cons]; exact List.mem_cons_of_mem _ ha1)
        b (by rw [List.map_cons]; exact List.mem_cons_of_mem _ hb1)
    · obtain ⟨m, hm, rfl⟩ := List.mem_map.mp hb2
      have h1 := hnewslen m hm
      have h2 := inv.lens_spread a
        (by rw [List.map_cons]; exact List.mem_cons_of_mem _ ha1)
        cur.rev.length (by rw [List.map_cons]; exact List.mem_cons_self _ _)
      omega
    · obtain ⟨m, hm, rfl⟩ := List.mem_map.mp ha2
      have h1 := hnewslen m hm
      have h2 := hsorted_head b hb1
      omega
    · obtain ⟨m, hm, rfl⟩ := List.mem_map.mp ha2
      obtain ⟨m2, hm2, rfl⟩ := List.mem_map.mp hb2
      have h1 := hnewslen m hm
      have h2 := hnewslen m2 hm2
      omega
  · intro p hp hno q hq
    by_cases hpc : p = cur.pos
    · subst hpc
      exact hns q hq
    · have hpV : p ∈ V := by
        rcases hvfrom p hp with h1 | h2
        · exact h1
        · rcases hnsq p h2 with h3 | ⟨m, hmQ2, hmp⟩
          · exact h3
          · exact absurd hmp (hno m hmQ2)
      refine hvmono q (inv.processed_closed p hpV ?_ q hq)
      intro n hnQ
      rcases List.mem_cons.mp hnQ with rfl | hnr
      · exact fun hc => hpc hc.symm
      · exact hno n (List.mem_append_left _ hnr)
  · exact hvmono start inv.start_mem
  · refine List.pairwise_append.mpr ⟨(List.pairwise_cons.mp inv.distinct).2, hndist, ?_⟩
    intro n hn m hm
    have h1 := inv.queue_visited n (List.mem_cons_of_mem _ hn)
    obtain ⟨q, hqns, rfl, hqV⟩ := hnews m hm
    intro hc
    apply hqV
    show (⟨q, q :: cur.rev⟩ : BNode).pos ∈ V
    rw [← hc]
    exact h1
  · intro hgV2
    rcases hvfrom goal hgV2 with h1 | h2
    · obtain ⟨n, hnQ, hnp⟩ := inv.goal_queue h1
      rcases List.mem_cons.mp hnQ with rfl | hnr
      · exact absurd hnp hg
      · exact ⟨n, List.mem_append_left _ hnr, hnp⟩
    · rcases hnsq goal h2 with h3 | ⟨m, hmQ2, hmp⟩
      · obtain ⟨n, hnQ, hnp⟩ := inv.goal_queue h3
        rcases List.mem_cons.mp hnQ with rfl | hnr
        · exact absurd hnp hg
        · exact ⟨n, List.mem_append_left _ hnr, hnp⟩
      · exact ⟨m, hmQ2, hmp⟩

/-- With an empty queue the invariant forces every reachable position
to have been visited. -/
theorem bfs_all_visited (env : GridEnvironment) (start goal : Pos) (V : List Pos)
    (inv : BfsInv env start goal [] V) :
    ∀ (l : List Pos) (u : Pos), ValidMovePath env (start :: l) →
      (start :: l).getLast? = some u → u ∈ V := by
  intro l u hv hlast
  by_contra hu
  obtain ⟨m, hm, _⟩ := bfs_bound inv l u hv hlast hu
  simp at hm

/-- Partial correctness of the BFS loop: from any state satisfying the
invariant, a successful outcome carries a valid start-to-goal path of
minimal step count, and a failing outcome means no valid path from the
start reaches the goal. -/
theorem bfsLoop_sound (env : GridEnvironment) (start goal : Pos) :
    ∀ (fuel : Nat) (Q : List BNode) (V : List Pos) (exp : Nat),
      BfsInv env start goal Q V →
      ∀ out, bfsLoop env goal fuel Q V exp = some out →
        (∀ n e, out = SearchOutcome.success n e →
          ∃ l, ValidMovePath env (start :: l) ∧ n.rev = (start :: l).reverse ∧
            (start :: l).getLast? = some goal ∧ n.rev.length = (start :: l).length ∧
            ∀ l2, ValidMovePath env (start :: l2) → (start :: l2).getLast? = some goal →
              (start :: l).length ≤ (start :: l2).length) ∧
        (∀ e, out = SearchOutcome.failure e →
          ∀ l, ValidMovePath env (start :: l) → (start :: l).getLast? ≠ some goal) := by
  intro fuel
  induction fuel with
  | zero =>
    intro Q V exp inv out hout
    simp [bfsLoop] at hout
  | succ fuel ih =>
    intro Q V exp inv out hout
    cases Q with
    | nil =>
      rw [bfsLoop_succ_eq] at hout
      have hout2 : out = SearchOutcome.failure exp := (Option.some.inj hout).symm
      subst hout2
      refine ⟨fun n e hne => by simp at hne, ?_⟩
      intro e _ l hvl hlast
      obtain ⟨n, hn, _⟩ := inv.goal_queue (bfs_all_visited env start goal V inv l goal hvl hlast)
      simp at hn
    | cons cur rest =>
      have heq : bfsLoop env goal (fuel + 1) (cur :: rest) V exp =
          if cur.pos = goal then
            some (SearchOutcome.success ⟨cur.pos, 0, 0, 0, cur.rev⟩ (exp + 1))
          else
            bfsLoop env goal fuel
              (bfsRelax cur (env.get_neighbors cur.pos.1 cur.pos.2 none) rest V).1
              (bfsRelax cur (env.get_neighbors cur.pos.1 cur.pos.2 none) rest V).2
              (exp + 1) := rfl
      rw [heq] at hout
      by_cases hg : cur.pos = goal
      · rw [if_pos hg] at hout
        have hout2 : out = SearchOutcome.success ⟨cur.pos, 0, 0, 0, cur.rev⟩ (exp + 1) :=
          (Option.some.inj hout).symm
        subst hout2
        refine ⟨?_, fun e he => by simp at he⟩
        intro n e hne
        cases hne
        obtain ⟨l, hvl, hrev, hlast⟩ := inv.node_ok cur (List.mem_cons_self _ _)
        refine ⟨l, hvl, hrev, by rw [hlast, hg], ?_, ?_⟩
        · show cur.rev.length = (start :: l).length
          rw [hrev, List.length_reverse]
        · intro l2 hvl2 hlast2
          have h1 := inv.node_min cur (List.mem_cons_self _ _) l2 hvl2
            (by rw [hlast2, hg])
          have h2 : cur.rev.length = (start :: l).length := by
            rw [hrev, List.length_reverse]
          omega
      · rw [if_neg hg] at hout
        exact ih _ _ (exp + 1) (bfsInv_step env start goal cur rest V inv hg) out hout

/-- Termination of the BFS loop: enough fuel always yields an answer,
by the lexicographic measure (unvisited in-bounds positions, queue
length). -/
theorem bfsLoop_terminates (env : GridEnvironment) (start goal : Pos) :
    ∀ (kc kh : Nat) (Q : List BNode) (V : List Pos) (exp : Nat),
      (∀ n ∈ Q, n.pos ∈ spatialStates env start) →
      ((spatialStates env start).filter (fun v => v ∉ V)).card ≤ kc →
      Q.length ≤ kh →
      ∃ fuel out, bfsLoop env goal fuel Q V exp = some out := by
  intro kc
  have hexpand : ∀ (cur : BNode) (rest : List BNode) (V : List Pos),
      cur.pos ∈ spatialStates env start →
      ∃ news, (bfsRelax cur (env.get_neighbors cur.pos.1 cur.pos.2 none) rest V).1 =
          rest ++ news ∧
        (∀ m ∈ news, m.pos ∈ spatialStates env start ∧ m.pos ∉ V ∧
          m.pos ∈ (bfsRelax cur (env.get_neighbors cur.pos.1 cur.pos.2 none) rest V).2) ∧
        (∀ p ∈ V, p ∈ (bfsRelax cur (env.get_neighbors cur.pos.1 cur.pos.2 none) rest V).2) := by
    intro cur rest V hcurS
    obtain ⟨⟨news, hshape, hnews, _⟩, hvmono, hns, _, _⟩ :=
      bfsRelax_spec cur (env.get_neighbors cur.pos.1 cur.pos.2 none) rest V
    refine ⟨news, hshape, ?_, hvmono⟩
    intro m hm
    obtain ⟨q, hqns, rfl, hqV⟩ := hnews m hm
    refine ⟨?_, hqV, hns q hqns⟩
    exact spatialStates_closed env start cur.pos hcurS q (env.terrain_int q.1 q.2)
      ((mem_spatialSucc_iff env cur.pos q _).mpr ⟨hqns, rfl⟩)
  induction kc with
  | zero =>
    intro kh
    induction kh with
    | zero =>
      intro Q V exp _ _ hlen
      have : Q = [] := List.length_eq_zero.mp (Nat.le_zero.mp hlen)
      subst this
      exact ⟨1, SearchOutcome.failure exp, rfl⟩
    | succ kh ihh =>
      intro Q V exp hS hcard hlen
      cases Q with
      | nil => exact ⟨1, SearchOutcome.failure exp, rfl⟩
      | cons cur rest =>
        by_cases hg : cur.pos = goal
        · exact ⟨1, SearchOutcome.success ⟨cur.pos, 0, 0, 0, cur.rev⟩ (exp + 1), by
            rw [bfsLoop_succ_eq]
            show (if cur.pos = goal then _ else _) = _
            rw [if_pos hg]⟩
        · obtain ⟨news, hshape, hnews, hvmono⟩ := hexpand cur rest V
            (hS cur (List.mem_cons_self _ _))
          cases news with
          | nil =>
            rw [List.append_nil] at hshape
            obtain ⟨fuel, out, hout⟩ := ihh
              (bfsRelax cur (env.get_neighbors cur.pos.1 cur.pos.2 none) rest V).1
              (bfsRelax cur (env.get_neighbors cur.pos.1 cur.pos.2 none) rest V).2
              (exp + 1)
              (by rw [hshape]; exact fun n hn => hS n (List.mem_cons_of_mem _ hn))
              (by
                refine le_trans (Finset.card_le_card ?_) hcard
                intro v hv
                simp only [Finset.mem_filter, decide_eq_true_eq] at hv ⊢
                exact ⟨hv.1, fun hc => hv.2 (hvmono v hc)⟩)
              (by rw [hshape]; simpa using Nat.le_of_succ_le_succ hlen)
            refine ⟨fuel + 1, out, ?_⟩
            rw [bfsLoop_succ_eq]
            show (if cur.pos = goal then _ else _) = _
            rw [if_neg hg]
            exact hout
          | cons m0 tlnews =>
            exfalso
            obtain ⟨hm0S, hm0V, _⟩ := hnews m0 (List.mem_cons_self _ _)
            have hmem : m0.pos ∈ (spatialStates env start).filter (fun v => v ∉ V) := by
              simp only [Finset.mem_filter, decide_eq_true_eq]
              exact ⟨hm0S, hm0V⟩
            have := Finset.card_pos.mpr ⟨m0.pos, hmem⟩
            omega
  | succ kc ihc =>
    intro kh
    induction kh with
    | zero =>
      intro Q V exp _ _ hlen
      have : Q = [] := List.length_eq_zero.mp (Nat.le_zero.mp hlen)
      subst this
      exact ⟨1, SearchOutcome.failure exp, rfl⟩
    | succ kh ihh =>
      intro Q V exp hS hcard hlen
      cases Q with
      | nil => exact ⟨1, SearchOutcome.failure exp, rfl⟩
      | cons cur rest =>
        by_cases hg : cur.pos = goal
        · exact ⟨1, SearchOutcome.success ⟨cur.pos, 0, 0, 0, cur.rev⟩ (exp + 1), by
            rw [bfsLoop_succ_eq]
            show (if cur.pos = goal then _ else _) = _
            rw [if_pos hg]⟩
        · obtain ⟨news, hshape, hnews, hvmono⟩ := hexpand cur rest V
            (hS cur (List.mem_cons_self _ _))
          have hS2 : ∀ n ∈ (bfsRelax cur (env.get_neighbors cur.pos.1 cur.pos.2 none)
              rest V).1, n.pos ∈ spatialStates env start := by
            rw [hshape]
            intro n hn
            rcases List.mem_append.mp hn with hr | hnw
            · exact hS n (List.mem_cons_of_mem _ hr)
            · exact (hnews n hnw).1
          cases news with
          | nil =>
            rw [List.append_nil] at hshape
            obtain ⟨fuel, out, hout⟩ := ihh
              (bfsRelax cur (env.get_neighbors cur.pos.1 cur.pos.2 none) rest V).1
              (bfsRelax cur (env.get_neighbors cur.pos.1 cur.pos.2 none) rest V).2
              (exp + 1) hS2
              (by
                refine le_trans (Finset.card_le_card ?_) hcard
                intro v hv
                simp only [Finset.mem_filter, decide_eq_true_eq] at hv ⊢
                exact ⟨hv.1, fun hc => hv.2 (hvmono v hc)⟩)
              (by rw [hshape]; simpa using Nat.le_of_succ_le_succ hlen)
            refine ⟨fuel + 1, out, ?_⟩
            rw [bfsLoop_succ_eq]
            show (if cur.pos = goal then _ else _) = _
            rw [if_neg hg]
            exact hout
          | cons m0 tlnews =>
            obtain ⟨hm0S, hm0V, hm0V2⟩ := hnews m0 (List.mem_cons_self _ _)
            have hcard2 : ((spatialStates env start).filter (fun v =>
                v ∉ (bfsRelax cur (env.get_neighbors cur.pos.1 cur.pos.2 none)
                  rest V).2)).card ≤ kc := by
              have hsub : (spatialStates env start).filter (fun v =>
                  v ∉ (bfsRelax cur (env.get_neighbors cur.pos.1 cur.pos.2 none)
                    rest V).2) ⊆
                  (spatialStates env start).filter (fun v => v ∉ V) := by
                intro v hv
                simp only [Finset.mem_filter, decide_eq_true_eq] at hv ⊢
                exact ⟨hv.1, fun hc => hv.2 (hvmono v hc)⟩
              have hin : m0.pos ∈ (spatialStates env start).filter (fun v => v ∉ V) := by
                simp only [Finset.mem_filter, decide_eq_true_eq]
                exact ⟨hm0S, hm0V⟩
              have hnotin : m0.pos ∉ (spatialStates env start).filter (fun v =>
                  v ∉ (bfsRelax cur (env.get_neighbors cur.pos.1 cur.pos.2 none)
                    rest V).2) := by
                simp only [Finset.mem_filter, decide_eq_true_eq, not_and, not_not]
                exact fun _ => hm0V2
              have hlt := Finset.card_lt_card
                ((Finset.ssubset_iff_of_subset hsub).mpr ⟨m0.pos, hin, hnotin⟩)
              omega
            obtain ⟨fuel, out, hout⟩ := ihc
              ((bfsRelax cur (env.get_neighbors cur.pos.1 cur.pos.2 none) rest V).1.length)
              (bfsRelax cur (env.get_neighbors cur.pos.1 cur.pos.2 none) rest V).1
              (bfsRelax cur (env.get_neighbors cur.pos.1 cur.pos.2 none) rest V).2
              (exp + 1) hS2 hcard2 (le_refl _)
            refine ⟨fuel + 1, out, ?_⟩
            rw [bfsLoop_succ_eq]
            show (if cur.pos = goal then _ else _) = _
            rw [if_neg hg]
            exact hout

/-- C5: for every environment and every start/goal pair with the goal
reachable from the start, BFS returns a path from start to goal whose
number of steps (length minus one, which is also the reported cost) is
minimal among all legal move paths from start to goal, regardless of
terrain costs. -/
theorem C5_bfs_shortest_steps (env : GridEnvironment) (start goal : Pos)
    (hreach : ∃ l, ValidMovePath env l ∧ l.head? = some start ∧
      l.getLast? = some goal) :
    ∃ fuel r, bfs_find_path fuel env start goal = some r ∧ r.success = true ∧
      ValidMovePath env r.path ∧ r.path.head? = some start ∧
      r.path.getLast? = some goal ∧
      r.cost = ((r.path.length : Int) - 1 : Int) ∧
      ∀ m, ValidMovePath env m → m.head? = some start → m.getLast? = some goal →
        r.path.length ≤ m.length := by
  obtain ⟨fuel, out, hout⟩ := bfsLoop_terminates env start goal
    (((spatialStates env start).filter (fun v => v ∉ ([start] : List Pos))).card) 1
    [⟨start, [start]⟩] [start] 0
    (by
      intro n hn
      rw [List.mem_singleton] at hn
      subst hn
      exact spatialStates_start env start)
    (le_refl _) (by simp)
  have hsound := bfsLoop_sound env start goal fuel _ _ 0
    (bfsInv_init env start goal) out hout
  cases out with
  | failure e =>
    exfalso
    obtain ⟨l, hv, hh, hl⟩ := hreach
    cases l with
    | nil => simp at hh
    | cons a tl =>
      have ha : a = start := by simpa using hh
      subst ha
      exact hsound.2 e rfl tl hv hl
  | success n e =>
    obtain ⟨l, hvl, hrev, hlast, hlen, hmin⟩ := hsound.1 n e rfl
    have hpath : reconstructStates n = start :: l := by
      unfold reconstructStates
      rw [hrev, List.reverse_reverse]
    refine ⟨fuel, _, bfs_find_path_of_success hout, rfl, ?_, ?_, ?_, ?_, ?_⟩
    · show ValidMovePath env (reconstructStates n)
      rw [hpath]
      exact hvl
    · show (reconstructStates n).head? = some start
      rw [hpath]
      rfl
    · show (reconstructStates n).getLast? = some goal
      rw [hpath]
      exact hlast
    · show (((n.rev.length : Int) - 1 : Int) : WithTop Int) =
        (((reconstructStates n).length : Int) - 1 : Int)
      rw [hpath, ← hlen]
    · intro m hm hh2 hl2
      cases m with
      | nil => simp at hh2
      | cons a tl =>
        have ha : a = start := by simpa using hh2
        rw [ha] at hm hl2
        show (reconstructStates n).length ≤ (a :: tl).length
        rw [hpath, ha]
        exact hmin tl hm hl2

/-- Witness for C5 on the 2-cell strip. -/
theorem C5_bfs_shortest_steps_witness :
    (∃ l, ValidMovePath envStrip l ∧ l.head? = some (0, 0) ∧
      l.getLast? = some (1, 0)) ∧
    (∃ fuel r, bfs_find_path fuel envStrip (0, 0) (1, 0) = some r ∧
      r.success = true ∧
      ValidMovePath envStrip r.path ∧ r.path.head? = some (0, 0) ∧
      r.path.getLast? = some (1, 0) ∧
      r.cost = ((r.path.length : Int) - 1 : Int) ∧
      ∀ m, ValidMovePath envStrip m → m.head? = some (0, 0) →
        m.getLast? = some (1, 0) → r.path.length ≤ m.length) := by
  have hreach : ∃ l, ValidMovePath envStrip l ∧ l.head? = some (0, 0) ∧
      l.getLast? = some (1, 0) :=
    ⟨[(0, 0), (1, 0)], by decide, rfl, rfl⟩
  exact ⟨hreach, C5_bfs_shortest_steps envStrip (0, 0) (1, 0) hreach⟩

/-! ## Hill climbing replanner (`HillClimbingReplanner`, `algorithms.py` 276-408) -/

/-! ## The delivery agent (`agent.py`) -/

/-- C9: constructing a `DeliveryAgent` succeeds exactly for the five
known algorithm selector strings; every other selector makes the
constructor fail (the `ValueError` of `_create_algorithm`), never
silently defaulting. -/
theorem C9_algorithm_selector (env : GridEnvironment) (s : String) :
    (mkDeliveryAgent env s).isSome ↔
      s ∈ (["bfs", "ucs", "astar", "temporal_astar", "hill_climbing"] : List String) := by
  unfold mkDeliveryAgent create_algorithm
  by_cases h1 : s = "bfs" <;> by_cases h2 : s = "ucs" <;> by_cases h3 : s = "astar" <;>
    by_cases h4 : s = "temporal_astar" <;> by_cases h5 : s = "hill_climbing" <;>
    simp_all

/-- `plan_path` never touches the shared environment. -/
theorem plan_path_env (fuelA fuelH : Nat) (oracle : Nat → Nat) (a : DeliveryAgent)
    (goal : Pos) (st : Option Int) (a2 : DeliveryAgent) (r : SearchResult)
    (h : plan_path fuelA fuelH oracle a goal st = some (a2, r)) :
    a2.environment = a.environment := by
  simp only [plan_path] at h
  split at h
  · exact Option.noConfusion h
  · split at h
    · exact Option.noConfusion h
    · split at h
      · cases Option.some.inj h
        rfl
      · cases Option.some.inj h
        rfl

/-- `replan` never touches the shared environment. -/
theorem replan_env (fuelA fuelH : Nat) (oracle : Nat → Nat) (a : DeliveryAgent)
    (a2 : DeliveryAgent) (ok : Bool)
    (h : replan fuelA fuelH oracle a = some (a2, ok)) :
    a2.environment = a.environment := by
  simp only [replan] at h
  split at h
  · cases Option.some.inj h
    rfl
  · split at h
    · cases Option.some.inj h
      rfl
    · rename_i heq
      split at h
      · exact Option.noConfusion h
      · rename_i hplan
        cases Option.some.inj h
        exact plan_path_env fuelA fuelH oracle a _ _ _ _ hplan

theorem envFrameEq_refl (e : GridEnvironment) : envFrameEq e e :=
  ⟨rfl, rfl, rfl, rfl, rfl, rfl, rfl⟩

theorem envFrameEq_trans {e e2 e3 : GridEnvironment}
    (h1 : envFrameEq e e2) (h2 : envFrameEq e2 e3) : envFrameEq e e3 := by
  obtain ⟨a1, a2, a3, a4, a5, a6, a7⟩ := h1
  obtain ⟨b1, b2, b3, b4, b5, b6, b7⟩ := h2
  exact ⟨b1.trans a1, b2.trans a2, b3.trans a3, b4.trans a4, b5.trans a5,
    b6.trans a6, b7.trans a7⟩

theorem envFrameEq_update_time (e : GridEnvironment) :
    envFrameEq e e.update_time ∧ e.update_time.current_time = e.current_time + 1 :=
  ⟨⟨rfl, rfl, rfl, rfl, rfl, rfl, rfl⟩, rfl⟩

/-- `execute_step` either leaves the environment untouched or advances
its clock by exactly one tick (the executed-move branch). -/
theorem execute_step_env (fuelA fuelH : Nat) (oracle : Nat → Nat) (a : DeliveryAgent)
    (a2 : DeliveryAgent) (ok : Bool)
    (h : execute_step fuelA fuelH oracle a = some (a2, ok)) :
    a2.environment = a.environment ∨ a2.environment = a.environment.update_time := by
  simp only [execute_step] at h
  split at h
  · cases Option.some.inj h
    exact Or.inl rfl
  · split at h
    · have hre := replan_env fuelA fuelH oracle _ a2 ok h
      exact Or.inl hre
    · cases Option.some.inj h
      exact Or.inr rfl

/-- The navigation loop only ever advances the clock, one tick per
executed move, at most one per loop iteration. -/
theorem navLoop_env (fuelA fuelH : Nat) (oracle : Nat → Nat) (goal : Pos) :
    ∀ (steps : Nat) (a a3 : DeliveryAgent),
      navLoop fuelA fuelH oracle goal steps a = some a3 →
      envFrameEq a.environment a3.environment ∧
      ∃ k ≤ steps, a3.environment.current_time = a.environment.current_time + k := by
  intro steps
  induction steps with
  | zero =>
    intro a a3 h
    cases Option.some.inj h
    exact ⟨envFrameEq_refl _, 0, le_refl _, by omega⟩
  | succ steps ih =>
    intro a a3 h
    simp only [navLoop] at h
    split at h
    · cases Option.some.inj h
      exact ⟨envFrameEq_refl _, 0, by omega, by omega⟩
    · split at h
      · exact Option.noConfusion h
      · rename_i hexec
        split at h
        · rename_i hok
          obtain ⟨hf, k, hk, ht⟩ := ih _ a3 h
          rcases execute_step_env fuelA fuelH oracle a _ _ hexec with h1 | h1
          · refine ⟨envFrameEq_trans (h1 ▸ envFrameEq_refl _) hf, k, by omega, ?_⟩
            rw [ht, h1]
          · refine ⟨envFrameEq_trans (h1 ▸ (envFrameEq_update_time a.environment).1) hf,
              k + 1, by omega, ?_⟩
            rw [ht, h1, (envFrameEq_update_time a.environment).2]
            omega
        · cases Option.some.inj h
          rcases execute_step_env fuelA fuelH oracle a _ _ hexec with h1 | h1
          · exact ⟨h1 ▸ envFrameEq_refl _, 0, by omega, by rw [h1]; omega⟩
          · exact ⟨h1 ▸ (envFrameEq_update_time a.environment).1, 1, by omega,
              by rw [h1, (envFrameEq_update_time a.environment).2]; omega⟩

/-- `navigate_to_goal` preserves every environment field but the
clock, which it advances one tick per executed move. -/
theorem navigate_to_goal_env (fuelA fuelH : Nat) (oracle : Nat → Nat)
    (a : DeliveryAgent) (goal : Pos) (max_steps : Nat) (a2 : DeliveryAgent) (ok : Bool)
    (h : navigate_to_goal fuelA fuelH oracle a goal max_steps = some (a2, ok)) :
    envFrameEq a.environment a2.environment ∧
    ∃ k ≤ max_steps, a2.environment.current_time = a.environment.current_time + k := by
  simp only [navigate_to_goal] at h
  split at h
  · exact Option.noConfusion h
  · rename_i a4 result hplan
    have hp := plan_path_env fuelA fuelH oracle a goal none a4 result hplan
    split at h
    · cases Option.some.inj h
      exact ⟨hp ▸ envFrameEq_refl _, 0, by omega, by rw [hp]; omega⟩
    · split at h
      · exact Option.noConfusion h
      · rename_i hloop
        cases Option.some.inj h
        obtain ⟨hf, k, hk, ht⟩ := navLoop_env fuelA fuelH oracle goal max_steps a4 _ hloop
        exact ⟨envFrameEq_trans (hp ▸ envFrameEq_refl _) hf, k, hk, by rw [ht, hp]⟩

/-- C8 counterexample: `reset` executes no move step, yet it changes
the environment's clock (from 5 back to 0) while leaving every other
environment field unchanged — contradicting the claim that the
`current_time` only ever advances one tick per executed move. -/
theorem C8_counterexample :
    agentT5.environment.current_time = 5 ∧
    (reset agentT5).environment.current_time = 0 ∧
    (reset agentT5).environment.current_time ≠ agentT5.environment.current_time ∧
    envFrameEq agentT5.environment (reset agentT5).environment := by
  refine ⟨rfl, rfl, by decide, ?_⟩
  exact ⟨rfl, rfl, rfl, rfl, rfl, rfl, rfl⟩

/-- C8 (amended): the agent's operations leave the environment's grid,
terrain costs, start/goal positions and moving obstacles unchanged;
`plan_path` and `replan` leave the clock untouched, `execute_step`
advances it by exactly one tick when (and only when) it executes a
move, `navigate_to_goal` advances it one tick per executed move (at
most `max_steps`), and `reset` — contrary to the original claim —
sets the clock back to zero.  (The `find_path` functions themselves
are pure: in this embedding they take the environment as a value and
return only a `SearchResult`.) -/
theorem C8_amended_frame_effects (fuelA fuelH : Nat) (oracle : Nat → Nat)
    (a : DeliveryAgent) (goal : Pos) (st : Option Int) (max_steps : Nat) :
    (∀ a2 r, plan_path fuelA fuelH oracle a goal st = some (a2, r) →
      a2.environment = a.environment) ∧
    (∀ a2 ok, replan fuelA fuelH oracle a = some (a2, ok) →
      a2.environment = a.environment) ∧
    (∀ a2 ok, execute_step fuelA fuelH oracle a = some (a2, ok) →
      a2.environment = a.environment ∨ a2.environment = a.environment.update_time) ∧
    (∀ a2 ok, navigate_to_goal fuelA fuelH oracle a goal max_steps = some (a2, ok) →
      envFrameEq a.environment a2.environment ∧
      ∃ k ≤ max_steps,
        a2.environment.current_time = a.environment.current_time + (k : Int)) ∧
    (envFrameEq a.environment (reset a).environment ∧
      (reset a).environment.current_time = 0) := by
  refine ⟨?_, ?_, ?_, ?_, ?_, ?_⟩
  · intro a2 r h
    exact plan_path_env fuelA fuelH oracle a goal st a2 r h
  · intro a2 ok h
    exact replan_env fuelA fuelH oracle a a2 ok h
  · intro a2 ok h
    exact execute_step_env fuelA fuelH oracle a a2 ok h
  · intro a2 ok h
    exact navigate_to_goal_env fuelA fuelH oracle a goal max_steps a2 ok h
  · exact ⟨rfl, rfl, rfl, rfl, rfl, rfl, rfl⟩
  · rfl

theorem terrainAbsSum_nonneg (env : GridEnvironment) : 0 ≤ terrainAbsSum env :=
  Finset.sum_nonneg (fun _ _ => abs_nonneg _)

set_option maxHeartbeats 1000000 in
theorem terrain_abs_le (env : GridEnvironment) (x y : Int)
    (h : env.is_valid_position x y = true) :
    |env.terrain_int x y| ≤ terrainAbsSum env := by
  unfold GridEnvironment.is_valid_position at h
  simp only [Bool.and_eq_true, decide_eq_true_eq] at h
  have hmem : ((x, y) : Pos) ∈
      (Finset.Icc (0 : Int) (env.width - 1)) ×ˢ (Finset.Icc (0 : Int) (env.height - 1)) := by
    rw [Finset.mem_product, Finset.mem_Icc, Finset.mem_Icc]
    omega
  unfold terrainAbsSum
  exact Finset.single_le_sum (fun q _ => abs_nonneg (env.terrain_int q.1 q.2)) hmem

/-- Any finite indexed evaluation is bounded below by `-(length · M)`. -/
theorem evalAux_lower (env : GridEnvironment) (t0 : Int) :
    ∀ (l : List Pos) (i : Nat) (c : Int),
      evalAux env t0 l i = (c : WithTop Int) →
      -((l.length : Int) * terrainAbsSum env) ≤ c := by
  intro l
  induction l with
  | nil =>
    intro i c h
    simp only [evalAux] at h
    have hc : c = 0 := by exact_mod_cast h.symm
    subst hc
    simp
  | cons p tl ih =>
    intro i c h
    simp only [evalAux] at h
    rw [WithTop.add_eq_coe] at h
    obtain ⟨a, b, ha, hb, hab⟩ := h
    have hpass : env.is_passable p.1 p.2 (some (t0 + (i : Int))) = true := by
      by_contra hnp
      rw [if_neg hnp] at ha
      exact Option.noConfusion ha
    rw [if_pos hpass] at ha
    have hvalid := is_passable_valid env p.1 p.2 _ hpass
    have hML : -(terrainAbsSum env) ≤ a := by
      by_cases hi : i = 0
      · rw [if_pos hi] at ha
        have : a = 0 := by exact_mod_cast ha
        have := terrainAbsSum_nonneg env
        omega
      · rw [if_neg hi] at ha
        unfold GridEnvironment.get_terrain_cost at ha
        rw [if_pos hvalid] at ha
        have : a = env.terrain_int p.1 p.2 := by exact_mod_cast ha
        have habs := terrain_abs_le env p.1 p.2 hvalid
        have := abs_le.mp habs
        omega
    have hbb := ih (i + 1) b hb.symm
    have hlen : ((p :: tl).length : Int) = (tl.length : Int) + 1 := by
      simp
    rw [hlen]
    have hM := terrainAbsSum_nonneg env
    nlinarith [hbb, hML, hab]

/-- A finite `evaluate_path` value is bounded below by `-(length · M)`. -/
theorem evaluate_path_lower (env : GridEnvironment) (path : List Pos) (t0 : Int)
    (c : Int) (h : evaluate_path env path t0 = (c : WithTop Int)) :
    -((path.length : Int) * terrainAbsSum env) ≤ c := by
  unfold evaluate_path at h
  by_cases hv : is_valid_path env path = true
  · rw [if_pos hv] at h
    exact evalAux_lower env t0 path 0 c h
  · rw [if_neg hv] at h
    exact absurd h (by simp)

/-- A finite `evaluate_path` value is the path's terrain sum. -/
theorem evalAux_eq_sum (env : GridEnvironment) (t0 : Int) :
    ∀ (l : List Pos) (i : Nat), i ≠ 0 → evalAux env t0 l i ≠ ⊤ →
      evalAux env t0 l i = (l.map (fun q => env.get_terrain_cost q.1 q.2)).sum := by
  intro l
  induction l with
  | nil => intro i _ _; rfl
  | cons p tl ih =>
    intro i hi hne
    simp only [evalAux] at hne ⊢
    have hpass : env.is_passable p.1 p.2 (some (t0 + (i : Int))) = true := by
      by_contra hnp
      rw [if_neg hnp] at hne
      simp at hne
    rw [if_pos hpass, if_neg hi] at hne ⊢
    have htl : evalAux env t0 tl (i + 1) ≠ ⊤ := by
      intro hc
      rw [hc] at hne
      simp at hne
    rw [List.map_cons, List.sum_cons, ih (i + 1) (by omega) htl]

theorem evaluate_path_eq_sum (env : GridEnvironment) (path : List Pos) (t0 : Int)
    (h : evaluate_path env path t0 ≠ ⊤) :
    evaluate_path env path t0 = path_terrain_sum env path := by
  unfold evaluate_path at h ⊢
  by_cases hv : is_valid_path env path = true
  · rw [if_pos hv] at h ⊢
    cases path with
    | nil => rfl
    | cons a tl =>
      simp only [evalAux] at h ⊢
      have hpass : env.is_passable a.1 a.2 (some (t0 + ((0 : Nat) : Int))) = true := by
        by_contra hnp
        rw [if_neg hnp] at h
        simp at h
      rw [if_pos hpass] at h ⊢
      have htl : evalAux env t0 tl (0 + 1) ≠ ⊤ := by
        intro hc
        rw [hc] at h
        simp at h
      rw [if_pos trivial] at h ⊢
      rw [evalAux_eq_sum env t0 tl (0 + 1) (by omega) htl]
      unfold path_terrain_sum
      simp
  · rw [if_neg hv] at h
    simp at h

/-- A path neighbour replaces one interior waypoint. -/
theorem mem_get_path_neighbors (env : GridEnvironment) (path : List Pos) (p : List Pos)
    (hp : p ∈ get_path_neighbors env path) :
    ∃ i nb, 1 ≤ i ∧ i + 2 ≤ path.length ∧ p = path.set i nb := by
  unfold get_path_neighbors at hp
  rw [List.mem_flatMap] at hp
  obtain ⟨i, hi, hp2⟩ := hp
  rw [List.mem_range'] at hi
  obtain ⟨j, hj, rfl⟩ := hi
  rw [List.mem_filterMap] at hp2
  obtain ⟨nb, _, hset⟩ := hp2
  simp only [one_mul] at hset ⊢
  have hset2 : (if is_valid_path env (path.set (1 + j) nb) = true
      then some (path.set (1 + j) nb) else none) = some p := hset
  by_cases hvp : is_valid_path env (path.set (1 + j) nb) = true
  · rw [if_pos hvp] at hset2
    exact ⟨1 + j, nb, by omega, by omega, (Option.some.inj hset2).symm⟩
  · rw [if_neg hvp] at hset2
    exact Option.noConfusion hset2

/-- Path neighbours keep the length and both endpoints. -/
theorem get_path_neighbors_preserve (env : GridEnvironment) (path : List Pos)
    (p : List Pos) (hp : p ∈ get_path_neighbors env path) :
    p.length = path.length ∧ p.head? = path.head? ∧ p.getLast? = path.getLast? := by
  obtain ⟨i, nb, hi1, hi2, rfl⟩ := mem_get_path_neighbors env path p hp
  refine ⟨List.length_set path i nb, ?_, ?_⟩
  · cases path with
    | nil => simp at hi2
    | cons a rest =>
      obtain ⟨j, rfl⟩ : ∃ j, i = j + 1 := ⟨i - 1, by omega⟩
      rfl
  · rw [List.getLast?_eq_getElem?, List.getLast?_eq_getElem?, List.length_set]
    exact List.getElem?_set_ne (by omega)

/-- What the first-improvement scan returns. -/
theorem findImprove_spec (env : GridEnvironment) (t0 : Int) :
    ∀ (cands : List (List Pos)) (cost : WithTop Int) (nodes : Nat),
      ∀ p c n2, findImprove env t0 cands cost nodes = (some (p, c), n2) →
        p ∈ cands ∧ c = evaluate_path env p t0 ∧ c < cost := by
  intro cands
  induction cands with
  | nil =>
    intro cost nodes p c n2 h
    simp only [findImprove] at h
    exact Option.noConfusion (congrArg Prod.fst h)
  | cons q tl ih =>
    intro cost nodes p c n2 h
    simp only [findImprove] at h
    split at h
    · rename_i hlt
      have h1 := congrArg Prod.fst h
      simp only at h1
      cases Option.some.inj h1
      exact ⟨List.mem_cons_self _ _, rfl, hlt⟩
    · obtain ⟨h1, h2, h3⟩ := ih cost (nodes + 1) p c n2 h
      exact ⟨List.mem_cons_of_mem _ h1, h2, h3⟩

/-- The scan returns the input state when it finds no improvement. -/
theorem hillClimb_of_no_improve {env : GridEnvironment} {t0 : Int} {path : List Pos}
    {cost : WithTop Int} {nodes n2 : Nat} (fuel : Nat)
    (h : findImprove env t0 (get_path_neighbors env path) cost nodes = (none, n2)) :
    hillClimb env t0 (fuel + 1) path cost nodes = some (path, cost, n2) := by
  simp only [hillClimb]
  rw [h]

theorem hillClimb_of_improve {env : GridEnvironment} {t0 : Int} {path p : List Pos}
    {cost c : WithTop Int} {nodes n2 : Nat} (fuel : Nat)
    (h : findImprove env t0 (get_path_neighbors env path) cost nodes = (some (p, c), n2)) :
    hillClimb env t0 (fuel + 1) path cost nodes = hillClimb env t0 fuel p c n2 := by
  simp only [hillClimb]
  rw [h]

/-- Hill climbing never increases the cost. -/
theorem hillClimb_cost_le (env : GridEnvironment) (t0 : Int) :
    ∀ (fuel : Nat) (path : List Pos) (cost : WithTop Int) (nodes : Nat)
      (p : List Pos) (c : WithTop Int) (n2 : Nat),
      hillClimb env t0 fuel path cost nodes = some (p, c, n2) → c ≤ cost := by
  intro fuel
  induction fuel with
  | zero =>
    intro path cost nodes p c n2 h
    exact Option.noConfusion h
  | succ fuel ih =>
    intro path cost nodes p c n2 h
    cases hfi : findImprove env t0 (get_path_neighbors env path) cost nodes with
    | mk o m =>
      cases o with
      | none =>
        rw [hillClimb_of_no_improve fuel hfi] at h
        cases Option.some.inj h
        exact le_refl _
      | some pr =>
        obtain ⟨p1, c1⟩ := pr
        rw [hillClimb_of_improve fuel hfi] at h
        have hlt := (findImprove_spec env t0 _ cost nodes p1 c1 m hfi).2.2
        exact le_of_lt (lt_of_le_of_lt (ih p1 c1 m p c n2 h) hlt)

/-- Hill climbing tracks `evaluate_path` of its current path. -/
theorem hillClimb_eval (env : GridEnvironment) (t0 : Int) :
    ∀ (fuel : Nat) (path : List Pos) (cost : WithTop Int) (nodes : Nat)
      (p : List Pos) (c : WithTop Int) (n2 : Nat),
      cost = evaluate_path env path t0 →
      hillClimb env t0 fuel path cost nodes = some (p, c, n2) →
      c = evaluate_path env p t0 ∧ p.head? = path.head? ∧
        p.getLast? = path.getLast? ∧ p.length = path.length := by
  intro fuel
  induction fuel with
  | zero =>
    intro path cost nodes p c n2 _ h
    exact Option.noConfusion h
  | succ fuel ih =>
    intro path cost nodes p c n2 hev h
    cases hfi : findImprove env t0 (get_path_neighbors env path) cost nodes with
    | mk o m =>
      cases o with
      | none =>
        rw [hillClimb_of_no_improve fuel hfi] at h
        cases Option.some.inj h
        exact ⟨hev, rfl, rfl, rfl⟩
      | some pr =>
        obtain ⟨p1, c1⟩ := pr
        rw [hillClimb_of_improve fuel hfi] at h
        obtain ⟨hmem, hc1, _⟩ := findImprove_spec env t0 _ cost nodes p1 c1 m hfi
        obtain ⟨hl, hh, hg⟩ := get_path_neighbors_preserve env path p1 hmem
        obtain ⟨h1, h2, h3, h4⟩ := ih p1 c1 m p c n2 hc1 h
        exact ⟨h1, h2.trans hh, h3.trans hg, h4.trans hl⟩

/-- More fuel never changes a result the scan already reached. -/
theorem hillClimb_mono (env : GridEnvironment) (t0 : Int) :
    ∀ (fuel fuel2 : Nat) (path : List Pos) (cost : WithTop Int) (nodes : Nat)
      (res : List Pos × WithTop Int × Nat),
      fuel ≤ fuel2 →
      hillClimb env t0 fuel path cost nodes = some res →
      hillClimb env t0 fuel2 path cost nodes = some res := by
  intro fuel
  induction fuel with
  | zero =>
    intro fuel2 path cost nodes res _ h
    exact Option.noConfusion h
  | succ fuel ih =>
    intro fuel2 path cost nodes res hle h
    obtain ⟨fuel3, rfl⟩ : ∃ f3, fuel2 = f3 + 1 := ⟨fuel2 - 1, by omega⟩
    cases hfi : findImprove env t0 (get_path_neighbors env path) cost nodes with
    | mk o m =>
      cases o with
      | none =>
        rw [hillClimb_of_no_improve fuel hfi] at h
        rw [hillClimb_of_no_improve fuel3 hfi]
        exact h
      | some pr =>
        obtain ⟨p1, c1⟩ := pr
        rw [hillClimb_of_improve fuel hfi] at h
        rw [hillClimb_of_improve fuel3 hfi]
        exact ih fuel3 p1 c1 m res (by omega) h

/-- One unfolding of the restart loop. -/
theorem hcRestarts_step (env : GridEnvironment) (oracle : Nat → Nat) (t0 : Int)
    (fuelH r k : Nat) (bp : List Pos) (bc : WithTop Int) (nodes : Nat) :
    hcRestarts env oracle t0 fuelH (r + 1) k bp bc nodes =
      if evaluate_path env (perturb_path env oracle k bp).1 t0 = ⊤ then
        hcRestarts env oracle t0 fuelH r (perturb_path env oracle k bp).2 bp bc nodes
      else
        match hillClimb env t0 fuelH (perturb_path env oracle k bp).1
            (evaluate_path env (perturb_path env oracle k bp).1 t0) nodes with
        | none => none
        | some (p, c, nodes2) =>
          if c < bc then
            hcRestarts env oracle t0 fuelH r (perturb_path env oracle k bp).2 p c nodes2
          else
            hcRestarts env oracle t0 fuelH r (perturb_path env oracle k bp).2 bp bc nodes2
  := rfl

theorem hcRestarts_step_skip {env : GridEnvironment} {oracle : Nat → Nat} {t0 : Int}
    {fuelH r k : Nat} {bp : List Pos} {bc : WithTop Int} {nodes : Nat}
    (hcc : evaluate_path env (perturb_path env oracle k bp).1 t0 = ⊤) :
    hcRestarts env oracle t0 fuelH (r + 1) k bp bc nodes =
      hcRestarts env oracle t0 fuelH r (perturb_path env oracle k bp).2 bp bc nodes := by
  rw [hcRestarts_step, if_pos hcc]

theorem hcRestarts_step_out {env : GridEnvironment} {oracle : Nat → Nat} {t0 : Int}
    {fuelH r k : Nat} {bp : List Pos} {bc : WithTop Int} {nodes : Nat}
    (hcc : ¬ evaluate_path env (perturb_path env oracle k bp).1 t0 = ⊤)
    (hhc : hillClimb env t0 fuelH (perturb_path env oracle k bp).1
      (evaluate_path env (perturb_path env oracle k bp).1 t0) nodes = none) :
    hcRestarts env oracle t0 fuelH (r + 1) k bp bc nodes = none := by
  rw [hcRestarts_step, if_neg hcc, hhc]

theorem hcRestarts_step_climb {env : GridEnvironment} {oracle : Nat → Nat} {t0 : Int}
    {fuelH r k : Nat} {bp p : List Pos} {bc c : WithTop Int} {nodes nodes2 : Nat}
    (hcc : ¬ evaluate_path env (perturb_path env oracle k bp).1 t0 = ⊤)
    (hhc : hillClimb env t0 fuelH (perturb_path env oracle k bp).1
      (evaluate_path env (perturb_path env oracle k bp).1 t0) nodes =
        some (p, c, nodes2)) :
    hcRestarts env oracle t0 fuelH (r + 1) k bp bc nodes =
      if c < bc then
        hcRestarts env oracle t0 fuelH r (perturb_path env oracle k bp).2 p c nodes2
      else
        hcRestarts env oracle t0 fuelH r (perturb_path env oracle k bp).2 bp bc nodes2 := by
  rw [hcRestarts_step, if_neg hcc, hhc]

/-- Termination of one hill-climbing descent: costs strictly decrease
and stay above `-(length · M)`, so some fuel suffices. -/
theorem hillClimb_terminates (env : GridEnvironment) (t0 : Int) :
    ∀ (bound : Nat) (path : List Pos) (c : Int) (nodes : Nat),
      evaluate_path env path t0 = (c : WithTop Int) →
      (c + (path.length : Int) * terrainAbsSum env).toNat ≤ bound →
      ∃ fuel res, hillClimb env t0 fuel path ((c : Int) : WithTop Int) nodes = some res := by
  intro bound
  induction bound with
  | zero =>
    intro path c nodes hev hb
    cases hfi : findImprove env t0 (get_path_neighbors env path) ((c : Int) : WithTop Int)
        nodes with
    | mk o m =>
      cases o with
      | none => exact ⟨1, (path, ((c : Int) : WithTop Int), m), hillClimb_of_no_improve 0 hfi⟩
      | some pr =>
        obtain ⟨p1, c1⟩ := pr
        exfalso
        obtain ⟨hmem, hc1, hlt⟩ :=
          findImprove_spec env t0 _ ((c : Int) : WithTop Int) nodes p1 c1 m hfi
        obtain ⟨c2, hc2⟩ := WithTop.ne_top_iff_exists.mp (ne_top_of_lt hlt)
        have hc2lt : c2 < c := by exact_mod_cast hc2 ▸ hlt
        have hlen := (get_path_neighbors_preserve env path p1 hmem).1
        have hlow := evaluate_path_lower env p1 t0 c2 (by rw [← hc1, ← hc2])
        rw [hlen] at hlow
        omega
  | succ bound ih =>
    intro path c nodes hev hb
    cases hfi : findImprove env t0 (get_path_neighbors env path) ((c : Int) : WithTop Int)
        nodes with
    | mk o m =>
      cases o with
      | none => exact ⟨1, (path, ((c : Int) : WithTop Int), m), hillClimb_of_no_improve 0 hfi⟩
      | some pr =>
        obtain ⟨p1, c1⟩ := pr
        obtain ⟨hmem, hc1, hlt⟩ :=
          findImprove_spec env t0 _ ((c : Int) : WithTop Int) nodes p1 c1 m hfi
        obtain ⟨c2, hc2⟩ := WithTop.ne_top_iff_exists.mp (ne_top_of_lt hlt)
        have hc2lt : c2 < c := by exact_mod_cast hc2 ▸ hlt
        have hlen := (get_path_neighbors_preserve env path p1 hmem).1
        have hev1 : evaluate_path env p1 t0 = (c2 : WithTop Int) := by rw [← hc1, ← hc2]
        have hlow := evaluate_path_lower env p1 t0 c2 hev1
        obtain ⟨fuel, res, hres⟩ := ih p1 c2 m hev1 (by rw [hlen]; omega)
        refine ⟨fuel + 1, res, ?_⟩
        rw [hillClimb_of_improve fuel hfi, ← hc2]
        exact hres

/-- More fuel never changes a restart-loop result already reached. -/
theorem hcRestarts_mono (env : GridEnvironment) (oracle : Nat → Nat) (t0 : Int) :
    ∀ (r fuelH fuelH2 k : Nat) (bp : List Pos) (bc : WithTop Int) (nodes : Nat)
      (res : List Pos × WithTop Int × Nat),
      fuelH ≤ fuelH2 →
      hcRestarts env oracle t0 fuelH r k bp bc nodes = some res →
      hcRestarts env oracle t0 fuelH2 r k bp bc nodes = some res := by
  intro r
  induction r with
  | zero =>
    intro fuelH fuelH2 k bp bc nodes res _ h
    exact h
  | succ r ih =>
    intro fuelH fuelH2 k bp bc nodes res hle h
    by_cases hcc : evaluate_path env (perturb_path env oracle k bp).1 t0 = ⊤
    · rw [hcRestarts_step_skip hcc] at h ⊢
      exact ih fuelH fuelH2 _ bp bc nodes res hle h
    · cases hhc : hillClimb env t0 fuelH (perturb_path env oracle k bp).1
          (evaluate_path env (perturb_path env oracle k bp).1 t0) nodes with
      | none =>
        rw [hcRestarts_step_out hcc hhc] at h
        exact Option.noConfusion h
      | some pr =>
        obtain ⟨p, c, nodes2⟩ := pr
        have hhc2 := hillClimb_mono env t0 fuelH fuelH2 _ _ nodes _ hle hhc
        rw [hcRestarts_step_climb hcc hhc] at h
        rw [hcRestarts_step_climb hcc hhc2]
        by_cases hbc : c < bc
        · rw [if_pos hbc] at h ⊢
          exact ih fuelH fuelH2 _ p c nodes2 res hle h
        · rw [if_neg hbc] at h ⊢
          exact ih fuelH fuelH2 _ bp bc nodes2 res hle h

/-- The returned best cost never exceeds the incoming best cost. -/
theorem hcRestarts_cost_le (env : GridEnvironment) (oracle : Nat → Nat) (t0 : Int) :
    ∀ (r fuelH k : Nat) (bp : List Pos) (bc : WithTop Int) (nodes : Nat)
      (res : List Pos × WithTop Int × Nat),
      hcRestarts env oracle t0 fuelH r k bp bc nodes = some res →
      res.2.1 ≤ bc := by
  intro r
  induction r with
  | zero =>
    intro fuelH k bp bc nodes res h
    cases Option.some.inj h
    exact le_refl _
  | succ r ih =>
    intro fuelH k bp bc nodes res h
    by_cases hcc : evaluate_path env (perturb_path env oracle k bp).1 t0 = ⊤
    · rw [hcRestarts_step_skip hcc] at h
      exact ih fuelH _ bp bc nodes res h
    · cases hhc : hillClimb env t0 fuelH (perturb_path env oracle k bp).1
          (evaluate_path env (perturb_path env oracle k bp).1 t0) nodes with
      | none =>
        rw [hcRestarts_step_out hcc hhc] at h
        exact Option.noConfusion h
      | some pr =>
        obtain ⟨p, c, nodes2⟩ := pr
        rw [hcRestarts_step_climb hcc hhc] at h
        by_cases hbc : c < bc
        · rw [if_pos hbc] at h
          exact le_of_lt (lt_of_le_of_lt (ih fuelH _ p c nodes2 res h) hbc)
        · rw [if_neg hbc] at h
          exact ih fuelH _ bp bc nodes2 res h

/-- The restart loop terminates for some inner fuel. -/
theorem hcRestarts_terminates (env : GridEnvironment) (oracle : Nat → Nat) (t0 : Int) :
    ∀ (r k : Nat) (bp : List Pos) (bc : WithTop Int) (nodes : Nat),
      ∃ fuelH res, hcRestarts env oracle t0 fuelH r k bp bc nodes = some res := by
  intro r
  induction r with
  | zero =>
    intro k bp bc nodes
    exact ⟨0, (bp, bc, nodes), rfl⟩
  | succ r ih =>
    intro k bp bc nodes
    by_cases hcc : evaluate_path env (perturb_path env oracle k bp).1 t0 = ⊤
    · obtain ⟨fuelH, res, h⟩ := ih (perturb_path env oracle k bp).2 bp bc nodes
      exact ⟨fuelH, res, by rw [hcRestarts_step_skip hcc]; exact h⟩
    · obtain ⟨c, hc⟩ := WithTop.ne_top_iff_exists.mp hcc
      obtain ⟨f0, res0, h0⟩ := hillClimb_terminates env t0
        ((c + ((perturb_path env oracle k bp).1.length : Int) * terrainAbsSum env).toNat)
        (perturb_path env oracle k bp).1 c nodes hc.symm (le_refl _)
      obtain ⟨p, cc, n2⟩ := res0
      by_cases hbc : cc < bc
      · obtain ⟨f1, res1, h1⟩ := ih (perturb_path env oracle k bp).2 p cc n2
        refine ⟨max f0 f1, res1, ?_⟩
        have hhc2 : hillClimb env t0 (max f0 f1) (perturb_path env oracle k bp).1
            (evaluate_path env (perturb_path env oracle k bp).1 t0) nodes =
              some (p, cc, n2) := by
          rw [← hc]
          exact hillClimb_mono env t0 f0 (max f0 f1) _ _ nodes _ (le_max_left _ _) h0
        rw [hcRestarts_step_climb hcc hhc2, if_pos hbc]
        exact hcRestarts_mono env oracle t0 r f1 (max f0 f1) _ p cc n2 res1
          (le_max_right _ _) h1
      · obtain ⟨f1, res1, h1⟩ := ih (perturb_path env oracle k bp).2 bp bc n2
        refine ⟨max f0 f1, res1, ?_⟩
        have hhc2 : hillClimb env t0 (max f0 f1) (perturb_path env oracle k bp).1
            (evaluate_path env (perturb_path env oracle k bp).1 t0) nodes =
              some (p, cc, n2) := by
          rw [← hc]
          exact hillClimb_mono env t0 f0 (max f0 f1) _ _ nodes _ (le_max_left _ _) h0
        rw [hcRestarts_step_climb hcc hhc2, if_neg hbc]
        exact hcRestarts_mono env oracle t0 r f1 (max f0 f1) _ bp bc n2 res1
          (le_max_right _ _) h1

/-- C7: whenever the baseline A* search succeeds, Hill Climbing's
`find_path` also succeeds (for some inner fuel, i.e. its loops
terminate) and reports a cost that never exceeds the baseline A*
cost — for every outcome of its random choices, modelled by an
arbitrary oracle. -/
theorem C7_hc_never_worse (env : GridEnvironment) (start goal : Pos) (t0 : Int)
    (oracle : Nat → Nat) (fuelA : Nat) (rA : SearchResult)
    (hA : astar_find_path fuelA env start goal = some rA)
    (hs : rA.success = true) :
    ∃ fuelH r, hc_find_path fuelA fuelH oracle env start goal t0 = some r ∧
      r.success = true ∧ r.cost ≤ rA.cost := by
  obtain ⟨fuelH, res, hres⟩ := hcRestarts_terminates env oracle t0 5 0 rA.path rA.cost
    rA.nodes_expanded
  obtain ⟨bp, bc, nodes⟩ := res
  have hle := hcRestarts_cost_le env oracle t0 5 fuelH 0 rA.path rA.cost
    rA.nodes_expanded _ hres
  refine ⟨fuelH, ⟨bp, bc, nodes, true, "Hill Climbing"⟩, ?_, rfl, hle⟩
  unfold hc_find_path
  rw [hA]
  show (if rA.success = false then some rA
    else
      match hcRestarts env oracle t0 fuelH 5 0 rA.path rA.cost rA.nodes_expanded with
      | none => none
      | some (bp, bc, nodes) => some ⟨bp, bc, nodes, true, "Hill Climbing"⟩) = _
  rw [if_neg (by rw [hs]; simp), hres]

/-- Witness for C7 on the free corridor with the constant-zero oracle. -/
theorem C7_hc_never_worse_witness :
    ∃ rA, astar_find_path 20 envCorridor (0, 0) (2, 0) = some rA ∧
      rA.success = true ∧
      ∃ fuelH r, hc_find_path 20 fuelH (fun _ => 0) envCorridor (0, 0) (2, 0) 0 = some r ∧
        r.success = true ∧ r.cost ≤ rA.cost := by
  refine ⟨_, rfl, rfl, ?_⟩
  exact C7_hc_never_worse envCorridor (0, 0) (2, 0) 0 (fun _ => 0) 20 _ rfl rfl

/-- The random walk only ever extends its seed segment. -/
theorem walkSegment_shape (env : GridEnvironment) (oracle : Nat → Nat) (se : Pos) :
    ∀ (m : Nat) (cur : Pos) (acc : List Pos) (k : Nat),
      ∃ ext, (walkSegment env oracle se m cur acc k).1 = acc.reverse ++ ext := by
  intro m
  induction m with
  | zero =>
    intro cur acc k
    exact ⟨[], by simp [walkSegment]⟩
  | succ m ih =>
    intro cur acc k
    simp only [walkSegment]
    by_cases h1 : env.get_neighbors cur.1 cur.2 none = []
    · rw [if_pos h1]
      exact ⟨[], by simp⟩
    · rw [if_neg h1]
      by_cases h2 : se ∈ env.get_neighbors cur.1 cur.2 none
      · rw [if_pos h2]
        exact ⟨[se], by simp⟩
      · rw [if_neg h2]
        obtain ⟨ext, hext⟩ := ih
          ((env.get_neighbors cur.1 cur.2 none).getD
            (oracle k % (env.get_neighbors cur.1 cur.2 none).length) cur)
          (((env.get_neighbors cur.1 cur.2 none).getD
            (oracle k % (env.get_neighbors cur.1 cur.2 none).length) cur) :: acc)
          (k + 1)
        refine ⟨((env.get_neighbors cur.1 cur.2 none).getD
            (oracle k % (env.get_neighbors cur.1 cur.2 none).length) cur) :: ext, ?_⟩
        rw [hext]
        simp

theorem getElem_opt_eq_some_getD (l : List Pos) (i : Nat) (h : i < l.length) :
    l[i]? = some (l.getD i (0, 0)) := by
  rw [List.getD_eq_getElem?_getD, List.getElem?_eq_getElem h]
  rfl

/-- Splicing a segment into the interior keeps the head. -/
theorem splice_head (path mid suffix : List Pos) (s : Nat) (hs : 1 ≤ s)
    (hne : path ≠ []) :
    (path.take s ++ mid ++ suffix).head? = path.head? := by
  cases path with
  | nil => exact absurd rfl hne
  | cons a rest =>
    obtain ⟨j, rfl⟩ : ∃ j, s = j + 1 := ⟨s - 1, by omega⟩
    rfl

/-- Splicing a segment that ends at waypoint `e` keeps the last element. -/
theorem splice_getLast (path : List Pos) (s e : Nat) (ext : List Pos)
    (hs1 : 1 ≤ s) (hs2 : s ≤ path.length - 1) (he : e ≤ path.length - 1)
    (hlen : 3 ≤ path.length)
    (hend : (path.getD (s - 1) (0, 0) :: ext).getLast? = some (path.getD e (0, 0))) :
    (path.take s ++ ext ++ path.drop (e + 1)).getLast? = path.getLast? := by
  by_cases hee : e + 1 < path.length
  · have hsuf : path.drop (e + 1) ≠ [] := by
      intro hc
      have hlc := congrArg List.length hc
      rw [List.length_drop] at hlc
      simp only [List.length_nil] at hlc
      omega
    rw [List.getLast?_append_of_ne_nil _ hsuf,
      List.getLast?_eq_getElem?, List.getLast?_eq_getElem?, List.length_drop,
      List.getElem?_drop]
    congr 1
    omega
  · have he2 : e = path.length - 1 := by omega
    have hdrop : path.drop (e + 1) = [] := List.drop_eq_nil_of_le (by omega)
    rw [hdrop, List.append_nil]
    by_cases hxe : ext = []
    · subst hxe
      rw [List.append_nil]
      have hsse : path.getD (s - 1) (0, 0) = path.getD e (0, 0) := by
        simpa using hend
      rw [List.getLast?_eq_getElem?, List.getLast?_eq_getElem?]
      have hts : (path.take s).length = s := by
        rw [List.length_take]
        omega
      rw [hts, List.getElem?_take, if_pos (by omega : s - 1 < s),
        getElem_opt_eq_some_getD path (s - 1) (by omega),
        getElem_opt_eq_some_getD path (path.length - 1) (by omega),
        hsse, he2]
    · rw [List.getLast?_append_of_ne_nil _ hxe]
      have hext2 : ext.getLast? = some (path.getD e (0, 0)) := by
        cases ext with
        | nil => exact absurd rfl hxe
        | cons b t =>
          rw [← List.getLast?_cons_cons]
          exact hend
      rw [hext2, he2, List.getLast?_eq_getElem?,
        getElem_opt_eq_some_getD path (path.length - 1) (by omega)]

/-- Perturbation keeps both endpoints of the path. -/
theorem perturb_path_endpoints (env : GridEnvironment) (oracle : Nat → Nat) (k : Nat)
    (path : List Pos) :
    (perturb_path env oracle k path).1.head? = path.head? ∧
    (perturb_path env oracle k path).1.getLast? = path.getLast? := by
  by_cases hlen : path.length < 3
  · unfold perturb_path
    rw [if_pos hlen]
    exact ⟨rfl, rfl⟩
  · have hlen3 : 3 ≤ path.length := by omega
    set s := 1 + oracle k % (path.length - 2) with hsdef
    set e := min (s + (1 + oracle (k + 1) % 3)) (path.length - 1) with hedef
    set ss := path.getD (s - 1) (0, 0) with hssdef
    set se := path.getD e (0, 0) with hsedef
    have heq : perturb_path env oracle k path =
        if (walkSegment env oracle se (e - s + 2) ss [ss] (k + 2)).1.getLast? =
            some se then
          (path.take s ++ (walkSegment env oracle se (e - s + 2) ss [ss] (k + 2)).1.tail ++
            path.drop (e + 1),
            (walkSegment env oracle se (e - s + 2) ss [ss] (k + 2)).2)
        else (path, (walkSegment env oracle se (e - s + 2) ss [ss] (k + 2)).2) := by
      unfold perturb_path
      rw [if_neg hlen]
    rw [heq]
    by_cases hcond : (walkSegment env oracle se (e - s + 2) ss [ss] (k + 2)).1.getLast? =
        some se
    · rw [if_pos hcond]
      obtain ⟨ext, hext⟩ := walkSegment_shape env oracle se (e - s + 2) ss [ss] (k + 2)
      have hws : (walkSegment env oracle se (e - s + 2) ss [ss] (k + 2)).1 = ss :: ext := by
        rw [hext]
        rfl
      rw [hws] at hcond
      have hs1 : 1 ≤ s := by omega
      have hs2 : s ≤ path.length - 1 := by
        have := Nat.mod_lt (oracle k) (show 0 < path.length - 2 by omega)
        omega
      have hene : path ≠ [] := by
        intro hc
        rw [hc] at hlen3
        simp at hlen3
      refine ⟨?_, ?_⟩
      · show (path.take s ++ (walkSegment env oracle se (e - s + 2) ss [ss] (k + 2)).1.tail ++
          path.drop (e + 1)).head? = path.head?
        exact splice_head path _ _ s hs1 hene
      · show (path.take s ++ (walkSegment env oracle se (e - s + 2) ss [ss] (k + 2)).1.tail ++
          path.drop (e + 1)).getLast? = path.getLast?
        rw [hws]
        exact splice_getLast path s e ext hs1 hs2 (by omega) hlen3 hcond
    · rw [if_neg hcond]
      exact ⟨rfl, rfl⟩

/-- The running best of the restart loop stays a finite terrain sum of
its path and keeps the baseline path's endpoints. -/
theorem hcRestarts_best (env : GridEnvironment) (oracle : Nat → Nat) (t0 : Int) :
    ∀ (r fuelH k : Nat) (bp : List Pos) (bc : WithTop Int) (nodes : Nat)
      (res : List Pos × WithTop Int × Nat),
      hcRestarts env oracle t0 fuelH r k bp bc nodes = some res →
      bc ≠ ⊤ → bc = path_terrain_sum env bp →
      res.2.1 ≠ ⊤ ∧ res.2.1 = path_terrain_sum env res.1 ∧
      res.1.head? = bp.head? ∧ res.1.getLast? = bp.getLast? := by
  intro r
  induction r with
  | zero =>
    intro fuelH k bp bc nodes res h hne hsum
    cases Option.some.inj h
    exact ⟨hne, hsum, rfl, rfl⟩
  | succ r ih =>
    intro fuelH k bp bc nodes res h hne hsum
    by_cases hcc : evaluate_path env (perturb_path env oracle k bp).1 t0 = ⊤
    · rw [hcRestarts_step_skip hcc] at h
      exact ih fuelH _ bp bc nodes res h hne hsum
    · cases hhc : hillClimb env t0 fuelH (perturb_path env oracle k bp).1
          (evaluate_path env (perturb_path env oracle k bp).1 t0) nodes with
      | none =>
        rw [hcRestarts_step_out hcc hhc] at h
        exact Option.noConfusion h
      | some pr =>
        obtain ⟨p, c, nodes2⟩ := pr
        obtain ⟨hceval, hph, hpg, _⟩ :=
          hillClimb_eval env t0 fuelH _ _ nodes p c nodes2 rfl hhc
        obtain ⟨hperth, hpertg⟩ := perturb_path_endpoints env oracle k bp
        rw [hcRestarts_step_climb hcc hhc] at h
        by_cases hbc : c < bc
        · rw [if_pos hbc] at h
          have hcne : c ≠ ⊤ := ne_top_of_lt hbc
          have hcsum : c = path_terrain_sum env p := by
            rw [hceval]
            exact evaluate_path_eq_sum env p t0 (by rw [← hceval]; exact hcne)
          obtain ⟨h1, h2, h3, h4⟩ := ih fuelH _ p c nodes2 res h hcne hcsum
          exact ⟨h1, h2, h3.trans (hph.trans hperth), h4.trans (hpg.trans hpertg)⟩
        · rw [if_neg hbc] at h
          exact ih fuelH _ bp bc nodes2 res h hne hsum

/-- Success facts of a returned A* result, on arbitrary terrain. -/
theorem astar_success_terrain {fuel : Nat} {env : GridEnvironment} {start goal : Pos}
    {r : SearchResult} (h : astar_find_path fuel env start goal = some r)
    (hs : r.success = true) :
    r.cost ≠ ⊤ ∧ r.cost = path_terrain_sum env r.path ∧ r.path ≠ [] ∧
    r.path.head? = some start ∧ r.path.getLast? = some goal ∧
    ValidMovePath env r.path := by
  obtain ⟨steps, hsf, hpath, hend, hcost⟩ := (astar_result_shape h).1 hs
  have hv := steps_to_validpath env steps start hsf
  refine ⟨by rw [hcost]; simp, ?_, by rw [hpath]; simp, by rw [hpath]; rfl, ?_, ?_⟩
  · rw [hcost, hpath]
    exact hv.2.symm
  · rw [hpath, getLast_cons_endState, hend]
  · rw [hpath]
    exact hv.1

/-- Success facts of a returned UCS result, on arbitrary terrain. -/
theorem ucs_success_terrain {fuel : Nat} {env : GridEnvironment} {start goal : Pos}
    {r : SearchResult} (h : ucs_find_path fuel env start goal = some r)
    (hs : r.success = true) :
    r.cost ≠ ⊤ ∧ r.cost = path_terrain_sum env r.path ∧ r.path ≠ [] ∧
    r.path.head? = some start ∧ r.path.getLast? = some goal ∧
    ValidMovePath env r.path := by
  obtain ⟨steps, hsf, hpath, hend, hcost⟩ := (ucs_result_shape h).1 hs
  have hv := steps_to_validpath env steps start hsf
  refine ⟨by rw [hcost]; simp, ?_, by rw [hpath]; simp, by rw [hpath]; rfl, ?_, ?_⟩
  · rw [hcost, hpath]
    exact hv.2.symm
  · rw [hpath, getLast_cons_endState, hend]
  · rw [hpath]
    exact hv.1

/-- Characterisation of a returned BFS result. -/
theorem bfs_result_shape {fuel : Nat} {env : GridEnvironment} {start goal : Pos}
    {r : SearchResult} (h : bfs_find_path fuel env start goal = some r) :
    (r.success = true → r.path ≠ [] ∧ r.path.head? = some start ∧
      r.path.getLast? = some goal ∧ r.cost = ((r.path.length : Int) - 1 : Int)) ∧
    (r.success = false → r.path = [] ∧ r.cost = ⊤) := by
  unfold bfs_find_path at h
  split at h
  · exact Option.noConfusion h
  · rename_i n exp hout
    cases Option.some.inj h
    have hsound := bfsLoop_sound env start goal fuel _ _ 0 (bfsInv_init env start goal)
      _ hout
    obtain ⟨l, hvl, hrev, hlast, hlen, _⟩ := hsound.1 n exp rfl
    have hpath : reconstructStates n = start :: l := by
      unfold reconstructStates
      rw [hrev, List.reverse_reverse]
    refine ⟨fun _ => ⟨?_, ?_, ?_, ?_⟩, fun hc => by simp at hc⟩
    · show reconstructStates n ≠ []
      rw [hpath]
      simp
    · show (reconstructStates n).head? = some start
      rw [hpath]
      rfl
    · show (reconstructStates n).getLast? = some goal
      rw [hpath]
      exact hlast
    · show (((n.rev.length : Int) - 1 : Int) : WithTop Int) =
        (((reconstructStates n).length : Int) - 1 : Int)
      rw [hpath, ← hlen]
  · rename_i exp hout
    cases Option.some.inj h
    exact ⟨fun hc => by simp at hc, fun _ => ⟨rfl, rfl⟩⟩

/-- Characterisation of a returned Hill Climbing result. -/
theorem hc_result_shape {fuelA fuelH : Nat} {oracle : Nat → Nat} {env : GridEnvironment}
    {start goal : Pos} {t0 : Int} {r : SearchResult}
    (h : hc_find_path fuelA fuelH oracle env start goal t0 = some r) :
    (r.success = true → r.cost = path_terrain_sum env r.path ∧ r.path ≠ [] ∧
      r.path.head? = some start ∧ r.path.getLast? = some goal) ∧
    (r.success = false → r.path = [] ∧ r.cost = ⊤) := by
  unfold hc_find_path at h
  split at h
  · exact Option.noConfusion h
  · rename_i rA hA
    split at h
    · rename_i hfail
      cases Option.some.inj h
      refine ⟨fun hs => absurd hs (by rw [hfail]; simp), fun _ => ?_⟩
      exact (astar_result_shape hA).2 hfail
    · rename_i hsucc
      have hstrue : rA.success = true := by
        cases hb : rA.success
        · exact absurd hb hsucc
        · rfl
      split at h
      · exact Option.noConfusion h
      · rename_i bp bc nodes hrest
        cases Option.some.inj h
        obtain ⟨hne, hsum, hnonempty, hhd, hgl, _⟩ := astar_success_terrain hA hstrue
        obtain ⟨h1, h2, h3, h4⟩ := hcRestarts_best env oracle t0 5 fuelH 0 rA.path
          rA.cost rA.nodes_expanded (bp, bc, nodes) hrest hne hsum
        refine ⟨fun _ => ⟨h2, ?_, ?_, ?_⟩, fun hc => by simp at hc⟩
        · show bp ≠ []
          intro hc
          rw [hc] at h3
          rw [hhd] at h3
          exact Option.noConfusion h3.symm
        · show bp.head? = some start
          rw [show bp.head? = rA.path.head? from h3, hhd]
        · show bp.getLast? = some goal
          rw [show bp.getLast? = rA.path.getLast? from h4, hgl]

/-- The abstract temporal step cost projects to `temporal_path_cost`
of the position path. -/
theorem temporal_steps_path_cost (env : GridEnvironment) (t0 horizon : Int) :
    ∀ (steps : List ((Pos × Int) × Int)) (st0 : Pos × Int),
      StepsFrom (temporalSucc env t0 horizon) st0 steps →
      temporal_path_cost env (st0.1 :: (steps.map Prod.fst).map (fun st => st.1)) =
        ((stepsCost steps : Int) : WithTop Int) := by
  intro steps
  induction steps with
  | nil =>
    intro st0 _
    show (0 : WithTop Int) = _
    norm_num [stepsCost]
  | cons hd tl ih =>
    obtain ⟨st1, w⟩ := hd
    intro st0 hsf
    rw [StepsFrom_cons_iff] at hsf
    dsimp only at hsf
    obtain ⟨hmem, htl⟩ := hsf
    have ihv := ih st1 htl
    simp only [List.map_cons]
    obtain ⟨_, _, hcase⟩ := mem_temporalSucc_elim hmem
    rw [show temporal_path_cost env
        (st0.1 :: st1.1 :: (tl.map Prod.fst).map (fun st => st.1)) =
      (if st1.1 = st0.1 then 1 else env.get_terrain_cost st1.1.1 st1.1.2) +
        temporal_path_cost env (st1.1 :: (tl.map Prod.fst).map (fun st => st.1)) from rfl]
    rw [ihv, stepsCost_cons]
    rcases hcase with ⟨hb, hw, _⟩ | ⟨hnb, hw⟩
    · rw [if_pos hb, hw]
      push_cast
      ring_nf
    · have hne : st1.1 ≠ st0.1 := mem_get_neighbors_ne env st0.1.1 st0.1.2 _ st1.1 hnb
      have hval := mem_get_neighbors_valid env st0.1.1 st0.1.2 _ st1.1 hnb
      rw [if_neg hne, hw, get_terrain_cost_of_valid env st1.1.1 st1.1.2 hval]
      push_cast
      ring_nf

/-- Success facts of a returned Temporal A* result. -/
theorem temporal_success_facts {fuel : Nat} {env : GridEnvironment} {horizon : Int}
    {start goal : Pos} {t0 : Int} {r : SearchResult}
    (h : temporal_astar_find_path fuel env horizon start goal t0 = some r)
    (hs : r.success = true) :
    r.cost ≠ ⊤ ∧ r.cost = temporal_path_cost env r.path ∧ r.path ≠ [] ∧
    r.path.head? = some start ∧ r.path.getLast? = some goal := by
  obtain ⟨steps, hsf, hpath, hend, hcost⟩ := (temporal_result_shape h).1 hs
  refine ⟨by rw [hcost]; simp, ?_, by rw [hpath]; simp, by rw [hpath]; rfl, ?_⟩
  · rw [hcost, hpath]
    have := temporal_steps_path_cost env t0 horizon steps (start, t0) hsf
    rw [← this]
  · rw [hpath]
    have hmap : (start : Pos) :: (steps.map Prod.fst).map (fun st : Pos × Int => st.1) =
        (((start, t0) :: steps.map Prod.fst).map (fun st : Pos × Int => st.1)) := rfl
    rw [hmap, List.getLast?_map, getLast_cons_endState]
    show some ((endState (start, t0) steps).1) = some goal
    rw [hend]

/-- C1 counterexample: two successful results whose cost field is not
the terrain sum of the path's tail.  BFS on the 2-cell strip reports
cost 1 (the step count) although the terrain sum is 2; Temporal A* on
`envWait` waits one tick and reports cost 11 (1 for the wait plus 5+5
terrain) although the terrain sum of its path is 15. -/
theorem C1_counterexample :
    (bfs_find_path 10 envStrip (0, 0) (1, 0)).map SearchResult.success = some true ∧
    (bfs_find_path 10 envStrip (0, 0) (1, 0)).map SearchResult.cost =
      some ((1 : Int) : WithTop Int) ∧
    (bfs_find_path 10 envStrip (0, 0) (1, 0)).map
      (fun r => path_terrain_sum envStrip r.path) = some ((2 : Int) : WithTop Int) ∧
    (temporal_astar_find_path 80 envWait 5 (0, 0) (2, 0) 0).map SearchResult.success =
      some true ∧
    (temporal_astar_find_path 80 envWait 5 (0, 0) (2, 0) 0).map SearchResult.cost =
      some ((11 : Int) : WithTop Int) ∧
    (temporal_astar_find_path 80 envWait 5 (0, 0) (2, 0) 0).map
      (fun r => path_terrain_sum envWait r.path) = some ((15 : Int) : WithTop Int) :=
  ⟨rfl, rfl, rfl, rfl, rfl, rfl⟩

/-- C1 (amended): the cost semantics that actually hold, for every
environment, start/goal pair, fuel, horizon, start time and oracle.
UCS, A* and Hill Climbing report the terrain sum of the path's tail;
BFS reports the step count (path length minus one); Temporal A*
charges 1 per wait step and the entered cell's terrain per move. -/
theorem C1_amended_cost_semantics (env : GridEnvironment) (start goal : Pos)
    (fuel fuelA fuelH : Nat) (oracle : Nat → Nat) (horizon t0 : Int) :
    (∀ r, ucs_find_path fuel env start goal = some r → r.success = true →
      r.cost = path_terrain_sum env r.path) ∧
    (∀ r, astar_find_path fuel env start goal = some r → r.success = true →
      r.cost = path_terrain_sum env r.path) ∧
    (∀ r, hc_find_path fuelA fuelH oracle env start goal t0 = some r →
      r.success = true → r.cost = path_terrain_sum env r.path) ∧
    (∀ r, bfs_find_path fuel env start goal = some r → r.success = true →
      r.cost = ((r.path.length : Int) - 1 : Int)) ∧
    (∀ r, temporal_astar_find_path fuel env horizon start goal t0 = some r →
      r.success = true → r.cost = temporal_path_cost env r.path) := by
  refine ⟨?_, ?_, ?_, ?_, ?_⟩
  · intro r h hs
    exact (ucs_success_terrain h hs).2.1
  · intro r h hs
    exact (astar_success_terrain h hs).2.1
  · intro r h hs
    exact ((hc_result_shape h).1 hs).1
  · intro r h hs
    exact ((bfs_result_shape h).1 hs).2.2.2
  · intro r h hs
    exact (temporal_success_facts h hs).2.1

/-- C2: for all five algorithms, a returned SearchResult succeeds
exactly when its path is non-empty and runs from the search start to
the goal; a failing result carries the empty path and cost
`+infinity`. -/
theorem C2_success_iff_endpoints (env : GridEnvironment) (start goal : Pos)
    (fuel fuelA fuelH : Nat) (oracle : Nat → Nat) (horizon t0 : Int) :
    (∀ r, bfs_find_path fuel env start goal = some r →
      ((r.success = true ↔ r.path ≠ [] ∧ r.path.head? = some start ∧
        r.path.getLast? = some goal) ∧
       (r.success = false → r.path = [] ∧ r.cost = ⊤))) ∧
    (∀ r, ucs_find_path fuel env start goal = some r →
      ((r.success = true ↔ r.path ≠ [] ∧ r.path.head? = some start ∧
        r.path.getLast? = some goal) ∧
       (r.success = false → r.path = [] ∧ r.cost = ⊤))) ∧
    (∀ r, astar_find_path fuel env start goal = some r →
      ((r.success = true ↔ r.path ≠ [] ∧ r.path.head? = some start ∧
        r.path.getLast? = some goal) ∧
       (r.success = false → r.path = [] ∧ r.cost = ⊤))) ∧
    (∀ r, temporal_astar_find_path fuel env horizon start goal t0 = some r →
      ((r.success = true ↔ r.path ≠ [] ∧ r.path.head? = some start ∧
        r.path.getLast? = some goal) ∧
       (r.success = false → r.path = [] ∧ r.cost = ⊤))) ∧
    (∀ r, hc_find_path fuelA fuelH oracle env start goal t0 = some r →
      ((r.success = true ↔ r.path ≠ [] ∧ r.path.head? = some start ∧
        r.path.getLast? = some goal) ∧
       (r.success = false → r.path = [] ∧ r.cost = ⊤))) := by
  refine ⟨?_, ?_, ?_, ?_, ?_⟩
  · intro r h
    refine ⟨⟨fun hs => ?_, fun hrhs => ?_⟩, (bfs_result_shape h).2⟩
    · obtain ⟨h1, h2, h3, _⟩ := (bfs_result_shape h).1 hs
      exact ⟨h1, h2, h3⟩
    · cases hb : r.success
      · exact absurd ((bfs_result_shape h).2 hb).1 hrhs.1
      · rfl
  · intro r h
    refine ⟨⟨fun hs => ?_, fun hrhs => ?_⟩, (ucs_result_shape h).2⟩
    · obtain ⟨_, _, h1, h2, h3, _⟩ := ucs_success_terrain h hs
      exact ⟨h1, h2, h3⟩
    · cases hb : r.success
      · exact absurd ((ucs_result_shape h).2 hb).1 hrhs.1
      · rfl
  · intro r h
    refine ⟨⟨fun hs => ?_, fun hrhs => ?_⟩, (astar_result_shape h).2⟩
    · obtain ⟨_, _, h1, h2, h3, _⟩ := astar_success_terrain h hs
      exact ⟨h1, h2, h3⟩
    · cases hb : r.success
      · exact absurd ((astar_result_shape h).2 hb).1 hrhs.1
      · rfl
  · intro r h
    refine ⟨⟨fun hs => ?_, fun hrhs => ?_⟩, (temporal_result_shape h).2⟩
    · obtain ⟨_, _, h1, h2, h3⟩ := temporal_success_facts h hs
      exact ⟨h1, h2, h3⟩
    · cases hb : r.success
      · exact absurd ((temporal_result_shape h).2 hb).1 hrhs.1
      · rfl
  · intro r h
    refine ⟨⟨fun hs => ?_, fun hrhs => ?_⟩, (hc_result_shape h).2⟩
    · obtain ⟨_, h1, h2, h3⟩ := (hc_result_shape h).1 hs
      exact ⟨h1, h2, h3⟩
    · cases hb : r.success
      · exact absurd ((hc_result_shape h).2 hb).1 hrhs.1
      · rfl
